import Mathlib

/-!
# Recursive separable B-spline transform

A shallow embedding of `itkRecursiveBSplineTransform.hxx` (the transform facade) together with
the pieces it calls: the grid geometry, the weight evaluator and the dimension-recursive kernel.
Three smaller classes follow, each in a section of its own with its conventions:
`StandardStochasticGradientOptimizer`, `DeformationFieldRegulizer` and
`VectorMeanDiffusionImageFilter`, together with a model of the rounding of `double`.

Conventions of the embedding:

* scalars live in an arbitrary commutative ring `R` (exact arithmetic; `ℤ` and `ℚ` make every
  definition executable, `ℝ` gives the statements over the reals);
* a raw pointer that is only read is the view of the memory behind it (`p i` is the C++
  `p[i]`); a raw pointer that is written through is the pair of the memory and the position;
* signed grid indices and offsets are `Int`, unsigned counts and flat parameter indices are `Nat`
  (a grid that fits in memory never reaches the 64-bit wrap-around, so none is modelled);
* an output argument of a C++ member function is an extra argument (the previous content) and
  the return value (the new content).
-/

namespace itk

open Finset

/-- The C++ loop `for (i = 0; i < n; ++i) body(i)` acting on a state `σ`. -/
def forLoop {σ : Type} (n : Nat) (body : Nat → σ → σ) (init : σ) : σ :=
  (List.range n).foldl (fun s i => body i s) init

/-- Offset table of an ITK image of the given size: `table[0] = 1`,
`table[j+1] = table[j] * size[j]` (raster strides, first axis fastest). -/
def GetOffsetTable (size : Nat → Nat) : Nat → Nat
  | 0 => 1
  | j + 1 => GetOffsetTable size j * size j

/-- Offset along axis `j` of the `m`-th point of a support region of side `order + 1`,
the points being numbered in raster order (first axis varying fastest). -/
def supportOffset (order m j : Nat) : Nat :=
  (m / (order + 1) ^ j) % (order + 1)

/-- `std::vector::resize(n)`: keep the first `n` elements, pad with value-initialised ones. -/
def resize {α : Type} (l : List α) (n : Nat) (dflt : α) : List α :=
  l.take n ++ List.replicate (n - l.length) dflt

/-- The memory behind `&v[0]` (or `data_block()`) of a contiguous container. -/
def dataBlock {α : Type} (l : List α) (dflt : α) : Nat → α :=
  fun i => l.getD i dflt

/-- A container of `len` elements whose storage has been written through a raw pointer. -/
def fromDataBlock {α : Type} (len : Nat) (mem : Nat → α) : List α :=
  (List.range len).map mem

/-- `A(r, c) = v` on a fixed-size `D × D` matrix; the indices the code uses are below `D`. -/
def setEntry {R : Type} {D : Nat} (A : Matrix (Fin D) (Fin D) R) (r c : Nat) (v : R) :
    Matrix (Fin D) (Fin D) R :=
  fun i j => if i.val = r ∧ j.val = c then v else A i j

/-- `A(r, c)` on a fixed-size `D × D` matrix; the indices the code uses are below `D`. -/
def getEntry {R : Type} [Zero R] {D : Nat} (A : Matrix (Fin D) (Fin D) R) (r c : Nat) : R :=
  if h : r < D ∧ c < D then A ⟨r, h.1⟩ ⟨c, h.2⟩ else 0

/-- `JacobianType`: a dynamically sized matrix stored row-major behind `data_block()`. -/
structure JacobianType (R : Type) where
  rows : Nat
  cols : Nat
  data : Nat → R

/-- `jacobian(r, c)`. -/
def JacobianType.get {R : Type} (J : JacobianType R) (r c : Nat) : R :=
  J.data (r * J.cols + c)

/-- `SpatialHessianType`: a fixed array of `D` matrices of size `D × D`. -/
abbrev SpatialHessianType (R : Type) (D : Nat) := Fin D → Matrix (Fin D) (Fin D) R

/-- `sh[m](r, c) = v`. -/
def setHessianEntry {R : Type} {D : Nat} (sh : SpatialHessianType R D) (m r c : Nat) (v : R) :
    SpatialHessianType R D :=
  fun i => if i.val = m then setEntry (sh i) r c v else sh i

/-- `sh[m](r, c)`. -/
def getHessianEntry {R : Type} [Zero R] {D : Nat} (sh : SpatialHessianType R D) (m r c : Nat) :
    R :=
  if h : m < D then getEntry (sh ⟨m, h⟩) r c else 0

/-- Result of a member function that may throw: the exception, if one was raised, and the
content of the output arguments when control leaves the function. -/
structure Outcome (σ : Type) where
  exception : Option String
  out : σ

namespace RecursiveBSplineTransformImplementation

variable {R : Type} [CommRing R]

/-- Modelled from the spec: the recursive kernel `TransformPoint` of
`RecursiveBSplineTransformImplementation` (its header is not among the sources). Section 4.2:
"displacement vector — separable weighted sum of all control points in the support region, one
axis collapsed per recursion level"; "recursion descends dimension D → D-1 → … → 0; at each level
it iterates over the (order+1) control points along the current axis, scaling the
lower-dimensional partial result by the current axis's weight and accumulating".

`mu j` is the pointer into coefficient image `j` at the support-region origin, `weights1D a k`
the `k`-th weight of axis `a`; the result is the displacement, one entry per output component. -/
def TransformPoint (SplineOrder : Nat) (gridOffsetTable : Nat → Nat) (weights1D : Nat → Nat → R) :
    Nat → (Nat → Int → R) → Nat → R
  | 0, mu => fun j => mu j 0
  | dim + 1, mu => fun j =>
    forLoop (SplineOrder + 1)
      (fun k opp =>
        opp + TransformPoint SplineOrder gridOffsetTable weights1D dim
                (fun c i => mu c (i + (k : Int) * (gridOffsetTable dim : Int))) j
              * weights1D dim k)
      0

/-- Modelled from the spec: the recursive kernel `GetJacobian` (header not among the sources).
Section 4.2: "writes, for each axis, the `(order+1)^D` basis-weight products into the
corresponding block of the output matrix"; the recursion multiplies one axis weight per level.
The matrix has `OutD` rows of `OutD * (order+1)^OutD` entries, stored row-major, so the block of
axis `j` in row `j` starts at `j * (order+1)^OutD * (OutD + 1)`. The state is the memory of the
matrix and the moving write pointer. -/
def GetJacobian (SplineOrder OutD : Nat) (weights1D : Nat → Nat → R) :
    Nat → (Nat → R) × Nat → R → (Nat → R) × Nat
  | 0, (jacobians, p), value =>
    (forLoop OutD
      (fun j mem => Function.update mem (p + j * ((SplineOrder + 1) ^ OutD * (OutD + 1))) value)
      jacobians, p + 1)
  | dim + 1, st, value =>
    forLoop (SplineOrder + 1)
      (fun k st => GetJacobian SplineOrder OutD weights1D dim st (value * weights1D dim k)) st

/-- Modelled from the spec: the recursive kernel `EvaluateJacobianWithImageGradientProduct`
(header not among the sources). Section 4.4: it "fuses `GetJacobian` with a dot product against
a supplied gradient vector to avoid materializing the full Jacobian matrix": the entry of the
block of axis `j` is the weight product times the `j`-th gradient component. -/
def EvaluateJacobianWithImageGradientProduct (SplineOrder OutD : Nat)
    (movingImageGradient : Nat → R) (weights1D : Nat → Nat → R) :
    Nat → (Nat → R) × Nat → R → (Nat → R) × Nat
  | 0, (imageJacobian, p), value =>
    (forLoop OutD
      (fun j mem => Function.update mem (p + j * (SplineOrder + 1) ^ OutD)
        (value * movingImageGradient j))
      imageJacobian, p + 1)
  | dim + 1, st, value =>
    forLoop (SplineOrder + 1)
      (fun k st => EvaluateJacobianWithImageGradientProduct SplineOrder OutD movingImageGradient
        weights1D dim st (value * weights1D dim k)) st

/-- Modelled from the spec: the recursive kernel `ComputeNonZeroJacobianIndices` (header not
among the sources). Section 2: it "computes, in a canonical order, the flat indices of control
coefficients inside the support region, per spatial dimension block"; section 4.3: "ordered
dimension-major then support-region-lexicographic". Each level walks the `order + 1` control
points of its axis, advancing the flat index by the axis stride; the innermost level writes the
index of the current control point into each of the `OutD` dimension blocks. -/
def ComputeNonZeroJacobianIndices (SplineOrder OutD : Nat) (parametersPerDim : Nat)
    (gridOffsetTable : Nat → Nat) :
    Nat → (Nat → Nat) × Nat → Nat → (Nat → Nat) × Nat
  | 0, (nzji, p), currentIndex =>
    (forLoop OutD
      (fun j mem => Function.update mem (p + j * (SplineOrder + 1) ^ OutD)
        (currentIndex + j * parametersPerDim))
      nzji, p + 1)
  | dim + 1, st, currentIndex =>
    forLoop (SplineOrder + 1)
      (fun k st => ComputeNonZeroJacobianIndices SplineOrder OutD parametersPerDim
        gridOffsetTable dim st (currentIndex + k * gridOffsetTable dim)) st

/-- Modelled from the spec: the recursive kernel `GetSpatialJacobian` (header not among the
sources). Section 4.2: it "combines value- and derivative-weights to produce the
displacement-by-physical-coordinate matrix, still in index (not physical) coordinates; returned
together with the displacement as a free by-product". The buffer of level `dim` holds
`OutD * (dim + 1)` entries: the displacement first, then for each axis `a < dim` the `OutD`
derivatives along `a` (the layout the facade reads: entry `i + (a + 1) * OutD`). -/
def GetSpatialJacobian (SplineOrder OutD : Nat) (gridOffsetTable : Nat → Nat)
    (weights1D derivativeWeights1D : Nat → Nat → R) :
    Nat → (Nat → Int → R) → Nat → R
  | 0, mu => fun n => if n < OutD then mu n 0 else 0
  | dim + 1, mu =>
    forLoop (SplineOrder + 1)
      (fun k sj =>
        let tmp_sj := GetSpatialJacobian SplineOrder OutD gridOffsetTable weights1D
          derivativeWeights1D dim (fun c i => mu c (i + (k : Int) * (gridOffsetTable dim : Int)))
        fun n =>
          if n < OutD * (dim + 1) then sj n + tmp_sj n * weights1D dim k
          else if n < OutD * (dim + 2) then
            sj n + tmp_sj (n - OutD * (dim + 1)) * derivativeWeights1D dim k
          else sj n)
      (fun _ => 0)

/-- Modelled from the spec: the recursive kernel `GetJacobianOfSpatialJacobian` (header not
among the sources). Section 4.2: it produces, "per non-zero parameter, the sensitivity of the
spatial Jacobian ... to that single control coefficient; computed by recursively expanding the
per-axis weight/derivative-weight products and pre/post-multiplying by the index-to-physical
correction matrix in the same pass". The vector `jsj` carries the expanded products: entry `0`
the product of the value weights, entry `a + 1` the product with the derivative weight on axis
`a`. The innermost level multiplies the derivative products by the correction matrix and stores,
for every output dimension `d`, the sensitivity matrix of the parameter of dimension block `d`
(its row `d` holds the products, its other rows are zero); the state is the storage of the
output vector and the index of the matrix the pointer stands at. -/
def GetJacobianOfSpatialJacobian (SplineOrder OutD : Nat)
    (weights1D derivativeWeights1D : Nat → Nat → R)
    (directionCosines : Matrix (Fin OutD) (Fin OutD) R) :
    Nat → (Nat → Matrix (Fin OutD) (Fin OutD) R) × Nat → (Nat → R) →
      (Nat → Matrix (Fin OutD) (Fin OutD) R) × Nat
  | 0, (jsj_out, p), jsj =>
    (forLoop OutD
      (fun d mem => Function.update mem (p + d * (SplineOrder + 1) ^ OutD)
        (fun r c =>
          if r.val = d then ∑ l : Fin OutD, jsj (l.val + 1) * directionCosines l c else 0))
      jsj_out, p + 1)
  | dim + 1, st, jsj =>
    forLoop (SplineOrder + 1)
      (fun k st => GetJacobianOfSpatialJacobian SplineOrder OutD weights1D derivativeWeights1D
        directionCosines dim st
        (fun n => if n = dim + 1 then jsj 0 * derivativeWeights1D dim k
                  else jsj n * weights1D dim k)) st

end RecursiveBSplineTransformImplementation

/-- The entry points of the recursive kernel whose results the facade only copies or returns
(`GetSpatialHessian`, `GetJacobianOfSpatialJacobian`, `GetJacobianOfSpatialHessian` of
`RecursiveBSplineTransformImplementation`, header not among the sources), taken as parameters.
`GetSpatialHessian` returns the buffer `spatialHessian`; the other two receive the storage of
the output container (element `i` of the vector at index `i`), which they write through a raw
pointer, and return its new content. -/
structure RecursiveBSplineDerivativeKernels (R : Type) (D : Nat) where
  GetSpatialHessian : (Nat → Int → R) → (Nat → Nat) → (Nat → Nat → R) → (Nat → Nat → R) →
    (Nat → Nat → R) → Nat → R
  GetJacobianOfSpatialJacobian : (Nat → Matrix (Fin D) (Fin D) R) → (Nat → Nat → R) →
    (Nat → Nat → R) → Matrix (Fin D) (Fin D) R → R → Nat → Matrix (Fin D) (Fin D) R
  GetJacobianOfSpatialHessian : (Nat → SpatialHessianType R D) → (Nat → Nat → R) →
    (Nat → Nat → R) → (Nat → Nat → R) → Matrix (Fin D) (Fin D) R → R →
    Nat → SpatialHessianType R D

/-- The derivative kernels `K` with the entry point `GetJacobianOfSpatialJacobian` given by the
recursive kernel modelled above, started at the first matrix of the vector with the products
`{ dummy }`. -/
def withRecursiveJacobianOfSpatialJacobian {R : Type} [CommRing R] {D : Nat} (order : Nat)
    (K : RecursiveBSplineDerivativeKernels R D) : RecursiveBSplineDerivativeKernels R D :=
  { K with
    GetJacobianOfSpatialJacobian := fun jsj_out weights1D derivativeWeights1D dc dummy =>
      (RecursiveBSplineTransformImplementation.GetJacobianOfSpatialJacobian order D weights1D
        derivativeWeights1D dc D (jsj_out, 0) (fun n => if n = 0 then dummy else 0)).1 }

/-- The weight evaluator (`RecursiveBSplineInterpolationWeightFunction`, declared outside the
sources at hand), taken as a parameter. `Evaluate` returns the per-axis value weights
(`weights1D a k`, axis `a`, `k ≤ order`) and the support index; the two derivative evaluators
receive the continuous index and the support index and return per-axis weights. -/
structure RecursiveBSplineInterpolationWeightFunction (R : Type) (D : Nat) where
  Evaluate : (Fin D → R) → (Nat → Nat → R) × (Nat → Int)
  EvaluateDerivative : (Fin D → R) → (Nat → Int) → Nat → Nat → R
  EvaluateSecondOrderDerivative : (Fin D → R) → (Nat → Int) → Nat → Nat → R

/-- State of a `RecursiveBSplineTransform<TScalar, NDimensions, VSplineOrder>` as far as the
member functions of `itkRecursiveBSplineTransform.hxx` read it. The members inherited from the
base class whose code is not among the sources are fields: the grid size, the parameter buffer,
the point-to-index matrices, the point to continuous-index conversion and the weight
evaluator.

Only `TransformPoint` tests `m_CoefficientImages[0]`. The other member functions dereference it
for its offset table and buffers, so they presuppose that the coefficient images are set; all
coefficient images have the size of the grid region, and the embedding reads the offset table
from `m_GridSize`. -/
structure RecursiveBSplineTransform (TScalar : Type) (NDimensions VSplineOrder : Nat) where
  /-- `m_GridRegion.GetSize()`, per axis. -/
  m_GridSize : Nat → Nat
  /-- Whether `m_CoefficientImages[0]` is non-null. -/
  m_CoefficientImagesSet : Bool
  /-- Whether `m_InputParametersPointer` is non-null. -/
  m_InputParametersSet : Bool
  /-- The flat parameter buffer the coefficient images wrap. -/
  m_Parameters : Int → TScalar
  m_PointToIndexMatrix2 : Matrix (Fin NDimensions) (Fin NDimensions) TScalar
  m_PointToIndexMatrixTransposed2 : Matrix (Fin NDimensions) (Fin NDimensions) TScalar
  TransformPointToContinuousGridIndex : (Fin NDimensions → TScalar) → (Fin NDimensions → TScalar)
  m_RecursiveBSplineWeightFunction :
    RecursiveBSplineInterpolationWeightFunction TScalar NDimensions

namespace RecursiveBSplineTransform

variable {R : Type} [CommRing R] {D order : Nat}

/-- Modelled from the spec: `GetNumberOfParametersPerDimension` of the base class, the number of
control points of the grid ("one scalar field per spatial dimension ... same shape"). -/
def GetNumberOfParametersPerDimension (T : RecursiveBSplineTransform R D order) : Nat :=
  GetOffsetTable T.m_GridSize D

/-- Modelled from the spec: `GetNumberOfNonZeroJacobianIndices` of the base class, section 3:
"size = D × (order+1)^D". -/
def GetNumberOfNonZeroJacobianIndices (_T : RecursiveBSplineTransform R D order) : Nat :=
  D * (order + 1) ^ D

/-- Modelled from the spec: the buffer of coefficient image `j` (`m_CoefficientImages[j]`), the
`j`-th block of `GetNumberOfParametersPerDimension` entries of the flat parameter vector
("flat indices of control coefficients ..., per spatial dimension block"). -/
def coefficientImageBuffer (T : RecursiveBSplineTransform R D order) (j : Nat) (pos : Int) : R :=
  T.m_Parameters ((j : Int) * (T.GetNumberOfParametersPerDimension : Int) + pos)

/-- Modelled from the spec: `InsideValidRegion` of the base class. Section 3: the support region
is "always entirely inside the grid for a valid query (otherwise the point is outside the
transform's domain of validity)"; section 7: "out-of-domain point — support region not fully
inside the grid"; the facade's own comments: "if the support region does not lie totally within
the grid we assume zero displacement". The support region of side `order + 1` is anchored at the
support index the weight evaluator derives from the continuous index. -/
def InsideValidRegion (T : RecursiveBSplineTransform R D order) (cindex : Fin D → R) : Bool :=
  decide (∀ j, j < D →
    0 ≤ (T.m_RecursiveBSplineWeightFunction.Evaluate cindex).2 j ∧
    (T.m_RecursiveBSplineWeightFunction.Evaluate cindex).2 j + (order : Int)
      ≤ (T.m_GridSize j : Int) - 1)

/-- The loop `for j: totalOffsetToSupportIndex += supportIndex[j] * bsplineOffsetTable[j]`. -/
def totalOffsetToSupportIndex (D : Nat) (supportIndex : Nat → Int)
    (bsplineOffsetTable : Nat → Nat) : Int :=
  forLoop D (fun j total => total + supportIndex j * (bsplineOffsetTable j : Int)) 0

/-- `RecursiveBSplineTransform::TransformPoint`. -/
def TransformPoint (T : RecursiveBSplineTransform R D order) (point : Fin D → R) : Fin D → R :=
  if !T.m_CoefficientImagesSet then
    -- itkWarningMacro; outputPoint = point
    point
  else
    let cindex := T.TransformPointToContinuousGridIndex point
    let inside := T.InsideValidRegion cindex
    if !inside then
      point
    else
      let weights1D := (T.m_RecursiveBSplineWeightFunction.Evaluate cindex).1
      let supportIndex := (T.m_RecursiveBSplineWeightFunction.Evaluate cindex).2
      let bsplineOffsetTable := GetOffsetTable T.m_GridSize
      let total := totalOffsetToSupportIndex D supportIndex bsplineOffsetTable
      let mu : Nat → Int → R := fun j i => T.coefficientImageBuffer j (total + i)
      let displacement :=
        RecursiveBSplineTransformImplementation.TransformPoint order bsplineOffsetTable
          weights1D D mu
      fun j => displacement j + point j

/-- The placeholder index list of the out-of-domain branches:
`nonZeroJacobianIndices.resize(n); for (i = 0; i < n; ++i) nonZeroJacobianIndices[i] = i;`. -/
def placeholderIndices (nonZeroJacobianIndices : List Nat) (n : Nat) : List Nat :=
  forLoop n (fun i l => l.set i i) (resize nonZeroJacobianIndices n 0)

/-- `RecursiveBSplineTransform::ComputeNonZeroJacobianIndices`; of the support region only the
index is read. The code takes the offset table from `m_CoefficientImages[0]` without testing
the pointer: the value given here is the result of the code when the coefficient images are
set (`m_CoefficientImagesSet = true`); without them the code does not return. -/
def ComputeNonZeroJacobianIndices (T : RecursiveBSplineTransform R D order)
    (nonZeroJacobianIndices : List Nat) (supportRegionIndex : Nat → Int) : List Nat :=
  let parametersPerDim := T.GetNumberOfParametersPerDimension
  let nonZeroJacobianIndices :=
    resize nonZeroJacobianIndices T.GetNumberOfNonZeroJacobianIndices 0
  let startIndex := supportRegionIndex
  let gridOffsetTable := GetOffsetTable T.m_GridSize
  let total := totalOffsetToSupportIndex D startIndex gridOffsetTable
  -- unsigned long currentIndex = totalOffsetToSupportIndex
  let currentIndex : Nat := total.toNat
  let written :=
    RecursiveBSplineTransformImplementation.ComputeNonZeroJacobianIndices order D
      parametersPerDim gridOffsetTable D (dataBlock nonZeroJacobianIndices 0, 0) currentIndex
  fromDataBlock nonZeroJacobianIndices.length written.1

/-- `RecursiveBSplineTransform::GetJacobian`: the new content of `jacobian` and of
`nonZeroJacobianIndices`. -/
def GetJacobian (T : RecursiveBSplineTransform R D order) (ipp : Fin D → R)
    (jacobian : JacobianType R) (nonZeroJacobianIndices : List Nat) :
    JacobianType R × List Nat :=
  let cindex := T.TransformPointToContinuousGridIndex ipp
  let nnzji := T.GetNumberOfNonZeroJacobianIndices
  let jacobian : JacobianType R :=
    if jacobian.cols ≠ nnzji ∨ jacobian.rows ≠ D then
      -- jacobian.SetSize(SpaceDimension, nnzji); jacobian.Fill(0.0)
      { rows := D, cols := nnzji, data := fun _ => 0 }
    else jacobian
  if !T.InsideValidRegion cindex then
    (jacobian, placeholderIndices nonZeroJacobianIndices T.GetNumberOfNonZeroJacobianIndices)
  else
    let weights1D := (T.m_RecursiveBSplineWeightFunction.Evaluate cindex).1
    let supportIndex := (T.m_RecursiveBSplineWeightFunction.Evaluate cindex).2
    let written :=
      RecursiveBSplineTransformImplementation.GetJacobian order D weights1D D
        (jacobian.data, 0) 1
    ({ jacobian with data := written.1 },
      T.ComputeNonZeroJacobianIndices nonZeroJacobianIndices supportIndex)

/-- `RecursiveBSplineTransform::EvaluateJacobianWithImageGradientProduct`: the new content of
`imageJacobian` and of `nonZeroJacobianIndices`. -/
def EvaluateJacobianWithImageGradientProduct (T : RecursiveBSplineTransform R D order)
    (ipp : Fin D → R) (movingImageGradient : Fin D → R) (imageJacobian : List R)
    (nonZeroJacobianIndices : List Nat) : List R × List Nat :=
  let cindex := T.TransformPointToContinuousGridIndex ipp
  let nnzji := T.GetNumberOfNonZeroJacobianIndices
  if !T.InsideValidRegion cindex then
    (imageJacobian, placeholderIndices nonZeroJacobianIndices nnzji)
  else
    let weights1D := (T.m_RecursiveBSplineWeightFunction.Evaluate cindex).1
    let supportIndex := (T.m_RecursiveBSplineWeightFunction.Evaluate cindex).2
    let migArray : Nat → R := fun j => if h : j < D then movingImageGradient ⟨j, h⟩ else 0
    let written :=
      RecursiveBSplineTransformImplementation.EvaluateJacobianWithImageGradientProduct order D
        migArray weights1D D (dataBlock imageJacobian 0, 0) 1
    (fromDataBlock imageJacobian.length written.1,
      T.ComputeNonZeroJacobianIndices nonZeroJacobianIndices supportIndex)

/-- `RecursiveBSplineTransform::GetSpatialJacobian`: the new content of `sj`. Inside the valid
region the code takes the offset table and the buffers from `m_CoefficientImages` without
testing the pointer: there the value given here is the result of the code when the coefficient
images are set (`m_CoefficientImagesSet = true`); without them the code does not return. -/
def GetSpatialJacobian (T : RecursiveBSplineTransform R D order) (ipp : Fin D → R)
    (_sj : Matrix (Fin D) (Fin D) R) : Matrix (Fin D) (Fin D) R :=
  let cindex := T.TransformPointToContinuousGridIndex ipp
  if !T.InsideValidRegion cindex then
    -- sj.SetIdentity()
    1
  else
    let weights1D := (T.m_RecursiveBSplineWeightFunction.Evaluate cindex).1
    let supportIndex := (T.m_RecursiveBSplineWeightFunction.Evaluate cindex).2
    let derivativeWeights1D :=
      T.m_RecursiveBSplineWeightFunction.EvaluateDerivative cindex supportIndex
    let bsplineOffsetTable := GetOffsetTable T.m_GridSize
    let total := totalOffsetToSupportIndex D supportIndex bsplineOffsetTable
    let mu : Nat → Int → R := fun j i => T.coefficientImageBuffer j (total + i)
    let spatialJacobian :=
      RecursiveBSplineTransformImplementation.GetSpatialJacobian order D bsplineOffsetTable
        weights1D derivativeWeights1D D mu
    let sj : Matrix (Fin D) (Fin D) R := fun i j => spatialJacobian (i.val + (j.val + 1) * D)
    let sj := sj * T.m_PointToIndexMatrix2
    -- for j: sj(j, j) += 1.0
    fun i j => if i = j then sj i j + 1 else sj i j

/-- The copy loop of `GetSpatialHessian`: the lower triangles of the `D` matrices are read from
the kernel's buffer, `k` being the running read offset. -/
def copySpatialHessian (D : Nat) (spatialHessian : Nat → R) (sh : SpatialHessianType R D) :
    SpatialHessianType R D × Nat :=
  forLoop D
    (fun i st =>
      (forLoop ((i + 1) * D)
        (fun j sh => setHessianEntry sh (j % D) i (j / D) (spatialHessian (st.2 + j)))
        st.1,
       st.2 + (i + 2) * D))
    (sh, 2 * D)

/-- The mirroring loop of `GetSpatialHessian`:
`for i < D, for j < D - 1, for 1 ≤ k < D: sh[i](j, k) = sh[i](k, j)`. -/
def mirrorSpatialHessian (D : Nat) (sh : SpatialHessianType R D) : SpatialHessianType R D :=
  forLoop D
    (fun i sh =>
      forLoop (D - 1)
        (fun j sh =>
          forLoop (D - 1)
            (fun k' sh => setHessianEntry sh i j (k' + 1) (getHessianEntry sh i (k' + 1) j))
            sh)
        sh)
    sh

/-- `RecursiveBSplineTransform::GetSpatialHessian`: the new content of `sh`. Inside the valid
region the code takes the offset table and the buffers from `m_CoefficientImages` without
testing the pointer: there the value given here is the result of the code when the coefficient
images are set (`m_CoefficientImagesSet = true`); without them the code does not return. -/
def GetSpatialHessian (T : RecursiveBSplineTransform R D order)
    (K : RecursiveBSplineDerivativeKernels R D) (ipp : Fin D → R) (sh : SpatialHessianType R D) :
    SpatialHessianType R D :=
  let cindex := T.TransformPointToContinuousGridIndex ipp
  if !T.InsideValidRegion cindex then
    -- for (i = 0; i < sh.Size(); ++i) sh[i].Fill(0.0)
    forLoop D (fun i sh => fun m => if m.val = i then 0 else sh m) sh
  else
    let weights1D := (T.m_RecursiveBSplineWeightFunction.Evaluate cindex).1
    let supportIndex := (T.m_RecursiveBSplineWeightFunction.Evaluate cindex).2
    let derivativeWeights1D :=
      T.m_RecursiveBSplineWeightFunction.EvaluateDerivative cindex supportIndex
    let hessianWeights1D :=
      T.m_RecursiveBSplineWeightFunction.EvaluateSecondOrderDerivative cindex supportIndex
    let bsplineOffsetTable := GetOffsetTable T.m_GridSize
    let total := totalOffsetToSupportIndex D supportIndex bsplineOffsetTable
    let mu : Nat → Int → R := fun j i => T.coefficientImageBuffer j (total + i)
    let spatialHessian :=
      K.GetSpatialHessian mu bsplineOffsetTable weights1D derivativeWeights1D hessianWeights1D
    let sh := (copySpatialHessian D spatialHessian sh).1
    let sh := mirrorSpatialHessian D sh
    fun dim => T.m_PointToIndexMatrixTransposed2 * (sh dim * T.m_PointToIndexMatrix2)

/-- `RecursiveBSplineTransform::GetJacobianOfSpatialJacobian` (three-argument overload): the
exception, if raised, and the content of `jsj` and `nonZeroJacobianIndices` on exit. -/
def GetJacobianOfSpatialJacobian (T : RecursiveBSplineTransform R D order)
    (K : RecursiveBSplineDerivativeKernels R D) (ipp : Fin D → R)
    (jsj : List (Matrix (Fin D) (Fin D) R)) (nonZeroJacobianIndices : List Nat) :
    Outcome (List (Matrix (Fin D) (Fin D) R) × List Nat) :=
  if !T.m_InputParametersSet then
    ⟨some "Cannot compute Jacobian: parameters not set", (jsj, nonZeroJacobianIndices)⟩
  else
    let jsj := resize jsj T.GetNumberOfNonZeroJacobianIndices 0
    let cindex := T.TransformPointToContinuousGridIndex ipp
    if !T.InsideValidRegion cindex then
      -- for (i = 0; i < jsj.size(); ++i) jsj[i].Fill(0.0)
      let jsj := forLoop jsj.length (fun i l => l.set i 0) jsj
      ⟨none, (jsj, placeholderIndices nonZeroJacobianIndices T.GetNumberOfNonZeroJacobianIndices)⟩
    else
      let weights1D := (T.m_RecursiveBSplineWeightFunction.Evaluate cindex).1
      let supportIndex := (T.m_RecursiveBSplineWeightFunction.Evaluate cindex).2
      let derivativeWeights1D :=
        T.m_RecursiveBSplineWeightFunction.EvaluateDerivative cindex supportIndex
      let dummy : R := 1
      let dc := T.m_PointToIndexMatrix2
      let written :=
        K.GetJacobianOfSpatialJacobian (dataBlock jsj 0) weights1D derivativeWeights1D dc dummy
      ⟨none, (fromDataBlock jsj.length written,
        T.ComputeNonZeroJacobianIndices nonZeroJacobianIndices supportIndex)⟩

/-- `RecursiveBSplineTransform::GetJacobianOfSpatialJacobian` (overload that also returns the
spatial Jacobian): the exception, if raised, and the content of `sj`, `jsj` and
`nonZeroJacobianIndices` on exit. -/
def GetJacobianOfSpatialJacobianWithSJ (T : RecursiveBSplineTransform R D order)
    (K : RecursiveBSplineDerivativeKernels R D) (ipp : Fin D → R)
    (sj : Matrix (Fin D) (Fin D) R) (jsj : List (Matrix (Fin D) (Fin D) R))
    (nonZeroJacobianIndices : List Nat) :
    Outcome (Matrix (Fin D) (Fin D) R × List (Matrix (Fin D) (Fin D) R) × List Nat) :=
  let r := T.GetJacobianOfSpatialJacobian K ipp jsj nonZeroJacobianIndices
  match r.exception with
  | some e => ⟨some e, (sj, r.out.1, r.out.2)⟩
  | none => ⟨none, (T.GetSpatialJacobian ipp sj, r.out.1, r.out.2)⟩

/-- `RecursiveBSplineTransform::GetJacobianOfSpatialHessian` (three-argument overload): the
exception, if raised, and the content of `jsh` and `nonZeroJacobianIndices` on exit. -/
def GetJacobianOfSpatialHessian (T : RecursiveBSplineTransform R D order)
    (K : RecursiveBSplineDerivativeKernels R D) (ipp : Fin D → R)
    (jsh : List (SpatialHessianType R D)) (nonZeroJacobianIndices : List Nat) :
    Outcome (List (SpatialHessianType R D) × List Nat) :=
  if !T.m_InputParametersSet then
    ⟨some "Cannot compute Jacobian: parameters not set", (jsh, nonZeroJacobianIndices)⟩
  else
    let jsh := resize jsh T.GetNumberOfNonZeroJacobianIndices (fun _ => 0)
    let cindex := T.TransformPointToContinuousGridIndex ipp
    if !T.InsideValidRegion cindex then
      -- for i < jsh.size(): for j < jsh[i].Size(): jsh[i][j].Fill(0.0)
      let jsh := forLoop jsh.length
        (fun i l => l.set i
          (forLoop D (fun j sh => fun m => if m.val = j then 0 else sh m) (l.getD i (fun _ => 0))))
        jsh
      ⟨none, (jsh, placeholderIndices nonZeroJacobianIndices T.GetNumberOfNonZeroJacobianIndices)⟩
    else
      let weights1D := (T.m_RecursiveBSplineWeightFunction.Evaluate cindex).1
      let supportIndex := (T.m_RecursiveBSplineWeightFunction.Evaluate cindex).2
      let derivativeWeights1D :=
        T.m_RecursiveBSplineWeightFunction.EvaluateDerivative cindex supportIndex
      let hessianWeights1D :=
        T.m_RecursiveBSplineWeightFunction.EvaluateSecondOrderDerivative cindex supportIndex
      let dc := T.m_PointToIndexMatrix2
      let dummy : R := 1
      let written :=
        K.GetJacobianOfSpatialHessian (dataBlock jsh (fun _ => 0)) weights1D derivativeWeights1D
          hessianWeights1D dc dummy
      ⟨none, (fromDataBlock jsh.length written,
        T.ComputeNonZeroJacobianIndices nonZeroJacobianIndices supportIndex)⟩

/-- `RecursiveBSplineTransform::GetJacobianOfSpatialHessian` (overload that also returns the
spatial Hessian): the exception, if raised, and the content of `sh`, `jsh` and
`nonZeroJacobianIndices` on exit. -/
def GetJacobianOfSpatialHessianWithSH (T : RecursiveBSplineTransform R D order)
    (K : RecursiveBSplineDerivativeKernels R D) (ipp : Fin D → R)
    (sh : SpatialHessianType R D) (jsh : List (SpatialHessianType R D))
    (nonZeroJacobianIndices : List Nat) :
    Outcome (SpatialHessianType R D × List (SpatialHessianType R D) × List Nat) :=
  let r := T.GetJacobianOfSpatialHessian K ipp jsh nonZeroJacobianIndices
  match r.exception with
  | some e => ⟨some e, (sh, r.out.1, r.out.2)⟩
  | none => ⟨none, (T.GetSpatialHessian K ipp sh, r.out.1, r.out.2)⟩

/-- The coefficient of component `d` at the control point with grid index `idx`, read through
the raster layout of the coefficient image. -/
def coefficientAt (T : RecursiveBSplineTransform R D order) (d : Nat) (idx : Nat → Int) : R :=
  T.coefficientImageBuffer d (∑ j in range D, idx j * (GetOffsetTable T.m_GridSize j : Int))

/-- Reference (brute force) displacement, following the words of the specification: the dense
sum, over all `(order+1)^D` control points of the support region anchored at `supportIndex`, of
the coefficient of component `d` at the control point times the product of the `D` per-axis
weights. -/
def denseDisplacement (T : RecursiveBSplineTransform R D order) (weights1D : Nat → Nat → R)
    (supportIndex : Nat → Int) (d : Nat) : R :=
  ∑ m in range ((order + 1) ^ D),
    T.coefficientAt d (fun j => supportIndex j + (supportOffset order m j : Int))
      * ∏ j in range D, weights1D j (supportOffset order m j)

end RecursiveBSplineTransform

/-! ## Devices of the proofs -/

/-- Common shape of the kernels that expand the per-axis weights and write one entry per
output component for every support point: each level runs over the `n` control points of its
axis and hands `next dim k a` down; the innermost level stores `out a j` at `p + j * B` for
every component `j` and advances the write pointer `p`. -/
def expandWrite {α β : Type} (n OutD B : Nat) (next : Nat → Nat → α → α) (out : α → Nat → β) :
    Nat → (Nat → β) × Nat → α → (Nat → β) × Nat
  | 0, (mem, p), a =>
    (forLoop OutD (fun j mem => Function.update mem (p + j * B) (out a j)) mem, p + 1)
  | dim + 1, st, a =>
    forLoop n (fun k st => expandWrite n OutD B next out dim st (next dim k a)) st

/-- The value that reaches the innermost level of `expandWrite` for the `m`-th support point. -/
def expandValue {α : Type} (n : Nat) (next : Nat → Nat → α → α) : Nat → α → Nat → α
  | 0, a, _ => a
  | dim + 1, a, m => expandValue n next dim (next dim (m / n ^ dim) a) (m % n ^ dim)

/-- The transform with `delta` added to the control coefficient of flat index `n`. -/
def RecursiveBSplineTransform.addToParameter {R : Type} [CommRing R] {D order : Nat}
    (T : RecursiveBSplineTransform R D order) (n : Nat) (delta : R) :
    RecursiveBSplineTransform R D order :=
  { T with m_Parameters := fun i => if i = (n : Int) then T.m_Parameters i + delta
                                    else T.m_Parameters i }

/-- The product over the axes `a < dim` of the weights of support point `m`, the derivative
weight being taken on axis `L - 1` when `1 ≤ L ≤ dim` and the value weight on every other
axis (`L = 0`: the plain weight product). -/
def derivativeWeightProduct {R : Type} [CommRing R] (order : Nat) (w dw : Nat → Nat → R)
    (dim L m : Nat) : R :=
  ∏ a in range dim,
    if a + 1 = L then dw a (supportOffset order m a) else w a (supportOffset order m a)

/-- One assignment of the mirroring loop of `GetSpatialHessian`, `sh[i](j, k) = sh[i](k, j)`
with `k = k' + 1`. -/
def mirrorEntry {R : Type} [Zero R] {D : Nat} (i j k' : Nat) (sh : SpatialHessianType R D) :
    SpatialHessianType R D :=
  setHessianEntry sh i j (k' + 1) (getHessianEntry sh i (k' + 1) j)

/-- The innermost loop (over `k`) of the mirroring loop, for matrix `i` and row `j`. -/
def mirrorRow {R : Type} [Zero R] {D : Nat} (i j : Nat) (sh : SpatialHessianType R D) :
    SpatialHessianType R D :=
  forLoop (D - 1) (fun k' sh => mirrorEntry i j k' sh) sh

/-- The loops over `j` and `k` of the mirroring loop, for matrix `i`. -/
def mirrorOne {R : Type} [Zero R] {D : Nat} (i : Nat) (sh : SpatialHessianType R D) :
    SpatialHessianType R D :=
  forLoop (D - 1) (fun j sh => mirrorRow i j sh) sh

/-- The state of the mirroring loop after the matrices `i < i0` are done, the rows `j < J` of
matrix `i0` are done and `K` assignments have been made in row `J`. -/
def mirrorState {R : Type} [Zero R] {D : Nat} (i0 J K : Nat) (sh : SpatialHessianType R D) :
    SpatialHessianType R D :=
  forLoop K (fun k' sh => mirrorEntry i0 J k' sh)
    (forLoop J (fun j sh => mirrorRow i0 j sh) (forLoop i0 (fun i sh => mirrorOne i sh) sh))

/-- A step on one matrix of the family, the others left alone. -/
def onMatrix {R : Type} {D : Nat} (i : Nat)
    (f : Matrix (Fin D) (Fin D) R → Matrix (Fin D) (Fin D) R) (sh : SpatialHessianType R D) :
    SpatialHessianType R D :=
  fun m => if m.val = i then f (sh m) else sh m

/-- The mirroring assignment on a single matrix. -/
def mirrorEntryMatrix {R : Type} [Zero R] {D : Nat} (j k' : Nat)
    (A : Matrix (Fin D) (Fin D) R) : Matrix (Fin D) (Fin D) R :=
  setEntry A j (k' + 1) (getEntry A (k' + 1) j)

/-- The loop over `k` on a single matrix. -/
def mirrorRowMatrix {R : Type} [Zero R] {D : Nat} (j : Nat) (A : Matrix (Fin D) (Fin D) R) :
    Matrix (Fin D) (Fin D) R :=
  forLoop (D - 1) (fun k' A => mirrorEntryMatrix j k' A) A

/-- The loops over `j` and `k` on a single matrix. -/
def mirrorMatrix {R : Type} [Zero R] {D : Nat} (A : Matrix (Fin D) (Fin D) R) :
    Matrix (Fin D) (Fin D) R :=
  forLoop (D - 1) (fun j A => mirrorRowMatrix j A) A

/-- The copy loop of `GetSpatialHessian` with its accesses recorded in the order of execution:
the assignment `sh[m](r, c) = spatialHessian[p]` is recorded as `(p, m, r, c)`. The second
component is the running read offset `k` of the code. -/
def copySpatialHessianAccesses (D : Nat) : List (Nat × Nat × Nat × Nat) × Nat :=
  forLoop D
    (fun i st =>
      (forLoop ((i + 1) * D)
        (fun j accesses => accesses ++ [(st.2 + j, j % D, i, j / D)])
        st.1,
       st.2 + (i + 2) * D))
    ([], 2 * D)

/-- Replaying a list of recorded accesses on a family of matrices, the values being read from
the buffer `spatialHessian`. -/
def replayAccesses {R : Type} {D : Nat} (spatialHessian : Nat → R)
    (accesses : List (Nat × Nat × Nat × Nat)) (sh : SpatialHessianType R D) :
    SpatialHessianType R D :=
  accesses.foldl (fun sh e => setHessianEntry sh e.2.1 e.2.2.1 e.2.2.2 (spatialHessian e.1)) sh

/-- The recording copy loop stopped after `n` rounds of its outer loop. -/
def copySpatialHessianAccessesAfter (D n : Nat) : List (Nat × Nat × Nat × Nat) × Nat :=
  forLoop n
    (fun i st =>
      (forLoop ((i + 1) * D)
        (fun j accesses => accesses ++ [(st.2 + j, j % D, i, j / D)])
        st.1,
       st.2 + (i + 2) * D))
    ([], 2 * D)

/-- Weight evaluator of the concrete transform. -/
def exampleWeightFunction : RecursiveBSplineInterpolationWeightFunction ℤ 2 where
  Evaluate := fun c =>
    (fun a k => 1 + (a : Int) + 2 * (k : Int), fun j => if h : j < 2 then c ⟨j, h⟩ else 0)
  EvaluateDerivative := fun _ _ _ k => if k = 0 then -1 else 1
  EvaluateSecondOrderDerivative := fun _ _ _ _ => 0

/-- The concrete transform: parameter `i` holds the value `i * i + 1`. -/
def exampleTransform : RecursiveBSplineTransform ℤ 2 1 where
  m_GridSize := fun j => if j = 0 then 4 else 3
  m_CoefficientImagesSet := true
  m_InputParametersSet := true
  m_Parameters := fun i => i * i + 1
  m_PointToIndexMatrix2 := 1
  m_PointToIndexMatrixTransposed2 := 1
  TransformPointToContinuousGridIndex := fun p => p
  m_RecursiveBSplineWeightFunction := exampleWeightFunction

/-- Stand-ins for the derivative kernels of the concrete transform: the Hessian buffer holds
its own indices, the two sensitivity kernels leave the storage as it is. -/
def exampleKernels : RecursiveBSplineDerivativeKernels ℤ 2 where
  GetSpatialHessian := fun _ _ _ _ _ n => (n : Int)
  GetJacobianOfSpatialJacobian := fun mem _ _ _ _ => mem
  GetJacobianOfSpatialHessian := fun mem _ _ _ _ _ => mem

/-- A family of three `3 × 3` matrices with pairwise distinct entries, for the loops of
`GetSpatialHessian`. -/
def exampleHessian : SpatialHessianType ℤ 3 :=
  fun m r c => 100 * (m.val : Int) + 10 * (r.val : Int) + (c.val : Int)

/-- A point of the concrete transform whose support region lies inside the grid. -/
def examplePointInside : Fin 2 → ℤ := ![1, 1]

/-- A point of the concrete transform whose support region leaves the grid. -/
def examplePointOutside : Fin 2 → ℤ := ![3, 0]

/-- The concrete transform before its parameters have been set. -/
def exampleTransformNotSet : RecursiveBSplineTransform ℤ 2 1 :=
  { exampleTransform with m_InputParametersSet := false }

/-! ## The optimizer `StandardStochasticGradientOptimizer`

Embedding of `itkStandardStochasticGradientDescentOptimizer.cxx`. Times and gains are scalars of
a field; `std::pow` is a parameter. The definitions of this section are in exact arithmetic
(the gain sequence over the reals); the code computes in `double`, and the definitions with
the suffix `_rounded` in the section on double-precision arithmetic apply the rounding after
every operation. The superclass
`StochasticGradientDescentOptimizer` is not among the sources: its state is the learning rate
behind `SetLearningRate` together with a remainder of arbitrary type, and its member functions
`StartOptimization` and `AdvanceOneStep` are parameters acting on that state. -/

/-- State of the superclass as far as the optimizer reaches it. -/
structure StochasticGradientDescentOptimizer (R β : Type) where
  m_LearningRate : R
  rest : β

/-- The member functions of the superclass that the optimizer calls. -/
structure StochasticGradientDescentOptimizerMethods (R β : Type) where
  StartOptimization :
    StochasticGradientDescentOptimizer R β → StochasticGradientDescentOptimizer R β
  AdvanceOneStep :
    StochasticGradientDescentOptimizer R β → StochasticGradientDescentOptimizer R β

/-- State of `StandardStochasticGradientOptimizer`: the superclass part and its own members. -/
structure StandardStochasticGradientOptimizer (R β : Type) where
  Superclass : StochasticGradientDescentOptimizer R β
  m_Param_a : R
  m_Param_A : R
  m_Param_alpha : R
  m_Param_beta : R
  m_InitialTime : R
  m_CurrentTime : R

namespace StandardStochasticGradientOptimizer

variable {R β : Type} [Field R]

/-- `SetLearningRate` of the superclass (a plain setter). -/
def SetLearningRate (s : StandardStochasticGradientOptimizer R β) (v : R) :
    StandardStochasticGradientOptimizer R β :=
  { s with Superclass := { s.Superclass with m_LearningRate := v } }

/-- `StandardStochasticGradientOptimizer::Compute_a`:
`m_Param_a / std::pow(m_Param_A + k + 1.0, m_Param_alpha)`. -/
def Compute_a (pow : R → R → R) (s : StandardStochasticGradientOptimizer R β) (k : R) : R :=
  s.m_Param_a / pow (s.m_Param_A + k + 1) s.m_Param_alpha

/-- `StandardStochasticGradientOptimizer::Compute_beta`:
`m_Param_beta / std::pow(m_Param_A + k + 1.0, m_Param_alpha)`. -/
def Compute_beta (pow : R → R → R) (s : StandardStochasticGradientOptimizer R β) (k : R) : R :=
  s.m_Param_beta / pow (s.m_Param_A + k + 1) s.m_Param_alpha

/-- `StandardStochasticGradientOptimizer::UpdateCurrentTime`: `m_CurrentTime += 1.0`, in exact
arithmetic (`UpdateCurrentTime_rounded` has the rounding of the `double` addition). -/
def UpdateCurrentTime (s : StandardStochasticGradientOptimizer R β) :
    StandardStochasticGradientOptimizer R β :=
  { s with m_CurrentTime := s.m_CurrentTime + 1 }

/-- `StandardStochasticGradientOptimizer::StartOptimization`. -/
def StartOptimization (superclass : StochasticGradientDescentOptimizerMethods R β)
    (s : StandardStochasticGradientOptimizer R β) : StandardStochasticGradientOptimizer R β :=
  -- this->m_CurrentTime = this->m_InitialTime
  let s := { s with m_CurrentTime := s.m_InitialTime }
  -- this->Superclass::StartOptimization()
  { s with Superclass := superclass.StartOptimization s.Superclass }

/-- `StandardStochasticGradientOptimizer::AdvanceOneStep`, in exact arithmetic
(`AdvanceOneStep_rounded` has the rounding of the `double` operations). -/
def AdvanceOneStep (pow : R → R → R) (superclass : StochasticGradientDescentOptimizerMethods R β)
    (s : StandardStochasticGradientOptimizer R β) : StandardStochasticGradientOptimizer R β :=
  -- this->SetLearningRate(this->Compute_a(this->m_CurrentTime))
  let s := s.SetLearningRate (s.Compute_a pow s.m_CurrentTime)
  -- this->Superclass::AdvanceOneStep()
  let s := { s with Superclass := superclass.AdvanceOneStep s.Superclass }
  -- this->UpdateCurrentTime()
  s.UpdateCurrentTime

/-- The state after `StartOptimization` followed by `i` calls of `AdvanceOneStep`. -/
def stateAfterSteps (pow : R → R → R) (superclass : StochasticGradientDescentOptimizerMethods R β)
    (s : StandardStochasticGradientOptimizer R β) (i : Nat) :
    StandardStochasticGradientOptimizer R β :=
  (AdvanceOneStep pow superclass)^[i] (s.StartOptimization superclass)

/-- The learning rate that the `i`-th `AdvanceOneStep` after `StartOptimization` hands to
`SetLearningRate` (`i = 0` for the first call). -/
def learningRateOfStep (pow : R → R → R)
    (superclass : StochasticGradientDescentOptimizerMethods R β)
    (s : StandardStochasticGradientOptimizer R β) (i : Nat) : R :=
  (stateAfterSteps pow superclass s i).Compute_a pow
    (stateAfterSteps pow superclass s i).m_CurrentTime

end StandardStochasticGradientOptimizer

/-! ## Double-precision arithmetic

The optimizer and the regulizer compute in `double`. A finite `double` is a rational number
`m * 2^e` with an integer significand `|m| < 2^53` and an exponent `e ≥ -1074`; an arithmetic
operation returns its exact result rounded to the nearest such number, ties going to the even
significand. Overflow is not modelled (the exponent is not bounded above), nor are infinities
and NaN. In the definitions below `fl` is the rounding applied after every arithmetic
operation: `roundToDouble` for the code as compiled, the identity for exact arithmetic. -/

/-- Rounding to the nearest integer, ties to the even one. -/
def roundHalfEven (x : ℚ) : Int :=
  if x - Int.floor x < 1 / 2 then Int.floor x
  else if 1 / 2 < x - Int.floor x then Int.floor x + 1
  else if Int.floor x % 2 = 0 then Int.floor x
  else Int.floor x + 1

/-- The exponent `e` of the `double`s nearest to `x`: `2^52 ≤ |x| / 2^e < 2^53`, and `-1074` in
the subnormal range. -/
def doubleExponent (x : ℚ) : Int :=
  max (Int.log 2 |x| - 52) (-1074)

/-- The `double` nearest to `x` (round to nearest, ties to even). -/
def roundToDouble (x : ℚ) : ℚ :=
  (roundHalfEven (x / 2 ^ doubleExponent x) : ℚ) * 2 ^ doubleExponent x

namespace StandardStochasticGradientOptimizer

variable {R β : Type} [Field R]

/-- `StandardStochasticGradientOptimizer::Compute_a` with the rounding of every operation:
`m_Param_a / std::pow(m_Param_A + k + 1.0, m_Param_alpha)`. -/
def Compute_a_rounded (fl : R → R) (pow : R → R → R)
    (s : StandardStochasticGradientOptimizer R β) (k : R) : R :=
  fl (s.m_Param_a / pow (fl (fl (s.m_Param_A + k) + 1)) s.m_Param_alpha)

/-- `StandardStochasticGradientOptimizer::UpdateCurrentTime` with the rounding of the addition:
`m_CurrentTime += 1.0`. -/
def UpdateCurrentTime_rounded (fl : R → R) (s : StandardStochasticGradientOptimizer R β) :
    StandardStochasticGradientOptimizer R β :=
  { s with m_CurrentTime := fl (s.m_CurrentTime + 1) }

/-- `StandardStochasticGradientOptimizer::AdvanceOneStep` with the rounding of every
operation. -/
def AdvanceOneStep_rounded (fl : R → R) (pow : R → R → R)
    (superclass : StochasticGradientDescentOptimizerMethods R β)
    (s : StandardStochasticGradientOptimizer R β) : StandardStochasticGradientOptimizer R β :=
  -- this->SetLearningRate(this->Compute_a(this->m_CurrentTime))
  let s := s.SetLearningRate (s.Compute_a_rounded fl pow s.m_CurrentTime)
  -- this->Superclass::AdvanceOneStep()
  let s := { s with Superclass := superclass.AdvanceOneStep s.Superclass }
  -- this->UpdateCurrentTime()
  s.UpdateCurrentTime_rounded fl

end StandardStochasticGradientOptimizer

/-! ## `DeformationFieldRegulizer`

Embedding of `itkDeformationFieldRegulizer.hxx`. The wrapped transform (the superclass
`TAnyITKTransform`) enters through its `TransformPoint`; the class of the intermediary
deformation-field transform is not among the sources and enters through the three member
functions the regulizer calls. A smart pointer is an `Option`, `none` being the null pointer;
a member function that dereferences a pointer has a result only if the pointer is not null.
`TransformPoint` is given in exact arithmetic, which is all its definedness depends on, and as
`TransformPoint_rounded` with the rounding of its two `double` operations. -/

/-- `RegionType` of an image: start index and size per axis. -/
structure ImageRegion (D : Nat) where
  index : Fin D → Int
  size : Fin D → Nat

/-- Number of pixels of a region. -/
def ImageRegion.GetNumberOfPixels {D : Nat} (region : ImageRegion D) : Nat :=
  ∏ j : Fin D, region.size j

/-- `VectorImageType`: the geometry that the regulizer sets and the pixel buffer. -/
structure VectorImageType (R : Type) (D : Nat) where
  region : ImageRegion D
  spacing : Fin D → R
  origin : Fin D → R
  buffer : List (Fin D → R)

/-- The member functions of `IntermediaryDFTransformType` that the regulizer calls, on objects
of type `τ`. -/
structure IntermediaryDFTransformType (R : Type) (D : Nat) (τ : Type) where
  New : τ
  SetCoefficientImage : τ → VectorImageType R D → τ
  TransformPoint : τ → (Fin D → R) → (Fin D → R)

/-- State of `DeformationFieldRegulizer`. -/
structure DeformationFieldRegulizer (R : Type) (D : Nat) (τ : Type) where
  m_IntermediaryDeformationFieldTransform : Option τ
  m_Initialized : Bool
  m_DeformationFieldRegion : ImageRegion D
  m_DeformationFieldSpacing : Fin D → R
  m_DeformationFieldOrigin : Fin D → R

namespace DeformationFieldRegulizer

variable {R : Type} [Ring R] {D : Nat} {τ : Type}

/-- The constructor; the three geometry members are not touched by it and hold what is given
here. -/
def Constructor (region : ImageRegion D) (spacing origin : Fin D → R) :
    DeformationFieldRegulizer R D τ where
  m_IntermediaryDeformationFieldTransform := none
  m_Initialized := false
  m_DeformationFieldRegion := region
  m_DeformationFieldSpacing := spacing
  m_DeformationFieldOrigin := origin

/-- `DeformationFieldRegulizer::InitializeDeformationFields`; `allocated` is the content of
the pixel buffer right after `Allocate()`. -/
def InitializeDeformationFields (dfTransform : IntermediaryDFTransformType R D τ)
    (allocated : Nat → Fin D → R) (s : DeformationFieldRegulizer R D τ) :
    DeformationFieldRegulizer R D τ :=
  let transform := dfTransform.New
  -- SetRegions, SetSpacing, SetOrigin, Allocate
  let intermediaryDeformationField : VectorImageType R D :=
    { region := s.m_DeformationFieldRegion
      spacing := s.m_DeformationFieldSpacing
      origin := s.m_DeformationFieldOrigin
      buffer := (List.range s.m_DeformationFieldRegion.GetNumberOfPixels).map allocated }
  -- vec.Fill(Zero); while (!it.IsAtEnd()) { it.Set(vec); ++it; }
  let vec : Fin D → R := fun _ => 0
  let intermediaryDeformationField :=
    { intermediaryDeformationField with
      buffer := forLoop intermediaryDeformationField.buffer.length
        (fun i buffer => buffer.set i vec) intermediaryDeformationField.buffer }
  let transform := dfTransform.SetCoefficientImage transform intermediaryDeformationField
  { s with
    m_IntermediaryDeformationFieldTransform := some transform
    m_Initialized := true }

/-- `DeformationFieldRegulizer::TransformPoint`, in exact arithmetic (`TransformPoint_rounded`
has the rounding of the `double` operations). -/
def TransformPoint (dfTransform : IntermediaryDFTransformType R D τ)
    (superclassTransformPoint : (Fin D → R) → (Fin D → R))
    (s : DeformationFieldRegulizer R D τ) (inputPoint : Fin D → R) : Option (Fin D → R) :=
  match s.m_IntermediaryDeformationFieldTransform with
  | none => none
  | some transform =>
    let oppAnyT := superclassTransformPoint inputPoint
    let oppDF := dfTransform.TransformPoint transform inputPoint
    -- for i: opp[i] = oppAnyT[i] + oppDF[i] - inputPoint[i]
    some (fun i => oppAnyT i + oppDF i - inputPoint i)

/-- `DeformationFieldRegulizer::TransformPoint` with the rounding of the two operations of
`opp[i] = oppAnyT[i] + oppDF[i] - inputPoint[i]`; with `fl` the identity it is
`TransformPoint`. -/
def TransformPoint_rounded (fl : R → R) (dfTransform : IntermediaryDFTransformType R D τ)
    (superclassTransformPoint : (Fin D → R) → (Fin D → R))
    (s : DeformationFieldRegulizer R D τ) (inputPoint : Fin D → R) : Option (Fin D → R) :=
  match s.m_IntermediaryDeformationFieldTransform with
  | none => none
  | some transform =>
    let oppAnyT := superclassTransformPoint inputPoint
    let oppDF := dfTransform.TransformPoint transform inputPoint
    -- for i: opp[i] = oppAnyT[i] + oppDF[i] - inputPoint[i]
    some (fun i => fl (fl (oppAnyT i + oppDF i) - inputPoint i))

/-- `DeformationFieldRegulizer::UpdateIntermediaryDeformationFieldTransform`. -/
def UpdateIntermediaryDeformationFieldTransform (dfTransform : IntermediaryDFTransformType R D τ)
    (s : DeformationFieldRegulizer R D τ) (vecImage : VectorImageType R D) :
    Option (DeformationFieldRegulizer R D τ) :=
  match s.m_IntermediaryDeformationFieldTransform with
  | none => none
  | some transform =>
    some { s with
      m_IntermediaryDeformationFieldTransform :=
        some (dfTransform.SetCoefficientImage transform vecImage) }

/-- The states reachable from construction through `InitializeDeformationFields` and
`UpdateIntermediaryDeformationFieldTransform`, the latter where it has a result. -/
inductive Reachable (dfTransform : IntermediaryDFTransformType R D τ) :
    DeformationFieldRegulizer R D τ → Prop
  | constructed (region : ImageRegion D) (spacing origin : Fin D → R) :
    Reachable dfTransform (Constructor region spacing origin)
  | initialized (allocated : Nat → Fin D → R) (s : DeformationFieldRegulizer R D τ) :
    Reachable dfTransform s →
    Reachable dfTransform (InitializeDeformationFields dfTransform allocated s)
  | updated (s s' : DeformationFieldRegulizer R D τ) (vecImage : VectorImageType R D) :
    Reachable dfTransform s →
    UpdateIntermediaryDeformationFieldTransform dfTransform s vecImage = some s' →
    Reachable dfTransform s'

/-- The all-zero deformation field on the geometry of the regulizer. -/
def zeroDeformationField (s : DeformationFieldRegulizer R D τ) : VectorImageType R D where
  region := s.m_DeformationFieldRegion
  spacing := s.m_DeformationFieldSpacing
  origin := s.m_DeformationFieldOrigin
  buffer := List.replicate s.m_DeformationFieldRegion.GetNumberOfPixels (fun _ => 0)

end DeformationFieldRegulizer

/-- A concrete intermediary transform in one dimension: the object is its pixel buffer, and a
point is displaced by the value of the first pixel. -/
def exampleDFTransform : IntermediaryDFTransformType ℤ 1 (List (Fin 1 → ℤ)) where
  New := []
  SetCoefficientImage := fun _ image => image.buffer
  TransformPoint := fun buffer p => fun i => p i + buffer.getD 0 (fun _ => 0) i

/-- A concrete regulizer: constructed on a region of three pixels, then initialised. -/
def exampleRegulizer : DeformationFieldRegulizer ℤ 1 (List (Fin 1 → ℤ)) :=
  DeformationFieldRegulizer.InitializeDeformationFields exampleDFTransform (fun _ _ => 7)
    (DeformationFieldRegulizer.Constructor ⟨fun _ => 0, fun _ => 3⟩ (fun _ => 1) (fun _ => 0))

/-- The concrete intermediary transform over `ℚ` (one dimension): the object is its pixel
buffer, and a point is displaced by the value of the first pixel. -/
def exampleDFTransformRat : IntermediaryDFTransformType ℚ 1 (List (Fin 1 → ℚ)) where
  New := []
  SetCoefficientImage := fun _ image => image.buffer
  TransformPoint := fun buffer p => fun i => p i + buffer.getD 0 (fun _ => 0) i

/-- The concrete regulizer over `ℚ`: constructed on a region of three pixels, then
initialised, so that its intermediary transform holds the all-zero field. -/
def exampleRegulizerRat : DeformationFieldRegulizer ℚ 1 (List (Fin 1 → ℚ)) :=
  DeformationFieldRegulizer.InitializeDeformationFields exampleDFTransformRat (fun _ _ => 7)
    (DeformationFieldRegulizer.Constructor ⟨fun _ => 0, fun _ => 3⟩ (fun _ => 1) (fun _ => 0))

/-- An optimizer state over `ℚ` with `a = 1`, `A = 0`, `alpha = 1` and the given initial time;
the superclass carries nothing but the learning rate. -/
def exampleOptimizer (initialTime : ℚ) : StandardStochasticGradientOptimizer ℚ Unit where
  Superclass := ⟨0, ()⟩
  m_Param_a := 1
  m_Param_A := 0
  m_Param_alpha := 1
  m_Param_beta := 0
  m_InitialTime := initialTime
  m_CurrentTime := 0

/-- A superclass whose two member functions leave its state as it is. -/
def exampleSuperclass : StochasticGradientDescentOptimizerMethods ℚ Unit where
  StartOptimization := id
  AdvanceOneStep := id

/-! ## `VectorMeanDiffusionImageFilter`

Embedding of `itkVectorMeanDiffusionImageFilter.hxx` over a linearly ordered field (exact
arithmetic). An image is its pixel buffer in the order in which the region iterators walk it.
The neighbourhood iterators and the rescale filter belong to the toolkit: the iterators enter
through `neighborhoodSize` (`nit.Size()`) and the map `neighbour`, where `neighbour p i` is the
buffer position of the pixel that `GetPixel(i)` yields while the iterator stands on pixel `p`
(the boundary condition included; both iterators have the same radius and walk images of the
same size); the rescale filter enters through its output. -/

namespace VectorMeanDiffusionImageFilter

variable {R : Type} [LinearOrderedField R] {D : Nat}

/-- The loop at the end of `FilterGrayValueImage` on the buffer of `m_Cx`:
`if (it.Get() < 0.00001) it.Set(0.00001); if (it.Get() > 0.99999) it.Set(0.99999);`. -/
def clampStiffness (cx : List R) : List R :=
  forLoop cx.length
    (fun i cx =>
      let cx := if cx.getD i 0 < 1 / 100000 then cx.set i (1 / 100000) else cx
      if cx.getD i 0 > 99999 / 100000 then cx.set i (99999 / 100000) else cx)
    cx

/-- `VectorMeanDiffusionImageFilter::FilterGrayValueImage`: the new `m_Cx`. The argument is the
output of the rescale filter after `Update()`, `none` if the update throws (the exception is
passed on). -/
def FilterGrayValueImage (rescaled : Option (List R)) : Option (List R) :=
  match rescaled with
  | none => none
  | some cx => some (clampStiffness cx)

/-- The loop over the neighbourhood of pixel `p`: `sum` and `sumc`. -/
def neighbourhoodSums (neighborhoodSize : Nat) (neighbour : Nat → Nat → Nat)
    (output : List (Fin D → R)) (cx : List R) (p : Nat) : (Fin D → R) × R :=
  forLoop neighborhoodSize
    (fun i acc =>
      let pix := output.getD (neighbour p i) 0
      let ci := cx.getD (neighbour p i) 0
      -- sumc += ci; for j: sum[j] += ci * pix[j]
      (fun j => acc.1 j + ci * pix j, acc.2 + ci))
    (fun _ => 0, 0)

/-- The body of the loop over the pixels: the value handed to `oit.Set` for pixel `p`. -/
def newPixelValue (neighborhoodSize : Nat) (neighbour : Nat → Nat → Nat)
    (output : List (Fin D → R)) (cx : List R) (p : Nat) : Fin D → R :=
  let sum := (neighbourhoodSums neighborhoodSize neighbour output cx p).1
  let sumc := (neighbourhoodSums neighborhoodSize neighbour output cx p).2
  -- for j: if (sumc < 0.001) mean[j] = 0.0; else mean[j] = sum[j] / sumc
  let mean : Fin D → R := fun j => if sumc < 1 / 1000 then 0 else sum j / sumc
  let c := cx.getD p 0
  -- value = nit.GetCenterPixel() * (1.0 - c) + mean * c
  fun j => output.getD p 0 j * (1 - c) + mean j * c

/-- One round of the loop over the iterations, on the pair `(output, outputtmp)`: every pixel
of `outputtmp` is set from `output`, then `outputtmp` is copied to `output`. -/
def iteration (neighborhoodSize : Nat) (neighbour : Nat → Nat → Nat) (cx : List R)
    (images : List (Fin D → R) × List (Fin D → R)) : List (Fin D → R) × List (Fin D → R) :=
  let outputtmp :=
    forLoop images.1.length
      (fun p outputtmp =>
        outputtmp.set p (newPixelValue neighborhoodSize neighbour images.1 cx p))
      images.2
  let output :=
    forLoop images.1.length (fun p output => output.set p (outputtmp.getD p 0)) images.1
  (output, outputtmp)

/-- The images `(output, outputtmp)` of `GenerateData` after `k` rounds of the loop over the
iterations; `allocatedOutput` and `allocatedTmp` are the contents of the two buffers right
after `Allocate()`. -/
def imagesAfter (neighborhoodSize : Nat) (neighbour : Nat → Nat → Nat) (cx : List R)
    (input : List (Fin D → R)) (allocatedOutput allocatedTmp : Nat → Fin D → R) (k : Nat) :
    List (Fin D → R) × List (Fin D → R) :=
  -- output and outputtmp are allocated on the region of the input
  let output := (List.range input.length).map allocatedOutput
  let outputtmp := (List.range input.length).map allocatedTmp
  -- copy input to output
  let output := forLoop input.length (fun p output => output.set p (input.getD p 0)) output
  forLoop k (fun _ images => iteration neighborhoodSize neighbour cx images) (output, outputtmp)

/-- `VectorMeanDiffusionImageFilter::GenerateData`: the output image, `none` if
`FilterGrayValueImage` throws. -/
def GenerateData (m_NumberOfIterations neighborhoodSize : Nat) (neighbour : Nat → Nat → Nat)
    (rescaled : Option (List R)) (input : List (Fin D → R))
    (allocatedOutput allocatedTmp : Nat → Fin D → R) : Option (List (Fin D → R)) :=
  match FilterGrayValueImage rescaled with
  | none => none
  | some m_Cx =>
    some (imagesAfter neighborhoodSize neighbour m_Cx input allocatedOutput allocatedTmp
      m_NumberOfIterations).1

/-- Reference update, following the words of the claim: `y = (1 - c) * x + c * mean` with
`mean = SUM_i{ c_i * x_i } / SUM_i{ c_i }` over the neighbourhood of pixel `p`. -/
def weightedMeanUpdate (neighborhoodSize : Nat) (neighbour : Nat → Nat → Nat)
    (x : List (Fin D → R)) (c : List R) (p : Nat) : Fin D → R :=
  fun j =>
    (1 - c.getD p 0) * x.getD p 0 j
      + c.getD p 0
        * ((∑ i in range neighborhoodSize,
              c.getD (neighbour p i) 0 * x.getD (neighbour p i) 0 j)
            / ∑ i in range neighborhoodSize, c.getD (neighbour p i) 0)

/-- What the two tests of the loop of `FilterGrayValueImage` make of one value. -/
def clampedValue (v : R) : R :=
  if v < 1 / 100000 then 1 / 100000 else if v > 99999 / 100000 then 99999 / 100000 else v

end VectorMeanDiffusionImageFilter

/-- Neighbourhood of radius one on a line of three pixels, with the zero-flux boundary
condition: the neighbours of pixel `p` are `p - 1`, `p`, `p + 1`, clamped to the line. -/
def exampleNeighbour (p i : Nat) : Nat :=
  min (p + i - 1) 2

/-! ## Loops and raster numbering -/

theorem forLoop_zero {σ : Type} (body : Nat → σ → σ) (init : σ) : forLoop 0 body init = init := by
  simp [forLoop]

theorem forLoop_succ {σ : Type} (n : Nat) (body : Nat → σ → σ) (init : σ) :
    forLoop (n + 1) body init = body n (forLoop n body init) := by
  simp [forLoop, List.range_succ, List.foldl_append]

theorem forLoop_add_eq_sum {M : Type} [AddCommMonoid M] (n : Nat) (f : Nat → M) :
    forLoop n (fun k acc => acc + f k) 0 = ∑ k in range n, f k := by
  induction n with
  | zero => simp [forLoop_zero]
  | succ n ih => rw [forLoop_succ, ih, Finset.sum_range_succ]

/-- Splitting a sum over `range (N * n)` into `n` consecutive chunks of length `N`. -/
theorem sum_range_mul_chunks {M : Type} [AddCommMonoid M] (N n : Nat) (F : Nat → M) :
    ∑ x in range (N * n), F x = ∑ k in range n, ∑ m in range N, F (m + N * k) := by
  induction n with
  | zero => simp
  | succ n ih =>
    rw [Nat.mul_succ, Finset.sum_range_add, ih, Finset.sum_range_succ]
    congr 1
    apply Finset.sum_congr rfl
    intro m _
    rw [Nat.add_comm]

theorem supportOffset_lt (order m j : Nat) : supportOffset order m j < order + 1 :=
  Nat.mod_lt _ (Nat.succ_pos _)

theorem supportOffset_chunk_low (order dim m k a : Nat) (ha : a < dim) :
    supportOffset order (m + (order + 1) ^ dim * k) a = supportOffset order m a := by
  unfold supportOffset
  obtain ⟨e, rfl⟩ : ∃ e, dim = a + (e + 1) := ⟨dim - a - 1, by omega⟩
  have h : (order + 1) ^ (a + (e + 1)) * k
      = (order + 1) ^ a * ((order + 1) * ((order + 1) ^ e * k)) := by
    rw [pow_add, pow_succ]; ring
  rw [h, Nat.add_mul_div_left _ _ (Nat.pos_pow_of_pos _ (Nat.succ_pos _)),
    Nat.add_mul_mod_self_left]

theorem supportOffset_chunk_top (order dim m k : Nat) (hm : m < (order + 1) ^ dim)
    (hk : k < order + 1) :
    supportOffset order (m + (order + 1) ^ dim * k) dim = k := by
  unfold supportOffset
  rw [Nat.add_mul_div_left _ _ (Nat.pos_pow_of_pos _ (Nat.succ_pos _)), Nat.div_eq_of_lt hm,
    Nat.zero_add, Nat.mod_eq_of_lt hk]

/-- A loop that stores `f i` at position `i` for `i < k` leaves the length alone and
overwrites exactly the first `k` slots. -/
theorem forLoop_set_getElem_opt {α : Type} (f : Nat → α) (l : List α) (k : Nat) :
    (forLoop k (fun i l => l.set i (f i)) l).length = l.length ∧
    ∀ i, (forLoop k (fun i l => l.set i (f i)) l)[i]?
      = if i < k then (if i < l.length then some (f i) else none) else l[i]? := by
  induction k with
  | zero => simp [forLoop_zero]
  | succ k ih =>
    rw [forLoop_succ]
    refine ⟨by rw [List.length_set]; exact ih.1, ?_⟩
    intro i
    rw [List.getElem?_set, ih.1, ih.2]
    by_cases hki : k = i
    · subst hki; simp
    · have h1 : (i < k + 1) = (i < k) := by
        apply propext; constructor <;> intro h <;> omega
      simp [hki, h1]

theorem length_resize {α : Type} (l : List α) (n : Nat) (dflt : α) :
    (resize l n dflt).length = n := by
  simp [resize, List.length_take]; omega

/-- The placeholder list is `[0, 1, ..., n - 1]`, whatever the list held before. -/
theorem placeholderIndices_eq_range (l : List Nat) (n : Nat) :
    RecursiveBSplineTransform.placeholderIndices l n = List.range n := by
  unfold RecursiveBSplineTransform.placeholderIndices
  apply List.ext_getElem?
  intro i
  rw [(forLoop_set_getElem_opt (fun i => i) (resize l n 0) n).2 i, length_resize]
  by_cases h : i < n
  · simp [h, List.getElem?_range h]
  · have h1 : (resize l n 0)[i]? = none := by
      apply List.getElem?_eq_none; rw [length_resize]; omega
    have h2 : (List.range n)[i]? = none := by
      apply List.getElem?_eq_none; rw [List.length_range]; omega
    simp [h, h1, h2]

theorem supportOffset_mod (order dim m a : Nat) (ha : a < dim) :
    supportOffset order (m % (order + 1) ^ dim) a = supportOffset order m a := by
  have h := supportOffset_chunk_low order dim (m % (order + 1) ^ dim) (m / (order + 1) ^ dim) a ha
  rw [Nat.mod_add_div] at h
  exact h.symm

theorem supportOffset_top (order dim m : Nat) (hm : m < (order + 1) ^ (dim + 1)) :
    supportOffset order m dim = m / (order + 1) ^ dim := by
  unfold supportOffset
  apply Nat.mod_eq_of_lt
  rw [pow_succ] at hm
  exact Nat.div_lt_of_lt_mul hm

/-- Two numbers `x + j * B` with `x < B` coincide only if both parts do. -/
theorem block_decomposition_unique (B x y j k : Nat) (hx : x < B) (hy : y < B)
    (h : x + j * B = y + k * B) : x = y ∧ j = k := by
  have hj : j = k := by
    have h1 := congrArg (fun t => t / B) h
    simp only at h1
    rw [Nat.add_mul_div_right _ _ (by omega : 0 < B),
      Nat.add_mul_div_right _ _ (by omega : 0 < B), Nat.div_eq_of_lt hx,
      Nat.div_eq_of_lt hy] at h1
    omega
  subst hj
  exact ⟨by omega, rfl⟩

theorem block_decomposition_unique_int (B x y j k : Int) (hx0 : 0 ≤ x) (hx : x < B)
    (hy0 : 0 ≤ y) (hy : y < B) (h : x + j * B = y + k * B) : x = y ∧ j = k := by
  have hj : j = k := by
    rcases lt_trichotomy j k with hlt | heq | hgt
    · exfalso
      have h1 : (j + 1) * B ≤ k * B := by
        apply mul_le_mul_of_nonneg_right (by omega) (by omega)
      nlinarith
    · exact heq
    · exfalso
      have h1 : (k + 1) * B ≤ j * B := by
        apply mul_le_mul_of_nonneg_right (by omega) (by omega)
      nlinarith
  subst hj
  exact ⟨by linarith, rfl⟩

/-- A loop storing `g j` at `p + j * B` for `j < k`: what it writes and what it leaves. -/
theorem forLoop_update_stride {β : Type} (p B : Nat) (hB : 0 < B) (g : Nat → β)
    (mem : Nat → β) (k : Nat) :
    (∀ j, j < k →
      forLoop k (fun j mem => Function.update mem (p + j * B) (g j)) mem (p + j * B) = g j) ∧
    (∀ q, (∀ j, j < k → q ≠ p + j * B) →
      forLoop k (fun j mem => Function.update mem (p + j * B) (g j)) mem q = mem q) := by
  induction k with
  | zero => exact ⟨fun j hj => absurd hj (Nat.not_lt_zero j), fun q _ => by rw [forLoop_zero]⟩
  | succ k ih =>
    constructor
    · intro j hj
      rw [forLoop_succ]
      by_cases hjk : j = k
      · subst hjk; simp
      · have hne : p + j * B ≠ p + k * B := by
          intro h
          have := Nat.eq_of_mul_eq_mul_right hB (Nat.add_left_cancel h)
          exact hjk this
        rw [Function.update_noteq hne]
        exact ih.1 j (by omega)
    · intro q hq
      rw [forLoop_succ, Function.update_noteq (hq k (Nat.lt_succ_self k))]
      exact ih.2 q (fun j hj => hq j (by omega))

/-- What `expandWrite` writes: the pointer advances by `n ^ dim`, the entry of support point
`m` and component `j` lands at `p + m + j * B`, everything else is left alone. -/
theorem expandWrite_spec {α β : Type} (n OutD B : Nat) (next : Nat → Nat → α → α)
    (out : α → Nat → β) (dim : Nat) :
    ∀ (mem : Nat → β) (p : Nat) (a : α), p + n ^ dim ≤ B →
      (expandWrite n OutD B next out dim (mem, p) a).2 = p + n ^ dim ∧
      (∀ j m, j < OutD → m < n ^ dim →
        (expandWrite n OutD B next out dim (mem, p) a).1 (p + m + j * B)
          = out (expandValue n next dim a m) j) ∧
      (∀ q, (∀ j m, j < OutD → m < n ^ dim → q ≠ p + m + j * B) →
        (expandWrite n OutD B next out dim (mem, p) a).1 q = mem q) := by
  induction dim with
  | zero =>
    intro mem p a hp
    have hB : 0 < B := by simp at hp; omega
    have h := forLoop_update_stride p B hB (out a) mem OutD
    refine ⟨by simp [expandWrite], ?_, ?_⟩
    · intro j m hj hm
      have hm0 : m = 0 := by simp at hm; exact hm
      subst hm0
      simpa [expandWrite, expandValue] using h.1 j hj
    · intro q hq
      simp only [expandWrite]
      exact h.2 q (fun j hj => by simpa using hq j 0 hj (by simp))
  | succ dim ih =>
    intro mem p a hp
    -- invariant of the loop over the control points of axis `dim`
    have inv : ∀ k, k ≤ n →
        (forLoop k (fun k st => expandWrite n OutD B next out dim st (next dim k a)) (mem, p)).2
          = p + k * n ^ dim ∧
        (∀ j M, j < OutD → M < k * n ^ dim →
          (forLoop k (fun k st => expandWrite n OutD B next out dim st (next dim k a))
              (mem, p)).1 (p + M + j * B)
            = out (expandValue n next (dim + 1) a M) j) ∧
        (∀ q, (∀ j M, j < OutD → M < k * n ^ dim → q ≠ p + M + j * B) →
          (forLoop k (fun k st => expandWrite n OutD B next out dim st (next dim k a))
              (mem, p)).1 q = mem q) := by
      intro k
      induction k with
      | zero =>
        intro _
        refine ⟨by simp [forLoop_zero], ?_, ?_⟩
        · intro j M _ hM; simp at hM
        · intro q _; simp [forLoop_zero]
      | succ k ihk =>
        intro hk
        obtain ⟨hp1, hw1, hu1⟩ := ihk (by omega)
        have hle : (k + 1) * n ^ dim ≤ n * n ^ dim := Nat.mul_le_mul_right _ hk
        have hpow : n ^ (dim + 1) = n * n ^ dim := by rw [pow_succ, Nat.mul_comm]
        have hsucc : (k + 1) * n ^ dim = k * n ^ dim + n ^ dim := by ring
        rw [forLoop_succ]
        generalize hst : forLoop k
          (fun k st => expandWrite n OutD B next out dim st (next dim k a)) (mem, p) = st at *
        obtain ⟨memk, pk⟩ := st
        simp only at hp1 hw1 hu1
        subst hp1
        have hfit : p + k * n ^ dim + n ^ dim ≤ B := by omega
        obtain ⟨hp2, hw2, hu2⟩ := ih memk (p + k * n ^ dim) (next dim k a) hfit
        refine ⟨by rw [hp2]; omega, ?_, ?_⟩
        · intro j M hj hM
          by_cases hlow : M < k * n ^ dim
          · rw [hu2]
            · exact hw1 j M hj hlow
            · intro j' m' hj' hm' heq
              have h1 : p + M + j * B = (p + k * n ^ dim + m') + j' * B := heq
              have := (block_decomposition_unique B (p + M) (p + k * n ^ dim + m') j j'
                (by omega) (by omega) h1).1
              omega
          · have hM' : M = k * n ^ dim + (M - k * n ^ dim) := by omega
            have hm : M - k * n ^ dim < n ^ dim := by omega
            have hpos : 0 < n ^ dim := by omega
            have hdiv : M / n ^ dim = k := by
              rw [hM', Nat.add_comm, Nat.add_mul_div_right _ _ hpos, Nat.div_eq_of_lt hm]
              omega
            have hmod : M % n ^ dim = M - k * n ^ dim := by
              rw [hM', Nat.add_comm, Nat.add_mul_mod_self_right, Nat.mod_eq_of_lt hm]
              omega
            have h2 := hw2 j (M - k * n ^ dim) hj hm
            have harg : p + k * n ^ dim + (M - k * n ^ dim) + j * B = p + M + j * B := by omega
            rw [harg] at h2
            rw [h2]
            simp only [expandValue, hdiv, hmod]
        · intro q hq
          rw [hu2]
          · apply hu1
            intro j M hj hM
            exact hq j M hj (by omega)
          · intro j m hj hm heq
            apply hq j (k * n ^ dim + m) hj (by omega)
            omega
    obtain ⟨h1, h2, h3⟩ := inv n (le_refl n)
    have hpow : n ^ (dim + 1) = n * n ^ dim := by rw [pow_succ, Nat.mul_comm]
    simp only [expandWrite]
    rw [hpow]
    exact ⟨h1, h2, h3⟩

theorem supportOffset_injective (order dim : Nat) :
    ∀ m m', m < (order + 1) ^ dim → m' < (order + 1) ^ dim →
      (∀ a, a < dim → supportOffset order m a = supportOffset order m' a) → m = m' := by
  induction dim with
  | zero => intro m m' hm hm' _; simp at hm hm'; omega
  | succ dim ih =>
    intro m m' hm hm' h
    have hpos : 0 < (order + 1) ^ dim := Nat.pos_pow_of_pos _ (Nat.succ_pos _)
    have htop : m / (order + 1) ^ dim = m' / (order + 1) ^ dim := by
      rw [← supportOffset_top order dim m hm, ← supportOffset_top order dim m' hm']
      exact h dim (Nat.lt_succ_self dim)
    have hlow : m % (order + 1) ^ dim = m' % (order + 1) ^ dim := by
      apply ih _ _ (Nat.mod_lt _ hpos) (Nat.mod_lt _ hpos)
      intro a ha
      rw [supportOffset_mod order dim m a ha, supportOffset_mod order dim m' a ha]
      exact h a (by omega)
    rw [← Nat.mod_add_div m ((order + 1) ^ dim), ← Nat.mod_add_div m' ((order + 1) ^ dim),
      htop, hlow]

/-- Raster offsets of grid indices inside the grid stay inside the buffer. -/
theorem raster_offset_bounds (G : Nat → Nat) (x : Nat → Int) (D : Nat)
    (hx : ∀ j, j < D → 0 ≤ x j ∧ x j ≤ (G j : Int) - 1) :
    0 ≤ ∑ j in range D, x j * (GetOffsetTable G j : Int) ∧
    ∑ j in range D, x j * (GetOffsetTable G j : Int) < (GetOffsetTable G D : Int) := by
  induction D with
  | zero => simp [GetOffsetTable]
  | succ D ih =>
    obtain ⟨h0, h1⟩ := ih (fun j hj => hx j (by omega))
    obtain ⟨hx0, hx1⟩ := hx D (Nat.lt_succ_self D)
    have ht : (0 : Int) ≤ (GetOffsetTable G D : Int) := Int.ofNat_nonneg _
    rw [Finset.sum_range_succ]
    have hmul : x D * (GetOffsetTable G D : Int) ≤ ((G D : Int) - 1) * (GetOffsetTable G D : Int) :=
      mul_le_mul_of_nonneg_right hx1 ht
    have hnn : 0 ≤ x D * (GetOffsetTable G D : Int) := mul_nonneg hx0 ht
    refine ⟨by linarith, ?_⟩
    simp only [GetOffsetTable, Nat.cast_mul]
    linarith

/-- Distinct grid indices inside the grid have distinct raster offsets. -/
theorem raster_offset_injective (G : Nat → Nat) (x y : Nat → Int) (D : Nat)
    (hx : ∀ j, j < D → 0 ≤ x j ∧ x j ≤ (G j : Int) - 1)
    (hy : ∀ j, j < D → 0 ≤ y j ∧ y j ≤ (G j : Int) - 1)
    (h : ∑ j in range D, x j * (GetOffsetTable G j : Int)
      = ∑ j in range D, y j * (GetOffsetTable G j : Int)) :
    ∀ j, j < D → x j = y j := by
  induction D with
  | zero => intro j hj; omega
  | succ D ih =>
    obtain ⟨hx0, hx1⟩ := raster_offset_bounds G x D (fun j hj => hx j (by omega))
    obtain ⟨hy0, hy1⟩ := raster_offset_bounds G y D (fun j hj => hy j (by omega))
    rw [Finset.sum_range_succ, Finset.sum_range_succ] at h
    obtain ⟨hlow, htop⟩ := block_decomposition_unique_int _ _ _ _ _ hx0 hx1 hy0 hy1 h
    intro j hj
    by_cases hjD : j = D
    · subst hjD; exact htop
    · exact ih (fun j hj => hx j (by omega)) (fun j hj => hy j (by omega)) hlow j (by omega)

theorem kernel_GetJacobian_eq_expandWrite {R : Type} [CommRing R] (order OutD : Nat)
    (w : Nat → Nat → R) (dim : Nat) :
    ∀ (st : (Nat → R) × Nat) (value : R),
      RecursiveBSplineTransformImplementation.GetJacobian order OutD w dim st value
        = expandWrite (order + 1) OutD ((order + 1) ^ OutD * (OutD + 1))
            (fun dim k v => v * w dim k) (fun v _ => v) dim st value := by
  induction dim with
  | zero => intro st value; rfl
  | succ dim ih =>
    intro st value
    simp only [RecursiveBSplineTransformImplementation.GetJacobian, expandWrite, ih]

theorem kernel_ComputeNonZeroJacobianIndices_eq_expandWrite (order OutD ppd : Nat)
    (table : Nat → Nat) (dim : Nat) :
    ∀ (st : (Nat → Nat) × Nat) (cur : Nat),
      RecursiveBSplineTransformImplementation.ComputeNonZeroJacobianIndices order OutD ppd table
          dim st cur
        = expandWrite (order + 1) OutD ((order + 1) ^ OutD)
            (fun dim k cur => cur + k * table dim) (fun cur j => cur + j * ppd) dim st cur := by
  induction dim with
  | zero => intro st cur; rfl
  | succ dim ih =>
    intro st cur
    simp only [RecursiveBSplineTransformImplementation.ComputeNonZeroJacobianIndices,
      expandWrite, ih]

/-- The flat index that reaches the innermost level for support point `m`. -/
theorem expandValue_index (order : Nat) (table : Nat → Nat) (dim : Nat) :
    ∀ (cur m : Nat), m < (order + 1) ^ dim →
      expandValue (order + 1) (fun dim k cur => cur + k * table dim) dim cur m
        = cur + ∑ a in range dim, supportOffset order m a * table a := by
  induction dim with
  | zero => intro cur m _; simp [expandValue]
  | succ dim ih =>
    intro cur m hm
    have hpos : 0 < (order + 1) ^ dim := Nat.pos_pow_of_pos _ (Nat.succ_pos _)
    rw [expandValue, ih _ _ (Nat.mod_lt _ hpos), Finset.sum_range_succ,
      supportOffset_top order dim m hm]
    have hs : ∑ a in range dim, supportOffset order (m % (order + 1) ^ dim) a * table a
        = ∑ a in range dim, supportOffset order m a * table a := by
      apply Finset.sum_congr rfl
      intro a ha
      rw [supportOffset_mod order dim m a (Finset.mem_range.mp ha)]
    rw [hs]
    ring

/-- The weight product that reaches the innermost level for support point `m`. -/
theorem expandValue_weight {R : Type} [CommRing R] (order : Nat) (w : Nat → Nat → R)
    (dim : Nat) :
    ∀ (value : R) (m : Nat), m < (order + 1) ^ dim →
      expandValue (order + 1) (fun dim k v => v * w dim k) dim value m
        = value * ∏ a in range dim, w a (supportOffset order m a) := by
  induction dim with
  | zero => intro value m _; simp [expandValue]
  | succ dim ih =>
    intro value m hm
    have hpos : 0 < (order + 1) ^ dim := Nat.pos_pow_of_pos _ (Nat.succ_pos _)
    rw [expandValue, ih _ _ (Nat.mod_lt _ hpos), Finset.prod_range_succ,
      supportOffset_top order dim m hm]
    have hs : ∏ a in range dim, w a (supportOffset order (m % (order + 1) ^ dim) a)
        = ∏ a in range dim, w a (supportOffset order m a) := by
      apply Finset.prod_congr rfl
      intro a ha
      rw [supportOffset_mod order dim m a (Finset.mem_range.mp ha)]
    rw [hs]
    ring

theorem totalOffsetToSupportIndex_eq_sum (D : Nat) (supportIndex : Nat → Int)
    (table : Nat → Nat) :
    RecursiveBSplineTransform.totalOffsetToSupportIndex D supportIndex table
      = ∑ j in range D, supportIndex j * (table j : Int) := by
  unfold RecursiveBSplineTransform.totalOffsetToSupportIndex
  exact forLoop_add_eq_sum D (fun j => supportIndex j * (table j : Int))

/-- The recursive kernel, one axis collapsed per level, computes the dense tensor-product sum
over the `(order+1)^dim` points reachable from the pointers `mu`. -/
theorem kernel_TransformPoint_eq_dense {R : Type} [CommRing R] (order : Nat) (table : Nat → Nat)
    (w : Nat → Nat → R) (dim : Nat) (mu : Nat → Int → R) (j : Nat) :
    RecursiveBSplineTransformImplementation.TransformPoint order table w dim mu j
      = ∑ m in range ((order + 1) ^ dim),
          mu j (∑ a in range dim, (supportOffset order m a : Int) * (table a : Int))
            * ∏ a in range dim, w a (supportOffset order m a) := by
  induction dim generalizing mu with
  | zero => simp [RecursiveBSplineTransformImplementation.TransformPoint]
  | succ dim ih =>
    rw [RecursiveBSplineTransformImplementation.TransformPoint]
    show forLoop (order + 1) (fun k opp => opp +
        RecursiveBSplineTransformImplementation.TransformPoint order table w dim
          (fun c i => mu c (i + (k : Int) * (table dim : Int))) j * w dim k) 0 = _
    rw [forLoop_add_eq_sum (order + 1) (fun k =>
        RecursiveBSplineTransformImplementation.TransformPoint order table w dim
          (fun c i => mu c (i + (k : Int) * (table dim : Int))) j * w dim k), pow_succ,
      sum_range_mul_chunks]
    apply Finset.sum_congr rfl
    intro k hk
    rw [ih, Finset.sum_mul]
    apply Finset.sum_congr rfl
    intro m hm
    have hk' : k < order + 1 := Finset.mem_range.mp hk
    have hm' : m < (order + 1) ^ dim := Finset.mem_range.mp hm
    rw [Finset.sum_range_succ, Finset.prod_range_succ,
      supportOffset_chunk_top order dim m k hm' hk']
    have hs : ∑ a in range dim,
          (supportOffset order (m + (order + 1) ^ dim * k) a : Int) * (table a : Int)
        = ∑ a in range dim, (supportOffset order m a : Int) * (table a : Int) := by
      apply Finset.sum_congr rfl
      intro a ha
      rw [supportOffset_chunk_low order dim m k a (Finset.mem_range.mp ha)]
    have hp : ∏ a in range dim, w a (supportOffset order (m + (order + 1) ^ dim * k) a)
        = ∏ a in range dim, w a (supportOffset order m a) := by
      apply Finset.prod_congr rfl
      intro a ha
      rw [supportOffset_chunk_low order dim m k a (Finset.mem_range.mp ha)]
    rw [hs, hp, mul_assoc]

theorem length_fromDataBlock {α : Type} (len : Nat) (mem : Nat → α) :
    (fromDataBlock len mem).length = len := by
  simp [fromDataBlock]

theorem getD_fromDataBlock {α : Type} (len : Nat) (mem : Nat → α) (dflt : α) (i : Nat)
    (hi : i < len) : (fromDataBlock len mem).getD i dflt = mem i := by
  simp [fromDataBlock, List.getD_eq_getElem?_getD, List.getElem?_map, List.getElem?_range hi]

/-! ## The non-zero index enumerator -/

theorem ComputeNonZeroJacobianIndices_length {R : Type} [CommRing R] {D order : Nat}
    (T : RecursiveBSplineTransform R D order) (nz : List Nat) (s : Nat → Int) :
    (T.ComputeNonZeroJacobianIndices nz s).length = D * (order + 1) ^ D := by
  simp [RecursiveBSplineTransform.ComputeNonZeroJacobianIndices, length_fromDataBlock,
    length_resize, RecursiveBSplineTransform.GetNumberOfNonZeroJacobianIndices]

/-- Entry `d * (order+1)^D + m` of the enumerator's result, in terms of the start offset. -/
theorem ComputeNonZeroJacobianIndices_getD {R : Type} [CommRing R] {D order : Nat}
    (T : RecursiveBSplineTransform R D order) (nz : List Nat) (s : Nat → Int) (d m : Nat)
    (hd : d < D) (hm : m < (order + 1) ^ D) :
    (T.ComputeNonZeroJacobianIndices nz s).getD (d * (order + 1) ^ D + m) 0
      = (RecursiveBSplineTransform.totalOffsetToSupportIndex D s
            (GetOffsetTable T.m_GridSize)).toNat
          + ∑ a in range D, supportOffset order m a * GetOffsetTable T.m_GridSize a
          + d * T.GetNumberOfParametersPerDimension := by
  have hlt : d * (order + 1) ^ D + m < D * (order + 1) ^ D := by
    have h1 : (d + 1) * (order + 1) ^ D ≤ D * (order + 1) ^ D := Nat.mul_le_mul_right _ hd
    have h2 : (d + 1) * (order + 1) ^ D = d * (order + 1) ^ D + (order + 1) ^ D := by ring
    omega
  simp only [RecursiveBSplineTransform.ComputeNonZeroJacobianIndices, length_resize,
    RecursiveBSplineTransform.GetNumberOfNonZeroJacobianIndices]
  rw [getD_fromDataBlock _ _ _ _ hlt, kernel_ComputeNonZeroJacobianIndices_eq_expandWrite]
  have h := (expandWrite_spec (order + 1) D ((order + 1) ^ D)
    (fun dim k cur => cur + k * GetOffsetTable T.m_GridSize dim)
    (fun cur j => cur + j * T.GetNumberOfParametersPerDimension) D
    (dataBlock (resize nz (D * (order + 1) ^ D) 0) 0) 0
    (RecursiveBSplineTransform.totalOffsetToSupportIndex D s
      (GetOffsetTable T.m_GridSize)).toNat (by omega)).2.1 d m hd hm
  have harg : 0 + m + d * (order + 1) ^ D = d * (order + 1) ^ D + m := by omega
  rw [harg] at h
  rw [h, expandValue_index order _ D _ m hm]

/-- Entry `d * (order+1)^D + m` of the enumerator's result as a flat parameter index. -/
theorem ComputeNonZeroJacobianIndices_entry {R : Type} [CommRing R] {D order : Nat}
    (T : RecursiveBSplineTransform R D order) (nz : List Nat) (s : Nat → Int)
    (hs : ∀ j, j < D → 0 ≤ s j) (d m : Nat) (hd : d < D) (hm : m < (order + 1) ^ D) :
    (((T.ComputeNonZeroJacobianIndices nz s).getD (d * (order + 1) ^ D + m) 0 : Nat) : Int)
      = (d : Int) * (T.GetNumberOfParametersPerDimension : Int)
        + ∑ j in range D,
            (s j + (supportOffset order m j : Int)) * (GetOffsetTable T.m_GridSize j : Int) := by
  rw [ComputeNonZeroJacobianIndices_getD T nz s d m hd hm, totalOffsetToSupportIndex_eq_sum]
  have hnn : 0 ≤ ∑ j in range D, s j * (GetOffsetTable T.m_GridSize j : Int) :=
    Finset.sum_nonneg (fun j hj =>
      mul_nonneg (hs j (Finset.mem_range.mp hj)) (Int.ofNat_nonneg _))
  push_cast
  rw [Int.toNat_of_nonneg hnn]
  simp only [add_mul, Finset.sum_add_distrib]
  ring

/-- C3 (layout of the non-zero index list). On a transform whose coefficient images are set
(the function reads their offset table), for a support region whose origin `s` has
non-negative components, `ComputeNonZeroJacobianIndices` returns a list of length
`D * (order+1)^D` whose entry at position `d * (order+1)^D + m` is
`d * parametersPerDimension + Σ_j (s_j + o_j(m)) * t_j`, `o(m)` the `m`-th support offset in
raster order and `t` the offset table of the grid. The result is a function of the origin and
the offset table alone (the entry of index `D` of the table being the number of parameters per
dimension): it does not depend on the previous content of the list nor on any other state of
the transform. -/
theorem ComputeNonZeroJacobianIndices_layout {R : Type} [CommRing R] {D order : Nat}
    (T : RecursiveBSplineTransform R D order) (_hset : T.m_CoefficientImagesSet = true)
    (nz : List Nat) (s : Nat → Int) (hs : ∀ j, j < D → 0 ≤ s j) :
    (T.ComputeNonZeroJacobianIndices nz s).length = D * (order + 1) ^ D ∧
    (∀ d m, d < D → m < (order + 1) ^ D →
      (((T.ComputeNonZeroJacobianIndices nz s).getD (d * (order + 1) ^ D + m) 0 : Nat) : Int)
        = (d : Int) * (T.GetNumberOfParametersPerDimension : Int)
          + ∑ j in range D,
              (s j + (supportOffset order m j : Int)) * (GetOffsetTable T.m_GridSize j : Int)) ∧
    (∀ (T' : RecursiveBSplineTransform R D order) (nz' : List Nat),
      T'.m_CoefficientImagesSet = true →
      (∀ j, j ≤ D → GetOffsetTable T'.m_GridSize j = GetOffsetTable T.m_GridSize j) →
      T'.ComputeNonZeroJacobianIndices nz' s = T.ComputeNonZeroJacobianIndices nz s) := by
  refine ⟨ComputeNonZeroJacobianIndices_length T nz s, ?_, ?_⟩
  · intro d m hd hm
    exact ComputeNonZeroJacobianIndices_entry T nz s hs d m hd hm
  · intro T' nz' _ htab
    apply List.ext_getElem?
    intro q
    by_cases hq : q < D * (order + 1) ^ D
    · have hpos : 0 < (order + 1) ^ D := Nat.pos_pow_of_pos _ (Nat.succ_pos _)
      have hd : q / (order + 1) ^ D < D := by
        rw [Nat.div_lt_iff_lt_mul hpos]; exact hq
      have hm : q % (order + 1) ^ D < (order + 1) ^ D := Nat.mod_lt _ hpos
      have hqe : q = q / (order + 1) ^ D * (order + 1) ^ D + q % (order + 1) ^ D := by
        rw [Nat.mul_comm]; exact (Nat.div_add_mod q _).symm
      have h1 := ComputeNonZeroJacobianIndices_getD T nz s _ _ hd hm
      have h2 := ComputeNonZeroJacobianIndices_getD T' nz' s _ _ hd hm
      rw [← hqe] at h1 h2
      have hsum : ∑ a in range D, supportOffset order (q % (order + 1) ^ D) a
            * GetOffsetTable T'.m_GridSize a
          = ∑ a in range D, supportOffset order (q % (order + 1) ^ D) a
            * GetOffsetTable T.m_GridSize a := by
        apply Finset.sum_congr rfl
        intro a ha
        rw [htab a (le_of_lt (Finset.mem_range.mp ha))]
      have htot : RecursiveBSplineTransform.totalOffsetToSupportIndex D s
            (GetOffsetTable T'.m_GridSize)
          = RecursiveBSplineTransform.totalOffsetToSupportIndex D s
            (GetOffsetTable T.m_GridSize) := by
        rw [totalOffsetToSupportIndex_eq_sum, totalOffsetToSupportIndex_eq_sum]
        apply Finset.sum_congr rfl
        intro a ha
        rw [htab a (le_of_lt (Finset.mem_range.mp ha))]
      have hppd : T'.GetNumberOfParametersPerDimension = T.GetNumberOfParametersPerDimension :=
        htab D (le_refl D)
      rw [hsum, htot, hppd, ← h1] at h2
      have hl1 : q < (T.ComputeNonZeroJacobianIndices nz s).length := by
        rw [ComputeNonZeroJacobianIndices_length]; exact hq
      have hl2 : q < (T'.ComputeNonZeroJacobianIndices nz' s).length := by
        rw [ComputeNonZeroJacobianIndices_length]; exact hq
      rw [List.getD_eq_getElem _ _ hl1, List.getD_eq_getElem _ _ hl2] at h2
      rw [List.getElem?_eq_getElem hl1, List.getElem?_eq_getElem hl2, h2]
    · rw [List.getElem?_eq_none, List.getElem?_eq_none]
      · rw [ComputeNonZeroJacobianIndices_length]; omega
      · rw [ComputeNonZeroJacobianIndices_length]; omega

/-- The layout theorem applied to the concrete transform at the support index `(1, 1)` of an
inside point, starting from a list that holds other values: eight entries, and the entry of
dimension block `1` and support point `2` is the flat index `21`. -/
theorem ComputeNonZeroJacobianIndices_layout_witness :
    exampleTransform.m_CoefficientImagesSet = true ∧
    (∀ j, j < 2 → (0 : Int) ≤ (fun j => if j < 2 then (1 : Int) else 0) j) ∧
    (exampleTransform.ComputeNonZeroJacobianIndices [9, 9, 9]
      (fun j => if j < 2 then 1 else 0)).length = 8 ∧
    (((exampleTransform.ComputeNonZeroJacobianIndices [9, 9, 9]
      (fun j => if j < 2 then 1 else 0)).getD 6 0 : Nat) : Int) = 21 :=
  ⟨rfl, by decide,
    (ComputeNonZeroJacobianIndices_layout exampleTransform rfl [9, 9, 9]
      (fun j => if j < 2 then 1 else 0) (by decide)).1,
    (ComputeNonZeroJacobianIndices_layout exampleTransform rfl [9, 9, 9]
      (fun j => if j < 2 then 1 else 0) (by decide)).2.1 1 2 (by decide) (by decide)⟩

/-! ## The valid region -/

theorem InsideValidRegion_iff {R : Type} [CommRing R] {D order : Nat}
    (T : RecursiveBSplineTransform R D order) (cindex : Fin D → R) :
    T.InsideValidRegion cindex = true ↔
      ∀ j, j < D →
        0 ≤ (T.m_RecursiveBSplineWeightFunction.Evaluate cindex).2 j ∧
        (T.m_RecursiveBSplineWeightFunction.Evaluate cindex).2 j + (order : Int)
          ≤ (T.m_GridSize j : Int) - 1 := by
  simp [RecursiveBSplineTransform.InsideValidRegion]

/-- Inside the valid region `TransformPoint` is the point plus the dense displacement. -/
theorem TransformPoint_inside_eq_dense {R : Type} [CommRing R] {D order : Nat}
    (T : RecursiveBSplineTransform R D order) (point : Fin D → R)
    (hset : T.m_CoefficientImagesSet = true)
    (hin : T.InsideValidRegion (T.TransformPointToContinuousGridIndex point) = true)
    (d : Fin D) :
    T.TransformPoint point d
      = point d + T.denseDisplacement
          (T.m_RecursiveBSplineWeightFunction.Evaluate
            (T.TransformPointToContinuousGridIndex point)).1
          (T.m_RecursiveBSplineWeightFunction.Evaluate
            (T.TransformPointToContinuousGridIndex point)).2 d := by
  simp only [RecursiveBSplineTransform.TransformPoint, hset, hin, Bool.not_true,
    Bool.false_eq_true, if_false]
  rw [kernel_TransformPoint_eq_dense, add_comm]
  congr 1
  unfold RecursiveBSplineTransform.denseDisplacement RecursiveBSplineTransform.coefficientAt
  apply Finset.sum_congr rfl
  intro m _
  rw [totalOffsetToSupportIndex_eq_sum, ← Finset.sum_add_distrib]
  congr 2
  apply Finset.sum_congr rfl
  intro j _
  ring

/-- Entry `(d, d' * (order+1)^D + m')` of the memory the kernel `GetJacobian` leaves behind:
the weight product of support point `m'` in the block of the row's own axis, the previous
content elsewhere. -/
theorem kernel_GetJacobian_entry {R : Type} [CommRing R] (order D : Nat) (w : Nat → Nat → R)
    (mem : Nat → R) (d d' m' : Nat) (hd : d < D) (hd' : d' < D) (hm : m' < (order + 1) ^ D) :
    (RecursiveBSplineTransformImplementation.GetJacobian order D w D (mem, 0) 1).1
        (d * (D * (order + 1) ^ D) + (d' * (order + 1) ^ D + m'))
      = if d = d' then ∏ a in range D, w a (supportOffset order m' a)
        else mem (d * (D * (order + 1) ^ D) + (d' * (order + 1) ^ D + m')) := by
  rw [kernel_GetJacobian_eq_expandWrite]
  obtain ⟨_, hw, hu⟩ := expandWrite_spec (order + 1) D ((order + 1) ^ D * (D + 1))
    (fun dim k v => v * w dim k) (fun (v : R) _ => v) D mem 0 (1 : R)
    (by
      have : (order + 1) ^ D * 1 ≤ (order + 1) ^ D * (D + 1) :=
        Nat.mul_le_mul_left _ (by omega)
      omega)
  by_cases hdd : d = d'
  · subst hdd
    have harg : d * (D * (order + 1) ^ D) + (d * (order + 1) ^ D + m')
        = 0 + m' + d * ((order + 1) ^ D * (D + 1)) := by ring
    rw [harg, hw d m' hd hm, expandValue_weight order w D 1 m' hm]
    simp
  · rw [if_neg hdd]
    apply hu
    intro j m hj hm2 heq
    have h1 : m' + (d * D + d') * (order + 1) ^ D = m + (j * (D + 1)) * (order + 1) ^ D := by
      have e1 : m' + (d * D + d') * (order + 1) ^ D
          = d * (D * (order + 1) ^ D) + (d' * (order + 1) ^ D + m') := by ring
      have e2 : m + (j * (D + 1)) * (order + 1) ^ D
          = 0 + m + j * ((order + 1) ^ D * (D + 1)) := by ring
      rw [e1, e2]; exact heq
    obtain ⟨_, h2⟩ := block_decomposition_unique _ _ _ _ _ hm hm2 h1
    have h3 : d' + d * D = j + j * D := by
      have : j * (D + 1) = j + j * D := by ring
      omega
    obtain ⟨h4, h5⟩ := block_decomposition_unique _ _ _ _ _ hd' hj h3
    exact hdd (by omega)

/-- Adding `delta` to one control coefficient changes the dense displacement of component `d`
by `delta` times the weight product of the support point that reads the coefficient. -/
theorem denseDisplacement_addToParameter {R : Type} [CommRing R] {D order : Nat}
    (T : RecursiveBSplineTransform R D order) (w : Nat → Nat → R) (s : Nat → Int)
    (hs : ∀ j, j < D → 0 ≤ s j ∧ s j + (order : Int) ≤ (T.m_GridSize j : Int) - 1)
    (d d' m' : Nat) (hm : m' < (order + 1) ^ D) (n : Nat)
    (hn : (n : Int) = (d' : Int) * (T.GetNumberOfParametersPerDimension : Int)
      + ∑ j in range D,
          (s j + (supportOffset order m' j : Int)) * (GetOffsetTable T.m_GridSize j : Int))
    (delta : R) :
    (T.addToParameter n delta).denseDisplacement w s d
      = T.denseDisplacement w s d
        + delta * (if d = d' then ∏ a in range D, w a (supportOffset order m' a) else 0) := by
  have hbound : ∀ m, ∀ j, j < D →
      0 ≤ s j + (supportOffset order m j : Int) ∧
      s j + (supportOffset order m j : Int) ≤ (T.m_GridSize j : Int) - 1 := by
    intro m j hj
    have h1 := hs j hj
    have h2 : ((supportOffset order m j : Nat) : Int) ≤ (order : Int) := by
      have := supportOffset_lt order m j
      omega
    have h3 : (0 : Int) ≤ (supportOffset order m j : Int) := Int.ofNat_nonneg _
    constructor
    · omega
    · omega
  have hcoef : ∀ m, m < (order + 1) ^ D →
      (T.addToParameter n delta).coefficientAt d
          (fun j => s j + (supportOffset order m j : Int))
        = T.coefficientAt d (fun j => s j + (supportOffset order m j : Int))
          + (if d = d' ∧ m = m' then delta else 0) := by
    intro m hm2
    have hiff : ((d : Int) * (T.GetNumberOfParametersPerDimension : Int)
          + ∑ j in range D,
              (s j + (supportOffset order m j : Int)) * (GetOffsetTable T.m_GridSize j : Int)
          = (n : Int)) ↔ (d = d' ∧ m = m') := by
      rw [hn]
      obtain ⟨a0, a1⟩ := raster_offset_bounds T.m_GridSize
        (fun j => s j + (supportOffset order m j : Int)) D (hbound m)
      obtain ⟨b0, b1⟩ := raster_offset_bounds T.m_GridSize
        (fun j => s j + (supportOffset order m' j : Int)) D (hbound m')
      constructor
      · intro h
        have h' : (∑ j in range D,
              (s j + (supportOffset order m j : Int)) * (GetOffsetTable T.m_GridSize j : Int))
            + (d : Int) * (GetOffsetTable T.m_GridSize D : Int)
            = (∑ j in range D,
              (s j + (supportOffset order m' j : Int)) * (GetOffsetTable T.m_GridSize j : Int))
            + (d' : Int) * (GetOffsetTable T.m_GridSize D : Int) := by
          unfold RecursiveBSplineTransform.GetNumberOfParametersPerDimension at h
          linarith
        obtain ⟨hlow, htop⟩ := block_decomposition_unique_int _ _ _ _ _ a0 a1 b0 b1 h'
        refine ⟨by exact_mod_cast htop, ?_⟩
        have hdig := raster_offset_injective T.m_GridSize
          (fun j => s j + (supportOffset order m j : Int))
          (fun j => s j + (supportOffset order m' j : Int)) D (hbound m) (hbound m') hlow
        apply supportOffset_injective order D m m' hm2 hm
        intro a ha
        have := hdig a ha
        simp only at this
        omega
      · rintro ⟨rfl, rfl⟩
        rfl
    have key : ∀ X : Int, (T.addToParameter n delta).m_Parameters X
        = T.m_Parameters X + (if X = (n : Int) then delta else 0) := by
      intro X
      show (if X = (n : Int) then _ else _) = _
      split <;> simp
    show (T.addToParameter n delta).m_Parameters
        ((d : Int) * (T.GetNumberOfParametersPerDimension : Int)
          + ∑ j in range D,
              (s j + (supportOffset order m j : Int)) * (GetOffsetTable T.m_GridSize j : Int))
      = T.m_Parameters
        ((d : Int) * (T.GetNumberOfParametersPerDimension : Int)
          + ∑ j in range D,
              (s j + (supportOffset order m j : Int)) * (GetOffsetTable T.m_GridSize j : Int))
        + (if d = d' ∧ m = m' then delta else 0)
    rw [key]
    congr 1
    exact if_congr hiff rfl rfl
  unfold RecursiveBSplineTransform.denseDisplacement
  rw [Finset.sum_congr rfl (fun m hm2 => by rw [hcoef m (Finset.mem_range.mp hm2)])]
  simp only [add_mul, Finset.sum_add_distrib]
  congr 1
  by_cases hdd : d = d'
  · simp only [hdd, true_and, if_true]
    rw [Finset.sum_eq_single m']
    · simp
    · intro b _ hb; simp [hb]
    · intro h; exact absurd (Finset.mem_range.mpr hm) h
  · simp [hdd]

/-- C2 (index/weight alignment). For a transform with coefficients set and a point inside the
valid region, when `GetJacobian` is called with a `jacobian` argument that it resizes, or whose
entries are all zero, the resulting matrix has `D` rows and as many columns as
`nonZeroJacobianIndices` has entries, and for every row `d` and column `c` the entry
`jacobian(d, c)` is the exact sensitivity of output component `d` to the parameter of flat index
`nonZeroJacobianIndices[c]`: adding `delta` to that single coefficient changes component `d` of
`TransformPoint(point)` by exactly `delta * jacobian(d, c)`. -/
theorem GetJacobian_sensitivity {R : Type} [CommRing R] {D order : Nat}
    (T : RecursiveBSplineTransform R D order) (ipp : Fin D → R)
    (hset : T.m_CoefficientImagesSet = true)
    (hin : T.InsideValidRegion (T.TransformPointToContinuousGridIndex ipp) = true)
    (jacobian : JacobianType R) (nonZeroJacobianIndices : List Nat)
    (hJ : (jacobian.cols ≠ T.GetNumberOfNonZeroJacobianIndices ∨ jacobian.rows ≠ D) ∨
      ∀ i, i < jacobian.rows * jacobian.cols → jacobian.data i = 0) :
    (T.GetJacobian ipp jacobian nonZeroJacobianIndices).1.rows = D ∧
    (T.GetJacobian ipp jacobian nonZeroJacobianIndices).1.cols
      = (T.GetJacobian ipp jacobian nonZeroJacobianIndices).2.length ∧
    ∀ (d : Fin D) (c : Nat), c < (T.GetJacobian ipp jacobian nonZeroJacobianIndices).2.length →
      ∀ delta : R,
        (T.addToParameter ((T.GetJacobian ipp jacobian nonZeroJacobianIndices).2.getD c 0)
            delta).TransformPoint ipp d
          = T.TransformPoint ipp d
            + delta * (T.GetJacobian ipp jacobian nonZeroJacobianIndices).1.get d c := by
  -- the matrix after the size test
  obtain ⟨J0, hJ0, hrows, hcols, hzero⟩ : ∃ J0 : JacobianType R,
      J0 = (if jacobian.cols ≠ T.GetNumberOfNonZeroJacobianIndices ∨ jacobian.rows ≠ D then
              ({ rows := D, cols := T.GetNumberOfNonZeroJacobianIndices, data := fun _ => 0 } :
                JacobianType R)
            else jacobian) ∧
      J0.rows = D ∧ J0.cols = T.GetNumberOfNonZeroJacobianIndices ∧
      ∀ i, i < D * T.GetNumberOfNonZeroJacobianIndices → J0.data i = 0 := by
    refine ⟨_, rfl, ?_⟩
    by_cases hshape : jacobian.cols ≠ T.GetNumberOfNonZeroJacobianIndices ∨ jacobian.rows ≠ D
    · rw [if_pos hshape]
      exact ⟨rfl, rfl, fun _ _ => rfl⟩
    · rw [if_neg hshape]
      have hc : jacobian.cols = T.GetNumberOfNonZeroJacobianIndices := by
        by_contra h; exact hshape (Or.inl h)
      have hr : jacobian.rows = D := by
        by_contra h; exact hshape (Or.inr h)
      refine ⟨hr, hc, ?_⟩
      rcases hJ with h | h
      · exact absurd h hshape
      · intro i hi
        apply h
        rw [hr, hc]; exact hi
  have hres : T.GetJacobian ipp jacobian nonZeroJacobianIndices
      = ({ J0 with data := (RecursiveBSplineTransformImplementation.GetJacobian order D
              (T.m_RecursiveBSplineWeightFunction.Evaluate
                (T.TransformPointToContinuousGridIndex ipp)).1 D (J0.data, 0) 1).1 },
          T.ComputeNonZeroJacobianIndices nonZeroJacobianIndices
            (T.m_RecursiveBSplineWeightFunction.Evaluate
              (T.TransformPointToContinuousGridIndex ipp)).2) := by
    simp only [RecursiveBSplineTransform.GetJacobian, hin, Bool.not_true, Bool.false_eq_true,
      if_false, ← hJ0]
  rw [hres]
  have hlen := ComputeNonZeroJacobianIndices_length T nonZeroJacobianIndices
    (T.m_RecursiveBSplineWeightFunction.Evaluate (T.TransformPointToContinuousGridIndex ipp)).2
  have hsup := (InsideValidRegion_iff T _).mp hin
  refine ⟨hrows, ?_, ?_⟩
  · show J0.cols = _
    rw [hcols, hlen]; rfl
  · intro d c hc delta
    simp only at hc ⊢
    rw [hlen] at hc
    have hpos : 0 < (order + 1) ^ D := Nat.pos_pow_of_pos _ (Nat.succ_pos _)
    have hd' : c / (order + 1) ^ D < D := by
      rw [Nat.div_lt_iff_lt_mul hpos]; exact hc
    have hm' : c % (order + 1) ^ D < (order + 1) ^ D := Nat.mod_lt _ hpos
    have hce : c = c / (order + 1) ^ D * (order + 1) ^ D + c % (order + 1) ^ D := by
      rw [Nat.mul_comm]; exact (Nat.div_add_mod c _).symm
    -- the flat index stored at position `c`
    have hn := ComputeNonZeroJacobianIndices_entry T nonZeroJacobianIndices
      (T.m_RecursiveBSplineWeightFunction.Evaluate
        (T.TransformPointToContinuousGridIndex ipp)).2
      (fun j hj => (hsup j hj).1) _ _ hd' hm'
    rw [← hce] at hn
    -- the entry of the matrix
    have hentry : JacobianType.get
          ({ J0 with data := (RecursiveBSplineTransformImplementation.GetJacobian order D
              (T.m_RecursiveBSplineWeightFunction.Evaluate
                (T.TransformPointToContinuousGridIndex ipp)).1 D (J0.data, 0) 1).1 } :
            JacobianType R) d c
        = if d.val = c / (order + 1) ^ D then
            ∏ a in range D, (T.m_RecursiveBSplineWeightFunction.Evaluate
              (T.TransformPointToContinuousGridIndex ipp)).1 a
                (supportOffset order (c % (order + 1) ^ D) a)
          else 0 := by
      show (RecursiveBSplineTransformImplementation.GetJacobian order D _ D (J0.data, 0) 1).1
        (d.val * J0.cols + c) = _
      rw [hcols]
      show (RecursiveBSplineTransformImplementation.GetJacobian order D _ D (J0.data, 0) 1).1
        (d.val * (D * (order + 1) ^ D) + c) = _
      have hk := kernel_GetJacobian_entry order D
        (T.m_RecursiveBSplineWeightFunction.Evaluate
          (T.TransformPointToContinuousGridIndex ipp)).1 J0.data d.val
        (c / (order + 1) ^ D) (c % (order + 1) ^ D) d.isLt hd' hm'
      rw [← hce] at hk
      rw [hk]
      by_cases hdd : d.val = c / (order + 1) ^ D
      · rw [if_pos hdd, if_pos hdd]
      · rw [if_neg hdd, if_neg hdd]
        apply hzero
        show d.val * (D * (order + 1) ^ D) + c < D * (D * (order + 1) ^ D)
        have h1 : (d.val + 1) * (D * (order + 1) ^ D) ≤ D * (D * (order + 1) ^ D) :=
          Nat.mul_le_mul_right _ d.isLt
        have h2 : (d.val + 1) * (D * (order + 1) ^ D)
            = d.val * (D * (order + 1) ^ D) + D * (order + 1) ^ D := by ring
        omega
    rw [hentry]
    have hT' : (T.addToParameter
        ((T.ComputeNonZeroJacobianIndices nonZeroJacobianIndices
          (T.m_RecursiveBSplineWeightFunction.Evaluate
            (T.TransformPointToContinuousGridIndex ipp)).2).getD c 0) delta).TransformPoint ipp d
        = ipp d + (T.addToParameter
            ((T.ComputeNonZeroJacobianIndices nonZeroJacobianIndices
              (T.m_RecursiveBSplineWeightFunction.Evaluate
                (T.TransformPointToContinuousGridIndex ipp)).2).getD c 0) delta).denseDisplacement
            (T.m_RecursiveBSplineWeightFunction.Evaluate
              (T.TransformPointToContinuousGridIndex ipp)).1
            (T.m_RecursiveBSplineWeightFunction.Evaluate
              (T.TransformPointToContinuousGridIndex ipp)).2 d :=
      TransformPoint_inside_eq_dense (T.addToParameter _ delta) ipp hset hin d
    rw [hT', TransformPoint_inside_eq_dense T ipp hset hin d,
      denseDisplacement_addToParameter T _ _ hsup d.val _ _ hm' _ hn delta, add_assoc]

/-- The sensitivity theorem applied to the concrete transform at an inside point, starting
from an empty matrix (which `GetJacobian` resizes): column `1` holds the flat index `6` and the
entry `(0, 1)` is `6`, so adding `3` to parameter `6` moves component `0` by `18`. -/
theorem GetJacobian_sensitivity_witness :
    exampleTransform.m_CoefficientImagesSet = true ∧
    exampleTransform.InsideValidRegion
      (exampleTransform.TransformPointToContinuousGridIndex examplePointInside) = true ∧
    (exampleTransform.GetJacobian examplePointInside ⟨0, 0, fun _ => 0⟩ []).1.rows = 2 ∧
    (exampleTransform.GetJacobian examplePointInside ⟨0, 0, fun _ => 0⟩ []).1.cols
      = (exampleTransform.GetJacobian examplePointInside ⟨0, 0, fun _ => 0⟩ []).2.length ∧
    (exampleTransform.addToParameter 6 3).TransformPoint examplePointInside 0
      = exampleTransform.TransformPoint examplePointInside 0 + 3 * 6 :=
  ⟨rfl, by decide,
    (GetJacobian_sensitivity exampleTransform examplePointInside rfl (by decide)
      ⟨0, 0, fun _ => 0⟩ [] (Or.inl (Or.inl (by decide)))).1,
    (GetJacobian_sensitivity exampleTransform examplePointInside rfl (by decide)
      ⟨0, 0, fun _ => 0⟩ [] (Or.inl (Or.inl (by decide)))).2.1,
    (GetJacobian_sensitivity exampleTransform examplePointInside rfl (by decide)
      ⟨0, 0, fun _ => 0⟩ [] (Or.inl (Or.inl (by decide)))).2.2 0 1 (by decide) 3⟩

/-! ## TransformPoint -/

/-- C1 (separability equivalence). For a transform with coefficients set and a point inside the
valid region, `TransformPoint` returns `point + u`, where `u` is the displacement produced by
the recursive kernel, and in every component `d` this `u` equals the dense sum over all
`(order+1)^D` control points of the support region of the coefficient of component `d` at the
control point times the product of the `D` per-axis weights. -/
theorem TransformPoint_separability {R : Type} [CommRing R] {D order : Nat}
    (T : RecursiveBSplineTransform R D order) (point : Fin D → R)
    (hset : T.m_CoefficientImagesSet = true)
    (hin : T.InsideValidRegion (T.TransformPointToContinuousGridIndex point) = true) :
    let cindex := T.TransformPointToContinuousGridIndex point
    let weights1D := (T.m_RecursiveBSplineWeightFunction.Evaluate cindex).1
    let supportIndex := (T.m_RecursiveBSplineWeightFunction.Evaluate cindex).2
    let u := RecursiveBSplineTransformImplementation.TransformPoint order
      (GetOffsetTable T.m_GridSize) weights1D D
      (fun j i => T.coefficientImageBuffer j
        (RecursiveBSplineTransform.totalOffsetToSupportIndex D supportIndex
          (GetOffsetTable T.m_GridSize) + i))
    (∀ d : Fin D, T.TransformPoint point d = point d + u d) ∧
    (∀ d : Fin D, u d = T.denseDisplacement weights1D supportIndex d) := by
  intro cindex weights1D supportIndex u
  constructor
  · intro d
    simp only [RecursiveBSplineTransform.TransformPoint, hset, hin, Bool.not_true,
      Bool.false_eq_true, if_false]
    exact add_comm _ _
  · intro d
    show RecursiveBSplineTransformImplementation.TransformPoint order
      (GetOffsetTable T.m_GridSize) weights1D D _ d = _
    rw [kernel_TransformPoint_eq_dense]
    unfold RecursiveBSplineTransform.denseDisplacement RecursiveBSplineTransform.coefficientAt
    apply Finset.sum_congr rfl
    intro m _
    rw [totalOffsetToSupportIndex_eq_sum, ← Finset.sum_add_distrib]
    congr 2
    apply Finset.sum_congr rfl
    intro j _
    ring

/-- The separability theorem applied to the concrete transform at a point inside its grid. -/
theorem TransformPoint_separability_witness :
    exampleTransform.m_CoefficientImagesSet = true ∧
    exampleTransform.InsideValidRegion
      (exampleTransform.TransformPointToContinuousGridIndex examplePointInside) = true ∧
    (∀ d : Fin 2, exampleTransform.TransformPoint examplePointInside d
      = examplePointInside d
        + exampleTransform.denseDisplacement
            (exampleTransform.m_RecursiveBSplineWeightFunction.Evaluate
              (exampleTransform.TransformPointToContinuousGridIndex examplePointInside)).1
            (exampleTransform.m_RecursiveBSplineWeightFunction.Evaluate
              (exampleTransform.TransformPointToContinuousGridIndex examplePointInside)).2 d) :=
  ⟨rfl, by decide, fun d => by
    have h := TransformPoint_separability exampleTransform examplePointInside rfl (by decide)
    rw [h.1 d, h.2 d]⟩

/-- C5 (boundary degeneracy of `TransformPoint`). With coefficients set, a point whose
continuous index fails the valid-region test is returned unchanged. -/
theorem TransformPoint_outside_valid_region {R : Type} [CommRing R] {D order : Nat}
    (T : RecursiveBSplineTransform R D order) (point : Fin D → R)
    (hset : T.m_CoefficientImagesSet = true)
    (hout : T.InsideValidRegion (T.TransformPointToContinuousGridIndex point) = false) :
    T.TransformPoint point = point := by
  simp [RecursiveBSplineTransform.TransformPoint, hset, hout]

/-- The boundary-degeneracy theorem applied to the concrete transform at a point outside. -/
theorem TransformPoint_outside_valid_region_witness :
    exampleTransform.m_CoefficientImagesSet = true ∧
    exampleTransform.InsideValidRegion
      (exampleTransform.TransformPointToContinuousGridIndex examplePointOutside) = false ∧
    exampleTransform.TransformPoint examplePointOutside = examplePointOutside :=
  ⟨rfl, by decide,
    TransformPoint_outside_valid_region exampleTransform examplePointOutside rfl (by decide)⟩

/-- C6 (uninitialized control grid). When no coefficient image has been set, `TransformPoint`
returns the input point, for every point; it is a total function, and the result is the same for
every grid geometry, parameter buffer and weight evaluator (any two transforms without
coefficient images agree). -/
theorem TransformPoint_coefficients_not_set {R : Type} [CommRing R] {D order : Nat}
    (T : RecursiveBSplineTransform R D order) (point : Fin D → R)
    (hunset : T.m_CoefficientImagesSet = false) :
    T.TransformPoint point = point ∧
    ∀ T' : RecursiveBSplineTransform R D order, T'.m_CoefficientImagesSet = false →
      T'.TransformPoint point = T.TransformPoint point := by
  have h : ∀ T' : RecursiveBSplineTransform R D order, T'.m_CoefficientImagesSet = false →
      T'.TransformPoint point = point := by
    intro T' h'
    simp [RecursiveBSplineTransform.TransformPoint, h']
  exact ⟨h T hunset, fun T' h' => by rw [h T' h', h T hunset]⟩

/-- The uninitialized-grid theorem applied to the concrete transform with its coefficient
images removed. -/
theorem TransformPoint_coefficients_not_set_witness :
    ({ exampleTransform with m_CoefficientImagesSet := false } :
        RecursiveBSplineTransform ℤ 2 1).m_CoefficientImagesSet = false ∧
    ({ exampleTransform with m_CoefficientImagesSet := false } :
        RecursiveBSplineTransform ℤ 2 1).TransformPoint examplePointInside
      = examplePointInside :=
  ⟨rfl, (TransformPoint_coefficients_not_set
    ({ exampleTransform with m_CoefficientImagesSet := false } : RecursiveBSplineTransform ℤ 2 1)
    examplePointInside rfl).1⟩

/-! ## Degenerate results outside the valid region -/

/-- C7 (boundary degeneracy of `GetSpatialJacobian`). For a point whose continuous index fails
the valid-region test the result is exactly the identity matrix, whatever `sj` held before. -/
theorem GetSpatialJacobian_outside_valid_region {R : Type} [CommRing R] {D order : Nat}
    (T : RecursiveBSplineTransform R D order) (ipp : Fin D → R) (sj : Matrix (Fin D) (Fin D) R)
    (hout : T.InsideValidRegion (T.TransformPointToContinuousGridIndex ipp) = false) :
    T.GetSpatialJacobian ipp sj = 1 := by
  simp [RecursiveBSplineTransform.GetSpatialJacobian, hout]

/-- The identity-Jacobian theorem applied to the concrete transform at a point outside. -/
theorem GetSpatialJacobian_outside_valid_region_witness :
    exampleTransform.InsideValidRegion
      (exampleTransform.TransformPointToContinuousGridIndex examplePointOutside) = false ∧
    exampleTransform.GetSpatialJacobian examplePointOutside (fun _ _ => 5) = 1 :=
  ⟨by decide,
    GetSpatialJacobian_outside_valid_region exampleTransform examplePointOutside _ (by decide)⟩

/-- The loop `for (i = 0; i < sh.Size(); ++i) sh[i].Fill(0.0)` zeroes the first `k` matrices. -/
theorem forLoop_fill_zero {M : Type} [Zero M] {D : Nat} (sh : Fin D → M) (k : Nat) (m : Fin D) :
    forLoop k (fun i sh => fun m : Fin D => if m.val = i then (0 : M) else sh m) sh m
      = if m.val < k then 0 else sh m := by
  induction k with
  | zero => simp [forLoop_zero]
  | succ k ih =>
    rw [forLoop_succ]
    by_cases h : m.val = k
    · simp [h]
    · have h1 : (m.val < k + 1) = (m.val < k) := by
        apply propext; constructor <;> intro h' <;> omega
      simp only [h, if_false, ih, h1]

/-- C8 (boundary degeneracy of `GetSpatialHessian`). For a point whose continuous index fails
the valid-region test every entry of every one of the `D` matrices is zero, whatever `sh` held
before. -/
theorem GetSpatialHessian_outside_valid_region {R : Type} [CommRing R] {D order : Nat}
    (T : RecursiveBSplineTransform R D order) (K : RecursiveBSplineDerivativeKernels R D)
    (ipp : Fin D → R) (sh : SpatialHessianType R D)
    (hout : T.InsideValidRegion (T.TransformPointToContinuousGridIndex ipp) = false) :
    ∀ (m r c : Fin D), T.GetSpatialHessian K ipp sh m r c = 0 := by
  intro m r c
  simp only [RecursiveBSplineTransform.GetSpatialHessian, hout, Bool.not_false, if_true]
  rw [forLoop_fill_zero sh D m]
  simp [m.isLt]

/-- The zero-Hessian theorem applied to the concrete transform at a point outside. -/
theorem GetSpatialHessian_outside_valid_region_witness :
    exampleTransform.InsideValidRegion
      (exampleTransform.TransformPointToContinuousGridIndex examplePointOutside) = false ∧
    ∀ (m r c : Fin 2),
      exampleTransform.GetSpatialHessian exampleKernels examplePointOutside
        (fun _ _ _ => 5) m r c = 0 :=
  ⟨by decide,
    GetSpatialHessian_outside_valid_region exampleTransform exampleKernels examplePointOutside _
      (by decide)⟩

/-- C9 (placeholder index list). For a point outside the valid region each of the operations
that return a non-zero index list (`GetJacobian`, `EvaluateJacobianWithImageGradientProduct`,
and, with parameters set, both overloads of `GetJacobianOfSpatialJacobian` and of
`GetJacobianOfSpatialHessian`) returns the list `[0, 1, ..., N - 1]`, `N` the number of non-zero
Jacobian indices: length `N`, entry `i` equal to `i`, whatever the list held before. -/
theorem nonZeroJacobianIndices_outside_valid_region {R : Type} [CommRing R] {D order : Nat}
    (T : RecursiveBSplineTransform R D order) (K : RecursiveBSplineDerivativeKernels R D)
    (ipp : Fin D → R)
    (hout : T.InsideValidRegion (T.TransformPointToContinuousGridIndex ipp) = false)
    (jacobian : JacobianType R) (movingImageGradient : Fin D → R) (imageJacobian : List R)
    (sj : Matrix (Fin D) (Fin D) R) (jsj : List (Matrix (Fin D) (Fin D) R))
    (sh : SpatialHessianType R D) (jsh : List (SpatialHessianType R D))
    (nonZeroJacobianIndices : List Nat) :
    (T.GetJacobian ipp jacobian nonZeroJacobianIndices).2
        = List.range T.GetNumberOfNonZeroJacobianIndices ∧
    (T.EvaluateJacobianWithImageGradientProduct ipp movingImageGradient imageJacobian
        nonZeroJacobianIndices).2 = List.range T.GetNumberOfNonZeroJacobianIndices ∧
    (T.m_InputParametersSet = true →
      (T.GetJacobianOfSpatialJacobian K ipp jsj nonZeroJacobianIndices).out.2
          = List.range T.GetNumberOfNonZeroJacobianIndices ∧
      (T.GetJacobianOfSpatialJacobianWithSJ K ipp sj jsj nonZeroJacobianIndices).out.2.2
          = List.range T.GetNumberOfNonZeroJacobianIndices ∧
      (T.GetJacobianOfSpatialHessian K ipp jsh nonZeroJacobianIndices).out.2
          = List.range T.GetNumberOfNonZeroJacobianIndices ∧
      (T.GetJacobianOfSpatialHessianWithSH K ipp sh jsh nonZeroJacobianIndices).out.2.2
          = List.range T.GetNumberOfNonZeroJacobianIndices) := by
  refine ⟨?_, ?_, ?_⟩
  · simp [RecursiveBSplineTransform.GetJacobian, hout, placeholderIndices_eq_range]
  · simp [RecursiveBSplineTransform.EvaluateJacobianWithImageGradientProduct, hout,
      placeholderIndices_eq_range]
  · intro hset
    have h1 : (T.GetJacobianOfSpatialJacobian K ipp jsj nonZeroJacobianIndices).out.2
        = List.range T.GetNumberOfNonZeroJacobianIndices := by
      simp [RecursiveBSplineTransform.GetJacobianOfSpatialJacobian, hout, hset,
        placeholderIndices_eq_range]
    have h2 : (T.GetJacobianOfSpatialHessian K ipp jsh nonZeroJacobianIndices).out.2
        = List.range T.GetNumberOfNonZeroJacobianIndices := by
      simp [RecursiveBSplineTransform.GetJacobianOfSpatialHessian, hout, hset,
        placeholderIndices_eq_range]
    refine ⟨h1, ?_, h2, ?_⟩
    · simp only [RecursiveBSplineTransform.GetJacobianOfSpatialJacobianWithSJ]
      split <;> exact h1
    · simp only [RecursiveBSplineTransform.GetJacobianOfSpatialHessianWithSH]
      split <;> exact h2

/-- The placeholder theorem applied to the concrete transform at a point outside, starting
from a list that holds other values. -/
theorem nonZeroJacobianIndices_outside_valid_region_witness :
    exampleTransform.InsideValidRegion
      (exampleTransform.TransformPointToContinuousGridIndex examplePointOutside) = false ∧
    (exampleTransform.GetJacobian examplePointOutside ⟨0, 0, fun _ => 0⟩ [9, 9, 9]).2
      = List.range 8 :=
  ⟨by decide,
    (nonZeroJacobianIndices_outside_valid_region exampleTransform exampleKernels
      examplePointOutside (by decide) ⟨0, 0, fun _ => 0⟩ (fun _ => 0) [] 0 [] (fun _ => 0) []
      [9, 9, 9]).1⟩

/-- What `GetJacobian` leaves in `jacobian` outside the valid region: a zero matrix of size
`D × N` when the argument had another shape, the argument itself otherwise. -/
theorem GetJacobian_outside_valid_region_result {R : Type} [CommRing R] {D order : Nat}
    (T : RecursiveBSplineTransform R D order) (ipp : Fin D → R)
    (hout : T.InsideValidRegion (T.TransformPointToContinuousGridIndex ipp) = false)
    (jacobian : JacobianType R) (nonZeroJacobianIndices : List Nat) :
    (T.GetJacobian ipp jacobian nonZeroJacobianIndices).1
      = if jacobian.cols ≠ T.GetNumberOfNonZeroJacobianIndices ∨ jacobian.rows ≠ D then
          { rows := D, cols := T.GetNumberOfNonZeroJacobianIndices, data := fun _ => 0 }
        else jacobian := by
  simp only [RecursiveBSplineTransform.GetJacobian, hout, Bool.not_false, if_true]

/-- C10 (zero Jacobian outside the domain) fails on the code. On the concrete transform, the
`2 × 8` matrix left by a call at an inside point holds `6` at entry `(0, 1)`; handed to a call
at a point outside the valid region it has the expected shape already, is not filled, and
comes back with the stale entry `6` instead of `0`. -/
theorem GetJacobian_outside_valid_region_stale :
    exampleTransform.InsideValidRegion
      (exampleTransform.TransformPointToContinuousGridIndex examplePointOutside) = false ∧
    (exampleTransform.GetJacobian examplePointInside ⟨0, 0, fun _ => 0⟩ []).1.rows = 2 ∧
    (exampleTransform.GetJacobian examplePointInside ⟨0, 0, fun _ => 0⟩ []).1.cols = 8 ∧
    (exampleTransform.GetJacobian examplePointOutside
      (exampleTransform.GetJacobian examplePointInside ⟨0, 0, fun _ => 0⟩ []).1 []).1.get 0 1
      = 6 := by
  decide

/-- What `EvaluateJacobianWithImageGradientProduct` leaves in `imageJacobian` outside the
valid region: the argument itself, untouched. -/
theorem EvaluateJacobianWithImageGradientProduct_outside_valid_region_result {R : Type}
    [CommRing R] {D order : Nat} (T : RecursiveBSplineTransform R D order) (ipp : Fin D → R)
    (hout : T.InsideValidRegion (T.TransformPointToContinuousGridIndex ipp) = false)
    (movingImageGradient : Fin D → R) (imageJacobian : List R)
    (nonZeroJacobianIndices : List Nat) :
    (T.EvaluateJacobianWithImageGradientProduct ipp movingImageGradient imageJacobian
      nonZeroJacobianIndices).1 = imageJacobian := by
  simp only [RecursiveBSplineTransform.EvaluateJacobianWithImageGradientProduct, hout,
    Bool.not_false, if_true]

/-- C11 (zero inner product outside the domain) fails on the code. On the concrete transform,
with the gradient `(2, 3)`, the array left by a call at an inside point holds `12` at entry `1`;
handed to a call at a point outside the valid region it is not written at all and comes back
with the stale entry `12` instead of `0`. -/
theorem EvaluateJacobianWithImageGradientProduct_outside_valid_region_stale :
    exampleTransform.InsideValidRegion
      (exampleTransform.TransformPointToContinuousGridIndex examplePointOutside) = false ∧
    (exampleTransform.EvaluateJacobianWithImageGradientProduct examplePointInside ![2, 3]
      [0, 0, 0, 0, 0, 0, 0, 0] []).1 = [4, 12, 8, 24, 6, 18, 12, 36] ∧
    (exampleTransform.EvaluateJacobianWithImageGradientProduct examplePointOutside ![2, 3]
      (exampleTransform.EvaluateJacobianWithImageGradientProduct examplePointInside ![2, 3]
        [0, 0, 0, 0, 0, 0, 0, 0] []).1 []).1.getD 1 0 = 12 := by
  decide

/-! ## Parameters not set -/

/-- C12 (uninitialized parameters). `GetJacobianOfSpatialJacobian` and
`GetJacobianOfSpatialHessian`, in each of their overloads, raise an exception if and only if the
input parameters have not been set; with parameters set they return normally for every
point, inside or outside the valid region. -/
theorem sensitivity_queries_throw_iff_parameters_not_set {R : Type} [CommRing R] {D order : Nat}
    (T : RecursiveBSplineTransform R D order) (K : RecursiveBSplineDerivativeKernels R D)
    (ipp : Fin D → R) (sj : Matrix (Fin D) (Fin D) R) (jsj : List (Matrix (Fin D) (Fin D) R))
    (sh : SpatialHessianType R D) (jsh : List (SpatialHessianType R D))
    (nonZeroJacobianIndices : List Nat) :
    ((T.GetJacobianOfSpatialJacobian K ipp jsj nonZeroJacobianIndices).exception.isSome = true
      ↔ T.m_InputParametersSet = false) ∧
    ((T.GetJacobianOfSpatialJacobianWithSJ K ipp sj jsj nonZeroJacobianIndices).exception.isSome
      = true ↔ T.m_InputParametersSet = false) ∧
    ((T.GetJacobianOfSpatialHessian K ipp jsh nonZeroJacobianIndices).exception.isSome = true
      ↔ T.m_InputParametersSet = false) ∧
    ((T.GetJacobianOfSpatialHessianWithSH K ipp sh jsh nonZeroJacobianIndices).exception.isSome
      = true ↔ T.m_InputParametersSet = false) := by
  have h1 : (T.GetJacobianOfSpatialJacobian K ipp jsj nonZeroJacobianIndices).exception
      = if T.m_InputParametersSet = false then
          some "Cannot compute Jacobian: parameters not set" else none := by
    unfold RecursiveBSplineTransform.GetJacobianOfSpatialJacobian
    cases T.m_InputParametersSet
    · simp
    · by_cases h : T.InsideValidRegion (T.TransformPointToContinuousGridIndex ipp) = false <;>
        simp [h]
  have h2 : (T.GetJacobianOfSpatialHessian K ipp jsh nonZeroJacobianIndices).exception
      = if T.m_InputParametersSet = false then
          some "Cannot compute Jacobian: parameters not set" else none := by
    unfold RecursiveBSplineTransform.GetJacobianOfSpatialHessian
    cases T.m_InputParametersSet
    · simp
    · by_cases h : T.InsideValidRegion (T.TransformPointToContinuousGridIndex ipp) = false <;>
        simp [h]
  have h3 : (T.GetJacobianOfSpatialJacobianWithSJ K ipp sj jsj nonZeroJacobianIndices).exception
      = (T.GetJacobianOfSpatialJacobian K ipp jsj nonZeroJacobianIndices).exception := by
    simp only [RecursiveBSplineTransform.GetJacobianOfSpatialJacobianWithSJ]
    split
    · rename_i e he; exact he.symm
    · rename_i he; exact he.symm
  have h4 : (T.GetJacobianOfSpatialHessianWithSH K ipp sh jsh nonZeroJacobianIndices).exception
      = (T.GetJacobianOfSpatialHessian K ipp jsh nonZeroJacobianIndices).exception := by
    simp only [RecursiveBSplineTransform.GetJacobianOfSpatialHessianWithSH]
    split
    · rename_i e he; exact he.symm
    · rename_i he; exact he.symm
  rw [h3, h4, h1, h2]
  cases T.m_InputParametersSet <;> simp

/-- A loop that stores the same value in every slot of a list. -/
theorem forLoop_set_const {α : Type} (v : α) (l : List α) :
    forLoop l.length (fun i l => l.set i v) l = List.replicate l.length v := by
  apply List.ext_getElem?
  intro i
  rw [(forLoop_set_getElem_opt (fun _ => v) l l.length).2 i]
  by_cases h : i < l.length
  · simp [h, List.getElem?_replicate]
  · have h1 : l[i]? = none := List.getElem?_eq_none (by omega)
    simp [h, h1, List.getElem?_replicate]

/-- The loop `for j < jsh[i].Size(): jsh[i][j].Fill(0.0)` zeroes all `D` matrices. -/
theorem forLoop_fill_zero_all {M : Type} [Zero M] {D : Nat} (sh : Fin D → M) :
    forLoop D (fun j sh => fun m : Fin D => if m.val = j then (0 : M) else sh m) sh
      = fun _ => 0 := by
  funext m
  rw [forLoop_fill_zero sh D m]
  simp [m.isLt]

/-- C13 (zero parametric sensitivities outside the domain). With parameters set, for a point
outside the valid region `GetJacobianOfSpatialJacobian` returns exactly `N` matrices that are
all zero and `GetJacobianOfSpatialHessian` returns exactly `N` groups of `D` matrices that are
all zero (`N` the number of non-zero Jacobian indices), in both overloads of each, whatever the
previous size and content of the output argument. -/
theorem sensitivities_outside_valid_region {R : Type} [CommRing R] {D order : Nat}
    (T : RecursiveBSplineTransform R D order) (K : RecursiveBSplineDerivativeKernels R D)
    (ipp : Fin D → R) (hset : T.m_InputParametersSet = true)
    (hout : T.InsideValidRegion (T.TransformPointToContinuousGridIndex ipp) = false)
    (sj : Matrix (Fin D) (Fin D) R) (jsj : List (Matrix (Fin D) (Fin D) R))
    (sh : SpatialHessianType R D) (jsh : List (SpatialHessianType R D))
    (nonZeroJacobianIndices : List Nat) :
    (T.GetJacobianOfSpatialJacobian K ipp jsj nonZeroJacobianIndices).out.1
        = List.replicate T.GetNumberOfNonZeroJacobianIndices 0 ∧
    (T.GetJacobianOfSpatialJacobianWithSJ K ipp sj jsj nonZeroJacobianIndices).out.2.1
        = List.replicate T.GetNumberOfNonZeroJacobianIndices 0 ∧
    (T.GetJacobianOfSpatialHessian K ipp jsh nonZeroJacobianIndices).out.1
        = List.replicate T.GetNumberOfNonZeroJacobianIndices (fun _ => 0) ∧
    (T.GetJacobianOfSpatialHessianWithSH K ipp sh jsh nonZeroJacobianIndices).out.2.1
        = List.replicate T.GetNumberOfNonZeroJacobianIndices (fun _ => 0) := by
  have h1 : (T.GetJacobianOfSpatialJacobian K ipp jsj nonZeroJacobianIndices).out.1
      = List.replicate T.GetNumberOfNonZeroJacobianIndices 0 := by
    simp only [RecursiveBSplineTransform.GetJacobianOfSpatialJacobian, hset, hout,
      Bool.not_true, Bool.not_false, Bool.false_eq_true, if_false, if_true]
    rw [forLoop_set_const, length_resize]
  have h2 : (T.GetJacobianOfSpatialHessian K ipp jsh nonZeroJacobianIndices).out.1
      = List.replicate T.GetNumberOfNonZeroJacobianIndices (fun _ => 0) := by
    simp only [RecursiveBSplineTransform.GetJacobianOfSpatialHessian, hset, hout,
      Bool.not_true, Bool.not_false, Bool.false_eq_true, if_false, if_true,
      forLoop_fill_zero_all]
    rw [forLoop_set_const, length_resize]
  refine ⟨h1, ?_, h2, ?_⟩
  · simp only [RecursiveBSplineTransform.GetJacobianOfSpatialJacobianWithSJ]
    split <;> exact h1
  · simp only [RecursiveBSplineTransform.GetJacobianOfSpatialHessianWithSH]
    split <;> exact h2

/-- The zero-sensitivity theorem applied to the concrete transform at a point outside,
starting from a vector that holds one non-zero matrix. -/
theorem sensitivities_outside_valid_region_witness :
    exampleTransform.m_InputParametersSet = true ∧
    exampleTransform.InsideValidRegion
      (exampleTransform.TransformPointToContinuousGridIndex examplePointOutside) = false ∧
    (exampleTransform.GetJacobianOfSpatialJacobian exampleKernels examplePointOutside
      [fun _ _ => 5] []).out.1 = List.replicate 8 0 :=
  ⟨rfl, by decide,
    (sensitivities_outside_valid_region exampleTransform exampleKernels examplePointOutside rfl
      (by decide) 0 [fun _ _ => 5] (fun _ => 0) [] []).1⟩

/-! ## The spatial Jacobian inside the valid region -/

/-- C14 (assembly of the spatial Jacobian). On a transform whose coefficient images are set
(the function reads their offset table and buffers), for a point inside the valid region
`GetSpatialJacobian` returns `I + J * M`, where `J(i, j)` is element `i + (j + 1) * D` of the
kernel's output buffer (its first `D` elements, the displacement, are not used), `M` is the
point-to-index matrix and `I` the identity; in particular the result is `I + J` when `M` is the
identity. -/
theorem GetSpatialJacobian_inside_valid_region {R : Type} [CommRing R] {D order : Nat}
    (T : RecursiveBSplineTransform R D order) (_hset : T.m_CoefficientImagesSet = true)
    (ipp : Fin D → R) (sj : Matrix (Fin D) (Fin D) R)
    (hin : T.InsideValidRegion (T.TransformPointToContinuousGridIndex ipp) = true) :
    let cindex := T.TransformPointToContinuousGridIndex ipp
    let weights1D := (T.m_RecursiveBSplineWeightFunction.Evaluate cindex).1
    let supportIndex := (T.m_RecursiveBSplineWeightFunction.Evaluate cindex).2
    let spatialJacobian := RecursiveBSplineTransformImplementation.GetSpatialJacobian order D
      (GetOffsetTable T.m_GridSize) weights1D
      (T.m_RecursiveBSplineWeightFunction.EvaluateDerivative cindex supportIndex) D
      (fun j i => T.coefficientImageBuffer j
        (RecursiveBSplineTransform.totalOffsetToSupportIndex D supportIndex
          (GetOffsetTable T.m_GridSize) + i))
    let J : Matrix (Fin D) (Fin D) R := fun i j => spatialJacobian (i.val + (j.val + 1) * D)
    T.GetSpatialJacobian ipp sj = 1 + J * T.m_PointToIndexMatrix2 ∧
    (T.m_PointToIndexMatrix2 = 1 → T.GetSpatialJacobian ipp sj = 1 + J) := by
  intro cindex weights1D supportIndex spatialJacobian J
  have h : T.GetSpatialJacobian ipp sj = 1 + J * T.m_PointToIndexMatrix2 := by
    simp only [RecursiveBSplineTransform.GetSpatialJacobian, hin, Bool.not_true,
      Bool.false_eq_true, if_false]
    funext i j
    rw [Matrix.add_apply, Matrix.one_apply]
    by_cases hij : i = j
    · rw [if_pos hij, if_pos hij, add_comm]
    · rw [if_neg hij, if_neg hij, zero_add]
  refine ⟨h, ?_⟩
  intro hM
  rw [h, hM, Matrix.mul_one]

/-- The assembly theorem applied to the concrete transform (whose point-to-index matrix is the
identity) at an inside point. -/
theorem GetSpatialJacobian_inside_valid_region_witness :
    exampleTransform.m_CoefficientImagesSet = true ∧
    exampleTransform.InsideValidRegion
      (exampleTransform.TransformPointToContinuousGridIndex examplePointInside) = true ∧
    exampleTransform.GetSpatialJacobian examplePointInside 0
      = 1 + Matrix.of (fun (i j : Fin 2) =>
          RecursiveBSplineTransformImplementation.GetSpatialJacobian 1 2
            (GetOffsetTable exampleTransform.m_GridSize)
            (exampleTransform.m_RecursiveBSplineWeightFunction.Evaluate examplePointInside).1
            (exampleTransform.m_RecursiveBSplineWeightFunction.EvaluateDerivative
              examplePointInside
              (exampleTransform.m_RecursiveBSplineWeightFunction.Evaluate examplePointInside).2)
            2
            (fun j i => exampleTransform.coefficientImageBuffer j
              (RecursiveBSplineTransform.totalOffsetToSupportIndex 2
                (exampleTransform.m_RecursiveBSplineWeightFunction.Evaluate
                  examplePointInside).2
                (GetOffsetTable exampleTransform.m_GridSize) + i))
            (i.val + (j.val + 1) * 2)) :=
  ⟨rfl, by decide,
    (GetSpatialJacobian_inside_valid_region exampleTransform rfl examplePointInside 0
      (by decide)).2 rfl⟩

/-! ## One index list for all operations -/

/-- The enumerator overwrites the whole list: its result does not depend on what the list
held before. -/
theorem ComputeNonZeroJacobianIndices_previous_content {R : Type} [CommRing R] {D order : Nat}
    (T : RecursiveBSplineTransform R D order) (nz nz' : List Nat) (s : Nat → Int) :
    T.ComputeNonZeroJacobianIndices nz s = T.ComputeNonZeroJacobianIndices nz' s := by
  apply List.ext_getElem?
  intro q
  by_cases hq : q < D * (order + 1) ^ D
  · have hpos : 0 < (order + 1) ^ D := Nat.pos_pow_of_pos _ (Nat.succ_pos _)
    have hd : q / (order + 1) ^ D < D := by
      rw [Nat.div_lt_iff_lt_mul hpos]; exact hq
    have hm : q % (order + 1) ^ D < (order + 1) ^ D := Nat.mod_lt _ hpos
    have hqe : q = q / (order + 1) ^ D * (order + 1) ^ D + q % (order + 1) ^ D := by
      rw [Nat.mul_comm]; exact (Nat.div_add_mod q _).symm
    have h1 := ComputeNonZeroJacobianIndices_getD T nz s _ _ hd hm
    have h2 := ComputeNonZeroJacobianIndices_getD T nz' s _ _ hd hm
    rw [← hqe] at h1 h2
    rw [← h2] at h1
    have hl1 : q < (T.ComputeNonZeroJacobianIndices nz s).length := by
      rw [ComputeNonZeroJacobianIndices_length]; exact hq
    have hl2 : q < (T.ComputeNonZeroJacobianIndices nz' s).length := by
      rw [ComputeNonZeroJacobianIndices_length]; exact hq
    rw [List.getD_eq_getElem _ _ hl1, List.getD_eq_getElem _ _ hl2] at h1
    rw [List.getElem?_eq_getElem hl1, List.getElem?_eq_getElem hl2, h1]
  · rw [List.getElem?_eq_none, List.getElem?_eq_none]
    · rw [ComputeNonZeroJacobianIndices_length]; omega
    · rw [ComputeNonZeroJacobianIndices_length]; omega

/-- The index list every operation returns: the placeholder outside the valid region, the
enumerator's list inside. -/
theorem nonZeroJacobianIndices_of_operations {R : Type} [CommRing R] {D order : Nat}
    (T : RecursiveBSplineTransform R D order) (K : RecursiveBSplineDerivativeKernels R D)
    (ipp : Fin D → R) (hset : T.m_InputParametersSet = true)
    (jacobian : JacobianType R) (movingImageGradient : Fin D → R) (imageJacobian : List R)
    (jsj : List (Matrix (Fin D) (Fin D) R)) (jsh : List (SpatialHessianType R D))
    (nz : List Nat) :
    (T.GetJacobian ipp jacobian nz).2
      = (if T.InsideValidRegion (T.TransformPointToContinuousGridIndex ipp) = true then
          T.ComputeNonZeroJacobianIndices []
            (T.m_RecursiveBSplineWeightFunction.Evaluate
              (T.TransformPointToContinuousGridIndex ipp)).2
        else List.range T.GetNumberOfNonZeroJacobianIndices) ∧
    (T.EvaluateJacobianWithImageGradientProduct ipp movingImageGradient imageJacobian nz).2
      = (if T.InsideValidRegion (T.TransformPointToContinuousGridIndex ipp) = true then
          T.ComputeNonZeroJacobianIndices []
            (T.m_RecursiveBSplineWeightFunction.Evaluate
              (T.TransformPointToContinuousGridIndex ipp)).2
        else List.range T.GetNumberOfNonZeroJacobianIndices) ∧
    (T.GetJacobianOfSpatialJacobian K ipp jsj nz).out.2
      = (if T.InsideValidRegion (T.TransformPointToContinuousGridIndex ipp) = true then
          T.ComputeNonZeroJacobianIndices []
            (T.m_RecursiveBSplineWeightFunction.Evaluate
              (T.TransformPointToContinuousGridIndex ipp)).2
        else List.range T.GetNumberOfNonZeroJacobianIndices) ∧
    (T.GetJacobianOfSpatialHessian K ipp jsh nz).out.2
      = (if T.InsideValidRegion (T.TransformPointToContinuousGridIndex ipp) = true then
          T.ComputeNonZeroJacobianIndices []
            (T.m_RecursiveBSplineWeightFunction.Evaluate
              (T.TransformPointToContinuousGridIndex ipp)).2
        else List.range T.GetNumberOfNonZeroJacobianIndices) := by
  by_cases hin : T.InsideValidRegion (T.TransformPointToContinuousGridIndex ipp) = true
  · have hp := ComputeNonZeroJacobianIndices_previous_content T nz []
      (T.m_RecursiveBSplineWeightFunction.Evaluate (T.TransformPointToContinuousGridIndex ipp)).2
    simp only [RecursiveBSplineTransform.GetJacobian,
      RecursiveBSplineTransform.EvaluateJacobianWithImageGradientProduct,
      RecursiveBSplineTransform.GetJacobianOfSpatialJacobian,
      RecursiveBSplineTransform.GetJacobianOfSpatialHessian, hset, hin, Bool.not_true,
      Bool.false_eq_true, if_false, if_true, hp, and_self]
  · have hout : T.InsideValidRegion (T.TransformPointToContinuousGridIndex ipp) = false := by
      simpa using hin
    simp only [RecursiveBSplineTransform.GetJacobian,
      RecursiveBSplineTransform.EvaluateJacobianWithImageGradientProduct,
      RecursiveBSplineTransform.GetJacobianOfSpatialJacobian,
      RecursiveBSplineTransform.GetJacobianOfSpatialHessian, hset, hout, Bool.not_true,
      Bool.not_false, Bool.false_eq_true, if_false, if_true, placeholderIndices_eq_range,
      and_self]

/-- C18 (one index list for all operations). For a transform with parameters set and every
point, `GetJacobian`, `EvaluateJacobianWithImageGradientProduct`, `GetJacobianOfSpatialJacobian`
and `GetJacobianOfSpatialHessian` (and the overloads that also return `sj` or `sh`) return the
identical `nonZeroJacobianIndices` list, same length and same entry at every position, whatever
the other arguments and the previous content of the list handed to each of them. -/
theorem nonZeroJacobianIndices_identical {R : Type} [CommRing R] {D order : Nat}
    (T : RecursiveBSplineTransform R D order) (K : RecursiveBSplineDerivativeKernels R D)
    (ipp : Fin D → R) (hset : T.m_InputParametersSet = true)
    (jacobian : JacobianType R) (movingImageGradient : Fin D → R) (imageJacobian : List R)
    (sj : Matrix (Fin D) (Fin D) R) (jsj : List (Matrix (Fin D) (Fin D) R))
    (sh : SpatialHessianType R D) (jsh : List (SpatialHessianType R D))
    (nz1 nz2 nz3 nz4 : List Nat) :
    (T.EvaluateJacobianWithImageGradientProduct ipp movingImageGradient imageJacobian nz2).2
      = (T.GetJacobian ipp jacobian nz1).2 ∧
    (T.GetJacobianOfSpatialJacobian K ipp jsj nz3).out.2 = (T.GetJacobian ipp jacobian nz1).2 ∧
    (T.GetJacobianOfSpatialJacobianWithSJ K ipp sj jsj nz3).out.2.2
      = (T.GetJacobian ipp jacobian nz1).2 ∧
    (T.GetJacobianOfSpatialHessian K ipp jsh nz4).out.2 = (T.GetJacobian ipp jacobian nz1).2 ∧
    (T.GetJacobianOfSpatialHessianWithSH K ipp sh jsh nz4).out.2.2
      = (T.GetJacobian ipp jacobian nz1).2 := by
  have h1 := (nonZeroJacobianIndices_of_operations T K ipp hset jacobian movingImageGradient
    imageJacobian jsj jsh nz1).1
  have h2 := (nonZeroJacobianIndices_of_operations T K ipp hset jacobian movingImageGradient
    imageJacobian jsj jsh nz2).2.1
  have h3 := (nonZeroJacobianIndices_of_operations T K ipp hset jacobian movingImageGradient
    imageJacobian jsj jsh nz3).2.2.1
  have h4 := (nonZeroJacobianIndices_of_operations T K ipp hset jacobian movingImageGradient
    imageJacobian jsj jsh nz4).2.2.2
  refine ⟨by rw [h1, h2], by rw [h1, h3], ?_, by rw [h1, h4], ?_⟩
  · simp only [RecursiveBSplineTransform.GetJacobianOfSpatialJacobianWithSJ]
    split <;> rw [h1, h3]
  · simp only [RecursiveBSplineTransform.GetJacobianOfSpatialHessianWithSH]
    split <;> rw [h1, h4]

/-- The identical-list theorem applied to the concrete transform at an inside point, the
operations being handed lists with different previous content. -/
theorem nonZeroJacobianIndices_identical_witness :
    exampleTransform.m_InputParametersSet = true ∧
    (exampleTransform.GetJacobianOfSpatialJacobian exampleKernels examplePointInside [] [7]).out.2
      = (exampleTransform.GetJacobian examplePointInside ⟨0, 0, fun _ => 0⟩ [9, 9, 9]).2 :=
  ⟨rfl,
    (nonZeroJacobianIndices_identical exampleTransform exampleKernels examplePointInside rfl
      ⟨0, 0, fun _ => 0⟩ (fun _ => 0) [] 0 [] (fun _ => 0) [] [9, 9, 9] [] [7] []).2.1⟩

/-! ## The mirroring loop of the spatial Hessian -/

theorem forLoop_congr {σ : Type} (n : Nat) (body body' : Nat → σ → σ) (init : σ)
    (h : ∀ i, i < n → ∀ s, body i s = body' i s) :
    forLoop n body init = forLoop n body' init := by
  induction n with
  | zero => rw [forLoop_zero, forLoop_zero]
  | succ n ih =>
    rw [forLoop_succ, forLoop_succ, ih (fun i hi s => h i (by omega) s),
      h n (Nat.lt_succ_self n)]

theorem forLoop_onMatrix {R : Type} {D : Nat} (i n : Nat)
    (g : Nat → Matrix (Fin D) (Fin D) R → Matrix (Fin D) (Fin D) R)
    (sh : SpatialHessianType R D) :
    forLoop n (fun k sh => onMatrix i (g k) sh) sh
      = onMatrix i (fun A => forLoop n g A) sh := by
  induction n with
  | zero =>
    funext m
    simp [forLoop_zero, onMatrix]
  | succ n ih =>
    rw [forLoop_succ, ih]
    funext m
    simp only [onMatrix, forLoop_succ]
    by_cases hm : m.val = i
    · simp [hm]
    · simp [hm]

theorem mirrorEntry_eq_onMatrix {R : Type} [Zero R] {D : Nat} (i j k' : Nat) (hi : i < D)
    (sh : SpatialHessianType R D) :
    mirrorEntry i j k' sh = onMatrix i (mirrorEntryMatrix j k') sh := by
  funext m
  simp only [mirrorEntry, setHessianEntry, getHessianEntry, onMatrix, mirrorEntryMatrix, hi,
    dif_pos]
  by_cases hm : m.val = i
  · have : m = ⟨i, hi⟩ := Fin.ext hm
    subst this
    simp
  · simp [hm]

theorem mirrorRow_eq_onMatrix {R : Type} [Zero R] {D : Nat} (i j : Nat) (hi : i < D)
    (sh : SpatialHessianType R D) :
    mirrorRow i j sh = onMatrix i (mirrorRowMatrix j) sh := by
  unfold mirrorRow
  rw [forLoop_congr (D - 1) _ (fun k' sh => onMatrix i (mirrorEntryMatrix j k') sh) sh
    (fun k' _ s => mirrorEntry_eq_onMatrix i j k' hi s), forLoop_onMatrix]
  rfl

theorem mirrorOne_eq_onMatrix {R : Type} [Zero R] {D : Nat} (i : Nat) (hi : i < D)
    (sh : SpatialHessianType R D) :
    mirrorOne i sh = onMatrix i mirrorMatrix sh := by
  unfold mirrorOne
  rw [forLoop_congr (D - 1) _ (fun j sh => onMatrix i (mirrorRowMatrix j) sh) sh
    (fun j _ s => mirrorRow_eq_onMatrix i j hi s), forLoop_onMatrix]
  rfl

/-- The loop over `k` on one matrix, after `K` assignments in row `j`. -/
theorem mirrorRowMatrix_upto {R : Type} [Zero R] {D : Nat} (j : Nat) (hj : j < D)
    (A : Matrix (Fin D) (Fin D) R) (K : Nat) (hK : K ≤ D - 1) (r c : Fin D) :
    forLoop K (fun k' A => mirrorEntryMatrix j k' A) A r c
      = if r.val = j ∧ 1 ≤ c.val ∧ c.val ≤ K then A c r else A r c := by
  induction K generalizing r c with
  | zero =>
    rw [forLoop_zero]
    have : ¬ (r.val = j ∧ 1 ≤ c.val ∧ c.val ≤ 0) := by omega
    rw [if_neg this]
  | succ K ih =>
    have hK1 : K + 1 < D := by omega
    rw [forLoop_succ]
    have hB : ∀ r c : Fin D, forLoop K (fun k' A => mirrorEntryMatrix j k' A) A r c
        = if r.val = j ∧ 1 ≤ c.val ∧ c.val ≤ K then A c r else A r c :=
      fun r c => ih (by omega) r c
    generalize forLoop K (fun k' A => mirrorEntryMatrix j k' A) A = B at hB
    simp only [mirrorEntryMatrix, setEntry, getEntry, hK1, hj, and_self, dif_pos]
    rw [hB ⟨K + 1, hK1⟩ ⟨j, hj⟩, hB r c]
    have hno : ¬ ((⟨K + 1, hK1⟩ : Fin D).val = j ∧ 1 ≤ (⟨j, hj⟩ : Fin D).val
        ∧ (⟨j, hj⟩ : Fin D).val ≤ K) := by
      simp only; omega
    rw [if_neg hno]
    by_cases h1 : r.val = j ∧ c.val = K + 1
    · obtain ⟨hr, hc⟩ := h1
      have hr' : r = ⟨j, hj⟩ := Fin.ext hr
      have hc' : c = ⟨K + 1, hK1⟩ := Fin.ext hc
      have hcond : r.val = j ∧ 1 ≤ c.val ∧ c.val ≤ K + 1 := by omega
      rw [if_pos ⟨hr, hc⟩, if_pos hcond, hr', hc']
    · rw [if_neg h1]
      by_cases h2 : r.val = j ∧ 1 ≤ c.val ∧ c.val ≤ K
      · have hcond : r.val = j ∧ 1 ≤ c.val ∧ c.val ≤ K + 1 := by omega
        rw [if_pos h2, if_pos hcond]
      · have hcond : ¬ (r.val = j ∧ 1 ≤ c.val ∧ c.val ≤ K + 1) := by omega
        rw [if_neg h2, if_neg hcond]

/-- The loop over `j` on one matrix, after `J` complete rows. -/
theorem mirrorMatrix_upto {R : Type} [Zero R] {D : Nat} (A : Matrix (Fin D) (Fin D) R)
    (J : Nat) (hJ : J ≤ D - 1) (r c : Fin D) :
    forLoop J (fun j A => mirrorRowMatrix j A) A r c
      = if r.val < c.val ∧ r.val < J then A c r else A r c := by
  induction J generalizing r c with
  | zero =>
    rw [forLoop_zero]
    have : ¬ (r.val < c.val ∧ r.val < 0) := by omega
    rw [if_neg this]
  | succ J ih =>
    have hJD : J < D := by omega
    rw [forLoop_succ]
    have hB : ∀ r c : Fin D, forLoop J (fun j A => mirrorRowMatrix j A) A r c
        = if r.val < c.val ∧ r.val < J then A c r else A r c :=
      fun r c => ih (by omega) r c
    generalize forLoop J (fun j A => mirrorRowMatrix j A) A = B at hB
    show mirrorRowMatrix J B r c = _
    unfold mirrorRowMatrix
    rw [mirrorRowMatrix_upto J hJD _ (D - 1) (le_refl _) r c, hB c r, hB r c]
    have hc := c.isLt
    by_cases h1 : r.val = J ∧ 1 ≤ c.val ∧ c.val ≤ D - 1
    · rw [if_pos h1]
      obtain ⟨hr, hc1, _⟩ := h1
      by_cases h2 : c.val < J
      · have ha : c.val < r.val ∧ c.val < J := by omega
        have hb : ¬ (r.val < c.val ∧ r.val < J + 1) := by omega
        rw [if_pos ha, if_neg hb]
      · have ha : ¬ (c.val < r.val ∧ c.val < J) := by omega
        rw [if_neg ha]
        by_cases h3 : c.val = J
        · have hrc : r = c := Fin.ext (by omega)
          subst hrc
          simp
        · have hb : r.val < c.val ∧ r.val < J + 1 := by omega
          rw [if_pos hb]
    · rw [if_neg h1]
      by_cases h2 : r.val < c.val ∧ r.val < J
      · have hb : r.val < c.val ∧ r.val < J + 1 := by omega
        rw [if_pos h2, if_pos hb]
      · have hb : ¬ (r.val < c.val ∧ r.val < J + 1) := by omega
        rw [if_neg h2, if_neg hb]

/-- The complete mirroring of one matrix: the upper triangle receives the lower one. -/
theorem mirrorMatrix_apply {R : Type} [Zero R] {D : Nat} (A : Matrix (Fin D) (Fin D) R)
    (r c : Fin D) : mirrorMatrix A r c = if r.val < c.val then A c r else A r c := by
  unfold mirrorMatrix
  rw [mirrorMatrix_upto A (D - 1) (le_refl _) r c]
  have hc := c.isLt
  by_cases h : r.val < c.val
  · rw [if_pos h, if_pos ⟨h, by omega⟩]
  · rw [if_neg h, if_neg (fun h' => h h'.1)]

/-- The loop over the matrices, after `i0` complete matrices. -/
theorem mirror_outer_upto {R : Type} [Zero R] {D : Nat} (sh : SpatialHessianType R D)
    (i0 : Nat) (hi0 : i0 ≤ D) :
    forLoop i0 (fun i sh => mirrorOne i sh) sh
      = fun m => if m.val < i0 then mirrorMatrix (sh m) else sh m := by
  induction i0 with
  | zero => funext m; simp [forLoop_zero]
  | succ i0 ih =>
    rw [forLoop_succ, ih (by omega), mirrorOne_eq_onMatrix i0 (by omega)]
    funext m
    simp only [onMatrix]
    by_cases h1 : m.val = i0
    · have h2 : ¬ m.val < i0 := by omega
      have h3 : m.val < i0 + 1 := by omega
      rw [if_pos h1, if_neg h2, if_pos h3]
    · rw [if_neg h1]
      by_cases h2 : m.val < i0
      · rw [if_pos h2, if_pos (by omega)]
      · rw [if_neg h2, if_neg (by omega)]

theorem mirrorSpatialHessian_apply {R : Type} [CommRing R] {D : Nat}
    (sh : SpatialHessianType R D) (m r c : Fin D) :
    RecursiveBSplineTransform.mirrorSpatialHessian D sh m r c
      = if r.val < c.val then sh m c r else sh m r c := by
  have h : RecursiveBSplineTransform.mirrorSpatialHessian D sh
      = forLoop D (fun i sh => mirrorOne i sh) sh := rfl
  rw [h, mirror_outer_upto sh D (le_refl _)]
  simp only [m.isLt, if_true]
  exact mirrorMatrix_apply (sh m) r c

/-- Every intermediate state of the mirroring loop has the lower triangles it started with. -/
theorem mirrorState_lower {R : Type} [Zero R] {D : Nat} (sh : SpatialHessianType R D)
    (i0 J K : Nat) (hi0 : i0 < D) (hJ : J < D - 1) (hK : K ≤ D - 1) (m r c : Fin D)
    (hcr : c.val ≤ r.val) : mirrorState i0 J K sh m r c = sh m r c := by
  unfold mirrorState
  rw [mirror_outer_upto sh i0 (le_of_lt hi0),
    forLoop_congr J _ (fun j sh => onMatrix i0 (mirrorRowMatrix j) sh) _
      (fun j _ s => mirrorRow_eq_onMatrix i0 j hi0 s), forLoop_onMatrix,
    forLoop_congr K _ (fun k' sh => onMatrix i0 (mirrorEntryMatrix J k') sh) _
      (fun k' _ s => mirrorEntry_eq_onMatrix i0 J k' hi0 s), forLoop_onMatrix]
  simp only [onMatrix]
  by_cases h1 : m.val = i0
  · have h2 : ¬ m.val < i0 := by omega
    simp only [h1, lt_self_iff_false, if_true, if_false]
    rw [mirrorRowMatrix_upto J (by omega) _ K hK r c,
      mirrorMatrix_upto _ J (by omega) c r, mirrorMatrix_upto _ J (by omega) r c]
    have hb : ¬ (r.val < c.val ∧ r.val < J) := by omega
    rw [if_neg hb]
    by_cases h3 : r.val = J ∧ 1 ≤ c.val ∧ c.val ≤ K
    · rw [if_pos h3]
      by_cases h4 : c.val < r.val ∧ c.val < J
      · rw [if_pos h4]
      · have hrc : r = c := Fin.ext (by omega)
        subst hrc
        rw [if_neg h4]
    · rw [if_neg h3]
  · simp only [h1, if_false]
    by_cases h2 : m.val < i0
    · rw [if_pos h2, mirrorMatrix_apply, if_neg (by omega)]
    · rw [if_neg h2]

/-- C20 (the mirroring loop of `GetSpatialHessian`). For every dimension and every family of
`D × D` matrices the loop leaves each entry `(r, c)` with `c ≤ r` unchanged and sets each entry
`(r, c)` with `r < c` to the value entry `(c, r)` had before the loop; and in every intermediate
state of the loop (matrices below `i0` done, rows below `J` of matrix `i0` done, `K`
assignments made in row `J`) every lower-triangle entry still holds the value it had before the
loop, although the loop bounds also visit pairs with `j ≥ k`. -/
theorem mirrorSpatialHessian_spec {R : Type} [CommRing R] {D : Nat}
    (sh : SpatialHessianType R D) :
    (∀ m r c : Fin D,
      RecursiveBSplineTransform.mirrorSpatialHessian D sh m r c
        = if r.val < c.val then sh m c r else sh m r c) ∧
    (∀ i0 J K : Nat, i0 < D → J < D - 1 → K ≤ D - 1 →
      ∀ m r c : Fin D, c.val ≤ r.val → mirrorState i0 J K sh m r c = sh m r c) :=
  ⟨fun m r c => mirrorSpatialHessian_apply sh m r c,
    fun i0 J K hi0 hJ hK m r c hcr => mirrorState_lower sh i0 J K hi0 hJ hK m r c hcr⟩

/-- The mirroring theorem applied to a family of `3 × 3` matrices with distinct entries:
entry `(0, 2)` of matrix `1` receives the value `120` of entry `(2, 0)`, and after the row `1`
of matrix `1` has been visited (including the pair `j = 1`, `k = 1`) entry `(2, 1)` still
holds `121`. -/
theorem mirrorSpatialHessian_spec_witness :
    RecursiveBSplineTransform.mirrorSpatialHessian 3 exampleHessian 1 0 2 = 120 ∧
    mirrorState 1 1 2 exampleHessian 1 2 1 = 121 :=
  ⟨(mirrorSpatialHessian_spec exampleHessian).1 1 0 2,
    (mirrorSpatialHessian_spec exampleHessian).2 1 1 2 (by decide) (by decide) (by decide)
      1 2 1 (by decide)⟩

/-! ## Symmetry of the spatial Hessian -/

/-- C15 (Hessian symmetry). On a transform whose coefficient images are set (inside the valid
region the function reads their offset table and buffers), for every point, inside or outside
the valid region, every coefficient grid, every derivative kernel and every point-to-index matrix `M` whose stored
transpose equals `M` transposed, each of the `D` matrices returned by `GetSpatialHessian` is
symmetric: entry `(r, c)` equals entry `(c, r)`. -/
theorem GetSpatialHessian_symmetric {R : Type} [CommRing R] {D order : Nat}
    (T : RecursiveBSplineTransform R D order) (_hset : T.m_CoefficientImagesSet = true)
    (K : RecursiveBSplineDerivativeKernels R D) (ipp : Fin D → R) (sh : SpatialHessianType R D)
    (hM : T.m_PointToIndexMatrixTransposed2 = T.m_PointToIndexMatrix2.transpose) :
    ∀ m r c : Fin D, T.GetSpatialHessian K ipp sh m r c = T.GetSpatialHessian K ipp sh m c r := by
  intro m r c
  by_cases hin : T.InsideValidRegion (T.TransformPointToContinuousGridIndex ipp) = true
  · simp only [RecursiveBSplineTransform.GetSpatialHessian, hin, Bool.not_true,
      Bool.false_eq_true, if_false]
    generalize (RecursiveBSplineTransform.copySpatialHessian D _ sh).1 = X
    have hS : (RecursiveBSplineTransform.mirrorSpatialHessian D X m).transpose
        = RecursiveBSplineTransform.mirrorSpatialHessian D X m := by
      funext a b
      rw [Matrix.transpose_apply, mirrorSpatialHessian_apply, mirrorSpatialHessian_apply]
      by_cases h1 : b.val < a.val
      · rw [if_pos h1, if_neg (by omega)]
      · rw [if_neg h1]
        by_cases h2 : a.val < b.val
        · rw [if_pos h2]
        · have hab : a = b := Fin.ext (by omega)
          subst hab
          rw [if_neg h2]
    have hT : (T.m_PointToIndexMatrixTransposed2
          * (RecursiveBSplineTransform.mirrorSpatialHessian D X m * T.m_PointToIndexMatrix2)).transpose
        = T.m_PointToIndexMatrixTransposed2
          * (RecursiveBSplineTransform.mirrorSpatialHessian D X m * T.m_PointToIndexMatrix2) := by
      rw [Matrix.transpose_mul, Matrix.transpose_mul, hS, hM, Matrix.transpose_transpose,
        Matrix.mul_assoc]
    have := congrFun (congrFun hT c) r
    rw [Matrix.transpose_apply] at this
    exact this
  · have hout : T.InsideValidRegion (T.TransformPointToContinuousGridIndex ipp) = false := by
      simpa using hin
    simp only [RecursiveBSplineTransform.GetSpatialHessian, hout, Bool.not_false, if_true]
    rw [forLoop_fill_zero sh D m]
    simp [m.isLt]

/-- The symmetry theorem applied to the concrete transform (identity point-to-index matrix,
Hessian buffer holding its own indices) at an inside point. -/
theorem GetSpatialHessian_symmetric_witness :
    exampleTransform.m_CoefficientImagesSet = true ∧
    exampleTransform.m_PointToIndexMatrixTransposed2
      = exampleTransform.m_PointToIndexMatrix2.transpose ∧
    exampleTransform.GetSpatialHessian exampleKernels examplePointInside (fun _ => 0) 0 0 1
      = exampleTransform.GetSpatialHessian exampleKernels examplePointInside (fun _ => 0) 0 1 0 :=
  ⟨rfl, by simp [exampleTransform],
    GetSpatialHessian_symmetric exampleTransform rfl exampleKernels examplePointInside
      (fun _ => 0) (by simp [exampleTransform]) 0 0 1⟩

/-! ## The kernel of the spatial Jacobian -/

theorem forLoop_accumulate_two {M : Type} [AddCommMonoid M] (K A B : Nat) (f g : Nat → Nat → M)
    (n : Nat) :
    forLoop K
        (fun k sj => fun n =>
          if n < A then sj n + f k n else if n < B then sj n + g k n else sj n)
        (fun _ => 0) n
      = if n < A then ∑ k in range K, f k n
        else if n < B then ∑ k in range K, g k n else 0 := by
  induction K with
  | zero => simp [forLoop_zero]
  | succ K ih =>
    rw [forLoop_succ]
    simp only [ih, Finset.sum_range_succ]
    by_cases h1 : n < A
    · simp [h1]
    · by_cases h2 : n < B
      · simp [h1, h2]
      · simp [h1, h2]

theorem derivativeWeightProduct_succ {R : Type} [CommRing R] (order : Nat)
    (w dw : Nat → Nat → R) (dim L m k : Nat) (hm : m < (order + 1) ^ dim)
    (hk : k < order + 1) :
    derivativeWeightProduct order w dw (dim + 1) L (m + (order + 1) ^ dim * k)
      = derivativeWeightProduct order w dw dim L m
        * (if dim + 1 = L then dw dim k else w dim k) := by
  unfold derivativeWeightProduct
  rw [Finset.prod_range_succ, supportOffset_chunk_top order dim m k hm hk]
  congr 1
  apply Finset.prod_congr rfl
  intro a ha
  rw [supportOffset_chunk_low order dim m k a (Finset.mem_range.mp ha)]

theorem derivativeWeightProduct_above {R : Type} [CommRing R] (order : Nat)
    (w dw : Nat → Nat → R) (dim L m : Nat) (hL : dim < L) :
    derivativeWeightProduct order w dw dim L m
      = ∏ a in range dim, w a (supportOffset order m a) := by
  unfold derivativeWeightProduct
  apply Finset.prod_congr rfl
  intro a ha
  have : a < dim := Finset.mem_range.mp ha
  rw [if_neg (by omega)]

theorem derivativeWeightProduct_zero {R : Type} [CommRing R] (order : Nat)
    (w dw : Nat → Nat → R) (dim m : Nat) :
    derivativeWeightProduct order w dw dim 0 m
      = ∏ a in range dim, w a (supportOffset order m a) := by
  unfold derivativeWeightProduct
  apply Finset.prod_congr rfl
  intro a _
  rw [if_neg (by omega)]

/-- The kernel of the spatial Jacobian computes dense sums: entry `j + L * OutD` of its buffer
is the sum over the support points of the coefficient of component `j` times the weight
product with the derivative taken on axis `L - 1` (`L = 0`: the displacement). -/
theorem kernel_GetSpatialJacobian_eq_dense {R : Type} [CommRing R] (order OutD : Nat)
    (table : Nat → Nat) (w dw : Nat → Nat → R) (dim : Nat) :
    ∀ (mu : Nat → Int → R) (j L : Nat), j < OutD → L ≤ dim →
      RecursiveBSplineTransformImplementation.GetSpatialJacobian order OutD table w dw dim mu
          (j + L * OutD)
        = ∑ m in range ((order + 1) ^ dim),
            mu j (∑ a in range dim, (supportOffset order m a : Int) * (table a : Int))
              * derivativeWeightProduct order w dw dim L m := by
  induction dim with
  | zero =>
    intro mu j L hj hL
    have hL0 : L = 0 := by omega
    subst hL0
    simp [RecursiveBSplineTransformImplementation.GetSpatialJacobian, hj,
      derivativeWeightProduct]
  | succ dim ih =>
    intro mu j L hj hL
    rw [RecursiveBSplineTransformImplementation.GetSpatialJacobian]
    show forLoop (order + 1)
      (fun k sj => fun n =>
        if n < OutD * (dim + 1) then
          sj n + RecursiveBSplineTransformImplementation.GetSpatialJacobian order OutD table w dw
            dim (fun c i => mu c (i + (k : Int) * (table dim : Int))) n * w dim k
        else if n < OutD * (dim + 2) then
          sj n + RecursiveBSplineTransformImplementation.GetSpatialJacobian order OutD table w dw
            dim (fun c i => mu c (i + (k : Int) * (table dim : Int))) (n - OutD * (dim + 1))
            * dw dim k
        else sj n)
      (fun _ => 0) (j + L * OutD) = _
    rw [forLoop_accumulate_two (order + 1) (OutD * (dim + 1)) (OutD * (dim + 2))
      (fun k n => RecursiveBSplineTransformImplementation.GetSpatialJacobian order OutD table w
        dw dim (fun c i => mu c (i + (k : Int) * (table dim : Int))) n * w dim k)
      (fun k n => RecursiveBSplineTransformImplementation.GetSpatialJacobian order OutD table w
        dw dim (fun c i => mu c (i + (k : Int) * (table dim : Int))) (n - OutD * (dim + 1))
        * dw dim k)]
    have e1 : OutD * (dim + 1) = dim * OutD + OutD := by ring
    have e2 : OutD * (dim + 2) = dim * OutD + OutD + OutD := by ring
    rw [pow_succ, sum_range_mul_chunks]
    -- the common rewriting of the summand of chunk `k`
    have hterm : ∀ (k : Nat), k < order + 1 → ∀ (m : Nat), m < (order + 1) ^ dim →
        mu j (∑ a in range (dim + 1),
            (supportOffset order (m + (order + 1) ^ dim * k) a : Int) * (table a : Int))
          = mu j (∑ a in range dim, (supportOffset order m a : Int) * (table a : Int)
              + (k : Int) * (table dim : Int)) := by
      intro k hk m hm
      rw [Finset.sum_range_succ, supportOffset_chunk_top order dim m k hm hk]
      congr 2
      apply Finset.sum_congr rfl
      intro a ha
      rw [supportOffset_chunk_low order dim m k a (Finset.mem_range.mp ha)]
    by_cases hLd : L ≤ dim
    · have hlt : j + L * OutD < OutD * (dim + 1) := by
        have := Nat.mul_le_mul_right OutD hLd
        omega
      rw [if_pos hlt]
      apply Finset.sum_congr rfl
      intro k hk
      have hk' := Finset.mem_range.mp hk
      rw [ih _ j L hj hLd, Finset.sum_mul]
      apply Finset.sum_congr rfl
      intro m hm
      have hm' := Finset.mem_range.mp hm
      rw [hterm k hk' m hm', derivativeWeightProduct_succ order w dw dim L m k hm' hk',
        if_neg (by omega), mul_assoc]
    · have hL1 : L = dim + 1 := by omega
      subst hL1
      have hge : ¬ j + (dim + 1) * OutD < OutD * (dim + 1) := by
        have : (dim + 1) * OutD = dim * OutD + OutD := by ring
        omega
      have hlt : j + (dim + 1) * OutD < OutD * (dim + 2) := by
        have : (dim + 1) * OutD = dim * OutD + OutD := by ring
        omega
      have hsub : j + (dim + 1) * OutD - OutD * (dim + 1) = j + 0 * OutD := by
        have : (dim + 1) * OutD = dim * OutD + OutD := by ring
        omega
      rw [if_neg hge, if_pos hlt]
      apply Finset.sum_congr rfl
      intro k hk
      have hk' := Finset.mem_range.mp hk
      simp only [hsub]
      rw [ih _ j 0 hj (Nat.zero_le _), Finset.sum_mul]
      apply Finset.sum_congr rfl
      intro m hm
      have hm' := Finset.mem_range.mp hm
      rw [hterm k hk' m hm', derivativeWeightProduct_succ order w dw dim (dim + 1) m k hm' hk',
        if_pos rfl, derivativeWeightProduct_zero,
        derivativeWeightProduct_above order w dw dim (dim + 1) m (Nat.lt_succ_self dim),
        mul_assoc]

/-! ## All coefficients zero -/

/-- C19 (zero coefficients give the identity). A transform whose control coefficients are all
zero is the identity: for every grid geometry, weight evaluator and point `p`, inside or outside
the valid region, `TransformPoint(p)` equals `p` and, the coefficient images being set
(`GetSpatialJacobian` reads their offset table and buffers without a test),
`GetSpatialJacobian(p)` equals the identity matrix. -/
theorem zero_coefficients_identity {R : Type} [CommRing R] {D order : Nat}
    (T : RecursiveBSplineTransform R D order) (hzero : ∀ i, T.m_Parameters i = 0)
    (p : Fin D → R) (sj : Matrix (Fin D) (Fin D) R) :
    T.TransformPoint p = p ∧
    (T.m_CoefficientImagesSet = true → T.GetSpatialJacobian p sj = 1) := by
  constructor
  · unfold RecursiveBSplineTransform.TransformPoint
    by_cases hset : T.m_CoefficientImagesSet = true
    · by_cases hin : T.InsideValidRegion (T.TransformPointToContinuousGridIndex p) = true
      · simp only [hset, hin, Bool.not_true, Bool.false_eq_true, if_false]
        funext d
        rw [kernel_TransformPoint_eq_dense]
        simp [RecursiveBSplineTransform.coefficientImageBuffer, hzero]
      · simp [hin]
    · simp [hset]
  · intro _
    unfold RecursiveBSplineTransform.GetSpatialJacobian
    by_cases hin : T.InsideValidRegion (T.TransformPointToContinuousGridIndex p) = true
    · simp only [hin, Bool.not_true, Bool.false_eq_true, if_false]
      have hJ : (fun (i j : Fin D) =>
          RecursiveBSplineTransformImplementation.GetSpatialJacobian order D
            (GetOffsetTable T.m_GridSize)
            (T.m_RecursiveBSplineWeightFunction.Evaluate
              (T.TransformPointToContinuousGridIndex p)).1
            (T.m_RecursiveBSplineWeightFunction.EvaluateDerivative
              (T.TransformPointToContinuousGridIndex p)
              (T.m_RecursiveBSplineWeightFunction.Evaluate
                (T.TransformPointToContinuousGridIndex p)).2) D
            (fun j i => T.coefficientImageBuffer j
              (RecursiveBSplineTransform.totalOffsetToSupportIndex D
                (T.m_RecursiveBSplineWeightFunction.Evaluate
                  (T.TransformPointToContinuousGridIndex p)).2
                (GetOffsetTable T.m_GridSize) + i))
            (i.val + (j.val + 1) * D)) = (0 : Matrix (Fin D) (Fin D) R) := by
        funext i j
        rw [kernel_GetSpatialJacobian_eq_dense order D _ _ _ D _ i.val (j.val + 1) i.isLt
          (by have := j.isLt; omega)]
        simp [RecursiveBSplineTransform.coefficientImageBuffer, hzero]
      rw [hJ, Matrix.zero_mul]
      funext i j
      rw [Matrix.one_apply]
      by_cases hij : i = j
      · simp [hij]
      · simp [hij]
    · simp [hin]

/-- The zero-coefficient theorem applied to the concrete transform with its parameters
replaced by zeros, at an inside point. -/
theorem zero_coefficients_identity_witness :
    (∀ i, ({ exampleTransform with m_Parameters := fun _ => 0 } :
        RecursiveBSplineTransform ℤ 2 1).m_Parameters i = 0) ∧
    ({ exampleTransform with m_Parameters := fun _ => 0 } :
        RecursiveBSplineTransform ℤ 2 1).m_CoefficientImagesSet = true ∧
    ({ exampleTransform with m_Parameters := fun _ => 0 } :
        RecursiveBSplineTransform ℤ 2 1).TransformPoint examplePointInside
      = examplePointInside ∧
    ({ exampleTransform with m_Parameters := fun _ => 0 } :
        RecursiveBSplineTransform ℤ 2 1).GetSpatialJacobian examplePointInside 0 = 1 :=
  ⟨fun _ => rfl, rfl,
    (zero_coefficients_identity
      ({ exampleTransform with m_Parameters := fun _ => 0 } : RecursiveBSplineTransform ℤ 2 1)
      (fun _ => rfl) examplePointInside 0).1,
    (zero_coefficients_identity
      ({ exampleTransform with m_Parameters := fun _ => 0 } : RecursiveBSplineTransform ℤ 2 1)
      (fun _ => rfl) examplePointInside 0).2 rfl⟩

/-! ## The fused inner product -/

theorem kernel_EvaluateJacobianWithImageGradientProduct_eq_expandWrite {R : Type} [CommRing R]
    (order OutD : Nat) (mig : Nat → R) (w : Nat → Nat → R) (dim : Nat) :
    ∀ (st : (Nat → R) × Nat) (value : R),
      RecursiveBSplineTransformImplementation.EvaluateJacobianWithImageGradientProduct order OutD
          mig w dim st value
        = expandWrite (order + 1) OutD ((order + 1) ^ OutD)
            (fun dim k v => v * w dim k) (fun v j => v * mig j) dim st value := by
  induction dim with
  | zero => intro st value; rfl
  | succ dim ih =>
    intro st value
    simp only [RecursiveBSplineTransformImplementation.EvaluateJacobianWithImageGradientProduct,
      expandWrite, ih]

/-- Entry `(d, c)` of the matrix `GetJacobian` leaves behind for a point inside the valid
region, when the argument is resized or all zero. -/
theorem GetJacobian_inside_entry {R : Type} [CommRing R] {D order : Nat}
    (T : RecursiveBSplineTransform R D order) (ipp : Fin D → R)
    (hin : T.InsideValidRegion (T.TransformPointToContinuousGridIndex ipp) = true)
    (jacobian : JacobianType R) (nonZeroJacobianIndices : List Nat)
    (hJ : (jacobian.cols ≠ T.GetNumberOfNonZeroJacobianIndices ∨ jacobian.rows ≠ D) ∨
      ∀ i, i < jacobian.rows * jacobian.cols → jacobian.data i = 0)
    (d : Fin D) (c : Nat) (hc : c < D * (order + 1) ^ D) :
    (T.GetJacobian ipp jacobian nonZeroJacobianIndices).1.get d c
      = if d.val = c / (order + 1) ^ D then
          ∏ a in range D, (T.m_RecursiveBSplineWeightFunction.Evaluate
            (T.TransformPointToContinuousGridIndex ipp)).1 a
              (supportOffset order (c % (order + 1) ^ D) a)
        else 0 := by
  obtain ⟨J0, hJ0, hrows, hcols, hzero⟩ : ∃ J0 : JacobianType R,
      J0 = (if jacobian.cols ≠ T.GetNumberOfNonZeroJacobianIndices ∨ jacobian.rows ≠ D then
              ({ rows := D, cols := T.GetNumberOfNonZeroJacobianIndices, data := fun _ => 0 } :
                JacobianType R)
            else jacobian) ∧
      J0.rows = D ∧ J0.cols = T.GetNumberOfNonZeroJacobianIndices ∧
      ∀ i, i < D * T.GetNumberOfNonZeroJacobianIndices → J0.data i = 0 := by
    refine ⟨_, rfl, ?_⟩
    by_cases hshape : jacobian.cols ≠ T.GetNumberOfNonZeroJacobianIndices ∨ jacobian.rows ≠ D
    · rw [if_pos hshape]
      exact ⟨rfl, rfl, fun _ _ => rfl⟩
    · rw [if_neg hshape]
      have hc : jacobian.cols = T.GetNumberOfNonZeroJacobianIndices := by
        by_contra h; exact hshape (Or.inl h)
      have hr : jacobian.rows = D := by
        by_contra h; exact hshape (Or.inr h)
      refine ⟨hr, hc, ?_⟩
      rcases hJ with h | h
      · exact absurd h hshape
      · intro i hi
        apply h
        rw [hr, hc]; exact hi
  have hres : (T.GetJacobian ipp jacobian nonZeroJacobianIndices).1
      = { J0 with data := (RecursiveBSplineTransformImplementation.GetJacobian order D
              (T.m_RecursiveBSplineWeightFunction.Evaluate
                (T.TransformPointToContinuousGridIndex ipp)).1 D (J0.data, 0) 1).1 } := by
    simp only [RecursiveBSplineTransform.GetJacobian, hin, Bool.not_true, Bool.false_eq_true,
      if_false, ← hJ0]
  rw [hres]
  have hpos : 0 < (order + 1) ^ D := Nat.pos_pow_of_pos _ (Nat.succ_pos _)
  have hd' : c / (order + 1) ^ D < D := by
    rw [Nat.div_lt_iff_lt_mul hpos]; exact hc
  have hm' : c % (order + 1) ^ D < (order + 1) ^ D := Nat.mod_lt _ hpos
  have hce : c = c / (order + 1) ^ D * (order + 1) ^ D + c % (order + 1) ^ D := by
    rw [Nat.mul_comm]; exact (Nat.div_add_mod c _).symm
  show (RecursiveBSplineTransformImplementation.GetJacobian order D _ D (J0.data, 0) 1).1
    (d.val * J0.cols + c) = _
  rw [hcols]
  show (RecursiveBSplineTransformImplementation.GetJacobian order D _ D (J0.data, 0) 1).1
    (d.val * (D * (order + 1) ^ D) + c) = _
  have hk := kernel_GetJacobian_entry order D
    (T.m_RecursiveBSplineWeightFunction.Evaluate
      (T.TransformPointToContinuousGridIndex ipp)).1 J0.data d.val
    (c / (order + 1) ^ D) (c % (order + 1) ^ D) d.isLt hd' hm'
  rw [← hce] at hk
  rw [hk]
  by_cases hdd : d.val = c / (order + 1) ^ D
  · rw [if_pos hdd, if_pos hdd]
  · rw [if_neg hdd, if_neg hdd]
    apply hzero
    show d.val * (D * (order + 1) ^ D) + c < D * (D * (order + 1) ^ D)
    have h1 : (d.val + 1) * (D * (order + 1) ^ D) ≤ D * (D * (order + 1) ^ D) :=
      Nat.mul_le_mul_right _ d.isLt
    have h2 : (d.val + 1) * (D * (order + 1) ^ D)
        = d.val * (D * (order + 1) ^ D) + D * (order + 1) ^ D := by ring
    omega

/-- C16 (fused inner product). On a transform whose coefficient images are set (both functions
reach `ComputeNonZeroJacobianIndices`, which reads their offset table), for a point inside the
valid region, every gradient vector `g`
and an `imageJacobian` of length `N`, after `EvaluateJacobianWithImageGradientProduct` the
array still has length `N` and its entry `c` equals `Σ_d jacobian(d, c) * g[d]` for every
`c < N`, where `jacobian` is the matrix `GetJacobian` produces for the same point from a matrix
it sizes afresh (or from an all-zero one). -/
theorem EvaluateJacobianWithImageGradientProduct_eq_product {R : Type} [CommRing R]
    {D order : Nat} (T : RecursiveBSplineTransform R D order)
    (_hset : T.m_CoefficientImagesSet = true) (ipp : Fin D → R)
    (hin : T.InsideValidRegion (T.TransformPointToContinuousGridIndex ipp) = true)
    (g : Fin D → R) (imageJacobian : List R)
    (hlen : imageJacobian.length = T.GetNumberOfNonZeroJacobianIndices)
    (jacobian : JacobianType R)
    (hJ : (jacobian.cols ≠ T.GetNumberOfNonZeroJacobianIndices ∨ jacobian.rows ≠ D) ∨
      ∀ i, i < jacobian.rows * jacobian.cols → jacobian.data i = 0)
    (nz nz' : List Nat) :
    (T.EvaluateJacobianWithImageGradientProduct ipp g imageJacobian nz).1.length
      = T.GetNumberOfNonZeroJacobianIndices ∧
    ∀ c, c < T.GetNumberOfNonZeroJacobianIndices →
      (T.EvaluateJacobianWithImageGradientProduct ipp g imageJacobian nz).1.getD c 0
        = ∑ d : Fin D, (T.GetJacobian ipp jacobian nz').1.get d c * g d := by
  have hres : (T.EvaluateJacobianWithImageGradientProduct ipp g imageJacobian nz).1
      = fromDataBlock imageJacobian.length
          (RecursiveBSplineTransformImplementation.EvaluateJacobianWithImageGradientProduct
            order D (fun j => if h : j < D then g ⟨j, h⟩ else 0)
            (T.m_RecursiveBSplineWeightFunction.Evaluate
              (T.TransformPointToContinuousGridIndex ipp)).1 D
            (dataBlock imageJacobian 0, 0) 1).1 := by
    simp only [RecursiveBSplineTransform.EvaluateJacobianWithImageGradientProduct, hin,
      Bool.not_true, Bool.false_eq_true, if_false]
  rw [hres]
  refine ⟨by rw [length_fromDataBlock, hlen], ?_⟩
  intro c hc
  have hc' : c < D * (order + 1) ^ D := hc
  have hpos : 0 < (order + 1) ^ D := Nat.pos_pow_of_pos _ (Nat.succ_pos _)
  have hd' : c / (order + 1) ^ D < D := by
    rw [Nat.div_lt_iff_lt_mul hpos]; exact hc'
  have hm' : c % (order + 1) ^ D < (order + 1) ^ D := Nat.mod_lt _ hpos
  have hce : 0 + c % (order + 1) ^ D + c / (order + 1) ^ D * (order + 1) ^ D = c := by
    have := Nat.div_add_mod c ((order + 1) ^ D)
    rw [Nat.mul_comm] at this
    omega
  rw [getD_fromDataBlock _ _ _ _ (by rw [hlen]; exact hc),
    kernel_EvaluateJacobianWithImageGradientProduct_eq_expandWrite]
  have hw := (expandWrite_spec (order + 1) D ((order + 1) ^ D)
    (fun dim k v => v * (T.m_RecursiveBSplineWeightFunction.Evaluate
      (T.TransformPointToContinuousGridIndex ipp)).1 dim k)
    (fun (v : R) j => v * (if h : j < D then g ⟨j, h⟩ else 0)) D
    (dataBlock imageJacobian 0) 0 1 (by omega)).2.1 _ _ hd' hm'
  rw [hce] at hw
  rw [hw, expandValue_weight order _ D 1 _ hm', dif_pos hd', one_mul,
    Finset.sum_eq_single (⟨c / (order + 1) ^ D, hd'⟩ : Fin D)]
  · rw [GetJacobian_inside_entry T ipp hin jacobian nz' hJ _ c hc', if_pos rfl]
  · intro d _ hd
    rw [GetJacobian_inside_entry T ipp hin jacobian nz' hJ d c hc',
      if_neg (fun h => hd (Fin.ext h)), zero_mul]
  · intro h; exact absurd (Finset.mem_univ _) h

/-- The fused-product theorem applied to the concrete transform at an inside point with the
gradient `(2, 3)`: entry `5` is `18`. -/
theorem EvaluateJacobianWithImageGradientProduct_eq_product_witness :
    exampleTransform.m_CoefficientImagesSet = true ∧
    exampleTransform.InsideValidRegion
      (exampleTransform.TransformPointToContinuousGridIndex examplePointInside) = true ∧
    (exampleTransform.EvaluateJacobianWithImageGradientProduct examplePointInside ![2, 3]
      [1, 1, 1, 1, 1, 1, 1, 1] []).1.getD 5 0
      = ∑ d : Fin 2,
          (exampleTransform.GetJacobian examplePointInside ⟨0, 0, fun _ => 0⟩ []).1.get d 5
            * (![2, 3] : Fin 2 → ℤ) d :=
  ⟨rfl, by decide,
    (EvaluateJacobianWithImageGradientProduct_eq_product exampleTransform rfl
      examplePointInside (by decide) ![2, 3] [1, 1, 1, 1, 1, 1, 1, 1] rfl ⟨0, 0, fun _ => 0⟩
      (Or.inl (Or.inl (by decide))) [] []).2 5 (by decide)⟩

/-! ## Sensitivity of the spatial Jacobian to the coefficients -/

theorem kernel_GetJacobianOfSpatialJacobian_eq_expandWrite {R : Type} [CommRing R]
    (order OutD : Nat) (w dw : Nat → Nat → R) (dc : Matrix (Fin OutD) (Fin OutD) R)
    (dim : Nat) :
    ∀ (st : (Nat → Matrix (Fin OutD) (Fin OutD) R) × Nat) (jsj : Nat → R),
      RecursiveBSplineTransformImplementation.GetJacobianOfSpatialJacobian order OutD w dw dc
          dim st jsj
        = expandWrite (order + 1) OutD ((order + 1) ^ OutD)
            (fun dim k (jsj : Nat → R) => fun n =>
              if n = dim + 1 then jsj 0 * dw dim k else jsj n * w dim k)
            (fun (jsj : Nat → R) d => fun (r c : Fin OutD) =>
              if r.val = d then ∑ l : Fin OutD, jsj (l.val + 1) * dc l c else 0)
            dim st jsj := by
  induction dim with
  | zero => intro st jsj; rfl
  | succ dim ih =>
    intro st jsj
    simp only [RecursiveBSplineTransformImplementation.GetJacobianOfSpatialJacobian,
      expandWrite, ih]
    rfl

/-- The products that reach the innermost level of the sensitivity kernel for support point
`m`: entry `n ≤ dim` is the weight product with the derivative on axis `n - 1`. -/
theorem expandValue_products {R : Type} [CommRing R] (order : Nat) (w dw : Nat → Nat → R)
    (dim : Nat) :
    ∀ (v : Nat → R) (m n : Nat), m < (order + 1) ^ dim →
      expandValue (order + 1)
          (fun dim k (jsj : Nat → R) => fun n =>
            if n = dim + 1 then jsj 0 * dw dim k else jsj n * w dim k) dim v m n
        = if n ≤ dim then v 0 * derivativeWeightProduct order w dw dim n m
          else v n * ∏ a in range dim, w a (supportOffset order m a) := by
  induction dim with
  | zero =>
    intro v m n _
    by_cases hn : n ≤ 0
    · have : n = 0 := by omega
      subst this
      simp [expandValue, derivativeWeightProduct]
    · simp [expandValue, hn]
  | succ dim ih =>
    intro v m n hm
    have hpos : 0 < (order + 1) ^ dim := Nat.pos_pow_of_pos _ (Nat.succ_pos _)
    have hk : m / (order + 1) ^ dim < order + 1 := by
      rw [pow_succ] at hm
      exact Nat.div_lt_of_lt_mul hm
    have hm0 : m % (order + 1) ^ dim < (order + 1) ^ dim := Nat.mod_lt _ hpos
    have hM : m = m % (order + 1) ^ dim + (order + 1) ^ dim * (m / (order + 1) ^ dim) :=
      (Nat.mod_add_div m _).symm
    rw [expandValue, ih _ _ n hm0]
    generalize m / (order + 1) ^ dim = k at hk hM ⊢
    generalize m % (order + 1) ^ dim = m0 at hm0 hM ⊢
    subst hM
    have hprod : ∏ a in range (dim + 1), w a (supportOffset order (m0 + (order + 1) ^ dim * k) a)
        = (∏ a in range dim, w a (supportOffset order m0 a)) * w dim k := by
      rw [Finset.prod_range_succ, supportOffset_chunk_top order dim m0 k hm0 hk]
      congr 1
      apply Finset.prod_congr rfl
      intro a ha
      rw [supportOffset_chunk_low order dim m0 k a (Finset.mem_range.mp ha)]
    by_cases h1 : n ≤ dim
    · have h2 : n ≤ dim + 1 := by omega
      have h3 : ¬ (dim + 1 = n) := by omega
      rw [if_pos h1, if_pos h2, derivativeWeightProduct_succ order w dw dim n m0 k hm0 hk,
        if_neg h3]
      simp only [Nat.zero_ne_add_one, if_false]
      ring
    · rw [if_neg h1]
      by_cases h2 : n = dim + 1
      · subst h2
        rw [if_pos (le_refl _),
          derivativeWeightProduct_succ order w dw dim (dim + 1) m0 k hm0 hk, if_pos rfl,
          derivativeWeightProduct_above order w dw dim (dim + 1) m0 (Nat.lt_succ_self dim)]
        simp only [if_true]
        ring
      · have h3 : ¬ n ≤ dim + 1 := by omega
        rw [if_neg h3, hprod]
        simp only [h2, if_false]
        ring

/-- Adding `delta` to the control coefficient read by support point `m'` of component `d'`
changes the coefficient seen at support point `m` of component `d` only when `d = d'` and
`m = m'` (the support region lies inside the grid, so the flat indices are distinct). -/
theorem coefficientAt_addToParameter {R : Type} [CommRing R] {D order : Nat}
    (T : RecursiveBSplineTransform R D order) (s : Nat → Int)
    (hs : ∀ j, j < D → 0 ≤ s j ∧ s j + (order : Int) ≤ (T.m_GridSize j : Int) - 1)
    (d d' m' : Nat) (hm : m' < (order + 1) ^ D) (n : Nat)
    (hn : (n : Int) = (d' : Int) * (T.GetNumberOfParametersPerDimension : Int)
      + ∑ j in range D,
          (s j + (supportOffset order m' j : Int)) * (GetOffsetTable T.m_GridSize j : Int))
    (delta : R) (m : Nat) (hm2 : m < (order + 1) ^ D) :
    (T.addToParameter n delta).coefficientAt d
        (fun j => s j + (supportOffset order m j : Int))
      = T.coefficientAt d (fun j => s j + (supportOffset order m j : Int))
        + (if d = d' ∧ m = m' then delta else 0) := by
  have hbound : ∀ m, ∀ j, j < D →
      0 ≤ s j + (supportOffset order m j : Int) ∧
      s j + (supportOffset order m j : Int) ≤ (T.m_GridSize j : Int) - 1 := by
    intro m j hj
    have h1 := hs j hj
    have h2 : ((supportOffset order m j : Nat) : Int) ≤ (order : Int) := by
      have := supportOffset_lt order m j
      omega
    have h3 : (0 : Int) ≤ (supportOffset order m j : Int) := Int.ofNat_nonneg _
    constructor
    · omega
    · omega
  have hiff : ((d : Int) * (T.GetNumberOfParametersPerDimension : Int)
        + ∑ j in range D,
            (s j + (supportOffset order m j : Int)) * (GetOffsetTable T.m_GridSize j : Int)
        = (n : Int)) ↔ (d = d' ∧ m = m') := by
    rw [hn]
    obtain ⟨a0, a1⟩ := raster_offset_bounds T.m_GridSize
      (fun j => s j + (supportOffset order m j : Int)) D (hbound m)
    obtain ⟨b0, b1⟩ := raster_offset_bounds T.m_GridSize
      (fun j => s j + (supportOffset order m' j : Int)) D (hbound m')
    constructor
    · intro h
      have h' : (∑ j in range D,
            (s j + (supportOffset order m j : Int)) * (GetOffsetTable T.m_GridSize j : Int))
          + (d : Int) * (GetOffsetTable T.m_GridSize D : Int)
          = (∑ j in range D,
            (s j + (supportOffset order m' j : Int)) * (GetOffsetTable T.m_GridSize j : Int))
          + (d' : Int) * (GetOffsetTable T.m_GridSize D : Int) := by
        unfold RecursiveBSplineTransform.GetNumberOfParametersPerDimension at h
        linarith
      obtain ⟨hlow, htop⟩ := block_decomposition_unique_int _ _ _ _ _ a0 a1 b0 b1 h'
      refine ⟨by exact_mod_cast htop, ?_⟩
      have hdig := raster_offset_injective T.m_GridSize
        (fun j => s j + (supportOffset order m j : Int))
        (fun j => s j + (supportOffset order m' j : Int)) D (hbound m) (hbound m') hlow
      apply supportOffset_injective order D m m' hm2 hm
      intro a ha
      have := hdig a ha
      simp only at this
      omega
    · rintro ⟨rfl, rfl⟩
      rfl
  have key : ∀ X : Int, (T.addToParameter n delta).m_Parameters X
      = T.m_Parameters X + (if X = (n : Int) then delta else 0) := by
    intro X
    show (if X = (n : Int) then _ else _) = _
    split <;> simp
  show (T.addToParameter n delta).m_Parameters
      ((d : Int) * (T.GetNumberOfParametersPerDimension : Int)
        + ∑ j in range D,
            (s j + (supportOffset order m j : Int)) * (GetOffsetTable T.m_GridSize j : Int))
    = T.m_Parameters
      ((d : Int) * (T.GetNumberOfParametersPerDimension : Int)
        + ∑ j in range D,
            (s j + (supportOffset order m j : Int)) * (GetOffsetTable T.m_GridSize j : Int))
      + (if d = d' ∧ m = m' then delta else 0)
  rw [key]
  congr 1
  exact if_congr hiff rfl rfl

/-- The effect of the perturbation on a dense sum with an arbitrary factor per support point. -/
theorem denseSum_addToParameter {R : Type} [CommRing R] {D order : Nat}
    (T : RecursiveBSplineTransform R D order) (F : Nat → R) (s : Nat → Int)
    (hs : ∀ j, j < D → 0 ≤ s j ∧ s j + (order : Int) ≤ (T.m_GridSize j : Int) - 1)
    (d d' m' : Nat) (hm : m' < (order + 1) ^ D) (n : Nat)
    (hn : (n : Int) = (d' : Int) * (T.GetNumberOfParametersPerDimension : Int)
      + ∑ j in range D,
          (s j + (supportOffset order m' j : Int)) * (GetOffsetTable T.m_GridSize j : Int))
    (delta : R) :
    ∑ m in range ((order + 1) ^ D),
        (T.addToParameter n delta).coefficientAt d
          (fun j => s j + (supportOffset order m j : Int)) * F m
      = ∑ m in range ((order + 1) ^ D),
          T.coefficientAt d (fun j => s j + (supportOffset order m j : Int)) * F m
        + delta * (if d = d' then F m' else 0) := by
  rw [Finset.sum_congr rfl (fun m hm2 => by
    rw [coefficientAt_addToParameter T s hs d d' m' hm n hn delta m (Finset.mem_range.mp hm2)])]
  simp only [add_mul, Finset.sum_add_distrib]
  congr 1
  by_cases hdd : d = d'
  · simp only [hdd, true_and, if_true]
    rw [Finset.sum_eq_single m']
    · simp
    · intro b _ hb; simp [hb]
    · intro h; exact absurd (Finset.mem_range.mpr hm) h
  · simp [hdd]

/-- Entry `i + L * D` of the buffer the facade receives from the kernel of the spatial
Jacobian, as a dense sum over the control points of the support region. -/
theorem spatialJacobian_buffer_eq_dense {R : Type} [CommRing R] {D order : Nat}
    (T : RecursiveBSplineTransform R D order) (w dw : Nat → Nat → R) (s : Nat → Int)
    (i L : Nat) (hi : i < D) (hL : L ≤ D) :
    RecursiveBSplineTransformImplementation.GetSpatialJacobian order D
        (GetOffsetTable T.m_GridSize) w dw D
        (fun j x => T.coefficientImageBuffer j
          (RecursiveBSplineTransform.totalOffsetToSupportIndex D s (GetOffsetTable T.m_GridSize)
            + x))
        (i + L * D)
      = ∑ m in range ((order + 1) ^ D),
          T.coefficientAt i (fun j => s j + (supportOffset order m j : Int))
            * derivativeWeightProduct order w dw D L m := by
  rw [kernel_GetSpatialJacobian_eq_dense order D _ w dw D _ i L hi hL]
  apply Finset.sum_congr rfl
  intro m _
  unfold RecursiveBSplineTransform.coefficientAt
  rw [totalOffsetToSupportIndex_eq_sum, ← Finset.sum_add_distrib]
  congr 2
  apply Finset.sum_congr rfl
  intro j _
  ring

/-- Inside the valid region `GetSpatialJacobian` is the identity plus the kernel's derivative
block times the point-to-index matrix. -/
theorem GetSpatialJacobian_inside_eq {R : Type} [CommRing R] {D order : Nat}
    (T : RecursiveBSplineTransform R D order) (ipp : Fin D → R) (sj : Matrix (Fin D) (Fin D) R)
    (hin : T.InsideValidRegion (T.TransformPointToContinuousGridIndex ipp) = true) :
    T.GetSpatialJacobian ipp sj
      = 1 + Matrix.of (fun (i j : Fin D) =>
          RecursiveBSplineTransformImplementation.GetSpatialJacobian order D
            (GetOffsetTable T.m_GridSize)
            (T.m_RecursiveBSplineWeightFunction.Evaluate
              (T.TransformPointToContinuousGridIndex ipp)).1
            (T.m_RecursiveBSplineWeightFunction.EvaluateDerivative
              (T.TransformPointToContinuousGridIndex ipp)
              (T.m_RecursiveBSplineWeightFunction.Evaluate
                (T.TransformPointToContinuousGridIndex ipp)).2) D
            (fun j x => T.coefficientImageBuffer j
              (RecursiveBSplineTransform.totalOffsetToSupportIndex D
                (T.m_RecursiveBSplineWeightFunction.Evaluate
                  (T.TransformPointToContinuousGridIndex ipp)).2
                (GetOffsetTable T.m_GridSize) + x))
            (i.val + (j.val + 1) * D)) * T.m_PointToIndexMatrix2 := by
  simp only [RecursiveBSplineTransform.GetSpatialJacobian, hin, Bool.not_true,
    Bool.false_eq_true, if_false]
  funext i j
  rw [Matrix.add_apply, Matrix.one_apply]
  by_cases hij : i = j
  · rw [if_pos hij, if_pos hij, add_comm]
    rfl
  · rw [if_neg hij, if_neg hij, zero_add]
    rfl

/-- What `GetJacobianOfSpatialJacobian` returns inside the valid region with the recursive
sensitivity kernel: no exception, `N` matrices, the matrix of position `c` having in the row of
its dimension block the derivative weight products times the point-to-index matrix. -/
theorem GetJacobianOfSpatialJacobian_inside_entry {R : Type} [CommRing R] {D order : Nat}
    (T : RecursiveBSplineTransform R D order) (K : RecursiveBSplineDerivativeKernels R D)
    (ipp : Fin D → R) (hpar : T.m_InputParametersSet = true)
    (hin : T.InsideValidRegion (T.TransformPointToContinuousGridIndex ipp) = true)
    (jsj : List (Matrix (Fin D) (Fin D) R)) (nz : List Nat) :
    (T.GetJacobianOfSpatialJacobian (withRecursiveJacobianOfSpatialJacobian order K) ipp jsj
        nz).exception = none ∧
    (T.GetJacobianOfSpatialJacobian (withRecursiveJacobianOfSpatialJacobian order K) ipp jsj
        nz).out.1.length = D * (order + 1) ^ D ∧
    (T.GetJacobianOfSpatialJacobian (withRecursiveJacobianOfSpatialJacobian order K) ipp jsj
        nz).out.2
      = T.ComputeNonZeroJacobianIndices nz
          (T.m_RecursiveBSplineWeightFunction.Evaluate
            (T.TransformPointToContinuousGridIndex ipp)).2 ∧
    ∀ c, c < D * (order + 1) ^ D →
      (T.GetJacobianOfSpatialJacobian (withRecursiveJacobianOfSpatialJacobian order K) ipp jsj
          nz).out.1.getD c 0
        = fun r col =>
            if r.val = c / (order + 1) ^ D then
              ∑ l : Fin D,
                derivativeWeightProduct order
                  (T.m_RecursiveBSplineWeightFunction.Evaluate
                    (T.TransformPointToContinuousGridIndex ipp)).1
                  (T.m_RecursiveBSplineWeightFunction.EvaluateDerivative
                    (T.TransformPointToContinuousGridIndex ipp)
                    (T.m_RecursiveBSplineWeightFunction.Evaluate
                      (T.TransformPointToContinuousGridIndex ipp)).2)
                  D (l.val + 1) (c % (order + 1) ^ D)
                * T.m_PointToIndexMatrix2 l col
            else 0 := by
  have hres : T.GetJacobianOfSpatialJacobian (withRecursiveJacobianOfSpatialJacobian order K)
        ipp jsj nz
      = ⟨none,
          (fromDataBlock (resize jsj (D * (order + 1) ^ D) 0).length
            (RecursiveBSplineTransformImplementation.GetJacobianOfSpatialJacobian order D
              (T.m_RecursiveBSplineWeightFunction.Evaluate
                (T.TransformPointToContinuousGridIndex ipp)).1
              (T.m_RecursiveBSplineWeightFunction.EvaluateDerivative
                (T.TransformPointToContinuousGridIndex ipp)
                (T.m_RecursiveBSplineWeightFunction.Evaluate
                  (T.TransformPointToContinuousGridIndex ipp)).2)
              T.m_PointToIndexMatrix2 D
              (dataBlock (resize jsj (D * (order + 1) ^ D) 0) 0, 0)
              (fun n => if n = 0 then 1 else 0)).1,
           T.ComputeNonZeroJacobianIndices nz
            (T.m_RecursiveBSplineWeightFunction.Evaluate
              (T.TransformPointToContinuousGridIndex ipp)).2)⟩ := by
    simp only [RecursiveBSplineTransform.GetJacobianOfSpatialJacobian, hpar, hin, Bool.not_true,
      Bool.false_eq_true, if_false, withRecursiveJacobianOfSpatialJacobian,
      RecursiveBSplineTransform.GetNumberOfNonZeroJacobianIndices]
  rw [hres]
  refine ⟨rfl, by simp only [length_fromDataBlock, length_resize], rfl, ?_⟩
  intro c hc
  have hpos : 0 < (order + 1) ^ D := Nat.pos_pow_of_pos _ (Nat.succ_pos _)
  have hd' : c / (order + 1) ^ D < D := by
    rw [Nat.div_lt_iff_lt_mul hpos]; exact hc
  have hm' : c % (order + 1) ^ D < (order + 1) ^ D := Nat.mod_lt _ hpos
  have hce : 0 + c % (order + 1) ^ D + c / (order + 1) ^ D * (order + 1) ^ D = c := by
    have := Nat.div_add_mod c ((order + 1) ^ D)
    rw [Nat.mul_comm] at this
    omega
  simp only
  rw [getD_fromDataBlock _ _ _ _ (by rw [length_resize]; exact hc),
    kernel_GetJacobianOfSpatialJacobian_eq_expandWrite]
  have hw := (expandWrite_spec (order + 1) D ((order + 1) ^ D)
    (fun dim k (jsj : Nat → R) => fun n =>
      if n = dim + 1 then
        jsj 0 * (T.m_RecursiveBSplineWeightFunction.EvaluateDerivative
          (T.TransformPointToContinuousGridIndex ipp)
          (T.m_RecursiveBSplineWeightFunction.Evaluate
            (T.TransformPointToContinuousGridIndex ipp)).2) dim k
      else jsj n * (T.m_RecursiveBSplineWeightFunction.Evaluate
        (T.TransformPointToContinuousGridIndex ipp)).1 dim k)
    (fun (jsj : Nat → R) d => fun (r c : Fin D) =>
      if r.val = d then ∑ l : Fin D, jsj (l.val + 1) * T.m_PointToIndexMatrix2 l c else 0) D
    (dataBlock (resize jsj (D * (order + 1) ^ D) 0) 0) 0 (fun n => if n = 0 then 1 else 0)
    (by omega)).2.1 _ _ hd' hm'
  rw [hce] at hw
  rw [hw]
  funext r col
  by_cases hr : r.val = c / (order + 1) ^ D
  · simp only [hr, if_true]
    apply Finset.sum_congr rfl
    intro l _
    rw [expandValue_products order _ _ D _ _ (l.val + 1) hm', if_pos (by have := l.isLt; omega)]
    simp
  · simp only [hr, if_false]

/-- C17 (Jacobian consistency). With parameters set and the recursive sensitivity kernel, for a
point inside the valid region `GetJacobianOfSpatialJacobian` returns without exception `N`
matrices and `N` indices, and for every position `c < N` and every `delta`, adding `delta` to
the single control coefficient of flat index `nonZeroJacobianIndices[c]` changes the matrix
returned by `GetSpatialJacobian` by exactly `delta` times the `c`-th matrix returned by
`GetJacobianOfSpatialJacobian`. -/
theorem GetJacobianOfSpatialJacobian_sensitivity {R : Type} [CommRing R] {D order : Nat}
    (T : RecursiveBSplineTransform R D order) (K : RecursiveBSplineDerivativeKernels R D)
    (ipp : Fin D → R) (hpar : T.m_InputParametersSet = true)
    (hin : T.InsideValidRegion (T.TransformPointToContinuousGridIndex ipp) = true)
    (sj : Matrix (Fin D) (Fin D) R) (jsj : List (Matrix (Fin D) (Fin D) R)) (nz : List Nat) :
    (T.GetJacobianOfSpatialJacobian (withRecursiveJacobianOfSpatialJacobian order K) ipp jsj
        nz).exception = none ∧
    (T.GetJacobianOfSpatialJacobian (withRecursiveJacobianOfSpatialJacobian order K) ipp jsj
        nz).out.1.length = T.GetNumberOfNonZeroJacobianIndices ∧
    (T.GetJacobianOfSpatialJacobian (withRecursiveJacobianOfSpatialJacobian order K) ipp jsj
        nz).out.2.length = T.GetNumberOfNonZeroJacobianIndices ∧
    ∀ c, c < T.GetNumberOfNonZeroJacobianIndices → ∀ delta : R,
      (T.addToParameter
          ((T.GetJacobianOfSpatialJacobian (withRecursiveJacobianOfSpatialJacobian order K) ipp
            jsj nz).out.2.getD c 0) delta).GetSpatialJacobian ipp sj
        = T.GetSpatialJacobian ipp sj
          + delta • (T.GetJacobianOfSpatialJacobian
              (withRecursiveJacobianOfSpatialJacobian order K) ipp jsj nz).out.1.getD c 0 := by
  obtain ⟨hexc, hlen, hnz, hentry⟩ :=
    GetJacobianOfSpatialJacobian_inside_entry T K ipp hpar hin jsj nz
  refine ⟨hexc, hlen, ?_, ?_⟩
  · rw [hnz, ComputeNonZeroJacobianIndices_length]; rfl
  · intro c hc delta
    have hc' : c < D * (order + 1) ^ D := hc
    have hpos : 0 < (order + 1) ^ D := Nat.pos_pow_of_pos _ (Nat.succ_pos _)
    have hd' : c / (order + 1) ^ D < D := by
      rw [Nat.div_lt_iff_lt_mul hpos]; exact hc'
    have hm' : c % (order + 1) ^ D < (order + 1) ^ D := Nat.mod_lt _ hpos
    have hce : c = c / (order + 1) ^ D * (order + 1) ^ D + c % (order + 1) ^ D := by
      rw [Nat.mul_comm]; exact (Nat.div_add_mod c _).symm
    have hsup := (InsideValidRegion_iff T _).mp hin
    have hn := ComputeNonZeroJacobianIndices_entry T nz
      (T.m_RecursiveBSplineWeightFunction.Evaluate
        (T.TransformPointToContinuousGridIndex ipp)).2
      (fun j hj => (hsup j hj).1) _ _ hd' hm'
    rw [← hce] at hn
    rw [hentry c hc', hnz]
    rw [GetSpatialJacobian_inside_eq (T.addToParameter _ delta) ipp sj hin,
      GetSpatialJacobian_inside_eq T ipp sj hin]
    funext i col
    simp only [Matrix.add_apply, Matrix.mul_apply, Matrix.smul_apply, Matrix.of_apply,
      smul_eq_mul]
    rw [add_assoc]
    congr 1
    have hJ : ∀ l : Fin D,
        RecursiveBSplineTransformImplementation.GetSpatialJacobian order D
            (GetOffsetTable T.m_GridSize)
            (T.m_RecursiveBSplineWeightFunction.Evaluate
              (T.TransformPointToContinuousGridIndex ipp)).1
            (T.m_RecursiveBSplineWeightFunction.EvaluateDerivative
              (T.TransformPointToContinuousGridIndex ipp)
              (T.m_RecursiveBSplineWeightFunction.Evaluate
                (T.TransformPointToContinuousGridIndex ipp)).2) D
            (fun j x => (T.addToParameter
                ((T.ComputeNonZeroJacobianIndices nz
                  (T.m_RecursiveBSplineWeightFunction.Evaluate
                    (T.TransformPointToContinuousGridIndex ipp)).2).getD c 0)
                delta).coefficientImageBuffer j
              (RecursiveBSplineTransform.totalOffsetToSupportIndex D
                (T.m_RecursiveBSplineWeightFunction.Evaluate
                  (T.TransformPointToContinuousGridIndex ipp)).2
                (GetOffsetTable T.m_GridSize) + x))
            (i.val + (l.val + 1) * D)
          = RecursiveBSplineTransformImplementation.GetSpatialJacobian order D
              (GetOffsetTable T.m_GridSize)
              (T.m_RecursiveBSplineWeightFunction.Evaluate
                (T.TransformPointToContinuousGridIndex ipp)).1
              (T.m_RecursiveBSplineWeightFunction.EvaluateDerivative
                (T.TransformPointToContinuousGridIndex ipp)
                (T.m_RecursiveBSplineWeightFunction.Evaluate
                  (T.TransformPointToContinuousGridIndex ipp)).2) D
              (fun j x => T.coefficientImageBuffer j
                (RecursiveBSplineTransform.totalOffsetToSupportIndex D
                  (T.m_RecursiveBSplineWeightFunction.Evaluate
                    (T.TransformPointToContinuousGridIndex ipp)).2
                  (GetOffsetTable T.m_GridSize) + x))
              (i.val + (l.val + 1) * D)
            + delta * (if i.val = c / (order + 1) ^ D then
                derivativeWeightProduct order
                  (T.m_RecursiveBSplineWeightFunction.Evaluate
                    (T.TransformPointToContinuousGridIndex ipp)).1
                  (T.m_RecursiveBSplineWeightFunction.EvaluateDerivative
                    (T.TransformPointToContinuousGridIndex ipp)
                    (T.m_RecursiveBSplineWeightFunction.Evaluate
                      (T.TransformPointToContinuousGridIndex ipp)).2)
                  D (l.val + 1) (c % (order + 1) ^ D)
              else 0) := by
      intro l
      have hl : l.val + 1 ≤ D := by have := l.isLt; omega
      have h1 := spatialJacobian_buffer_eq_dense
        (T.addToParameter ((T.ComputeNonZeroJacobianIndices nz
          (T.m_RecursiveBSplineWeightFunction.Evaluate
            (T.TransformPointToContinuousGridIndex ipp)).2).getD c 0) delta)
        (T.m_RecursiveBSplineWeightFunction.Evaluate
          (T.TransformPointToContinuousGridIndex ipp)).1
        (T.m_RecursiveBSplineWeightFunction.EvaluateDerivative
          (T.TransformPointToContinuousGridIndex ipp)
          (T.m_RecursiveBSplineWeightFunction.Evaluate
            (T.TransformPointToContinuousGridIndex ipp)).2)
        (T.m_RecursiveBSplineWeightFunction.Evaluate
          (T.TransformPointToContinuousGridIndex ipp)).2 i.val (l.val + 1) i.isLt hl
      have h2 := spatialJacobian_buffer_eq_dense T
        (T.m_RecursiveBSplineWeightFunction.Evaluate
          (T.TransformPointToContinuousGridIndex ipp)).1
        (T.m_RecursiveBSplineWeightFunction.EvaluateDerivative
          (T.TransformPointToContinuousGridIndex ipp)
          (T.m_RecursiveBSplineWeightFunction.Evaluate
            (T.TransformPointToContinuousGridIndex ipp)).2)
        (T.m_RecursiveBSplineWeightFunction.Evaluate
          (T.TransformPointToContinuousGridIndex ipp)).2 i.val (l.val + 1) i.isLt hl
      have h3 := denseSum_addToParameter T
        (fun m => derivativeWeightProduct order
          (T.m_RecursiveBSplineWeightFunction.Evaluate
            (T.TransformPointToContinuousGridIndex ipp)).1
          (T.m_RecursiveBSplineWeightFunction.EvaluateDerivative
            (T.TransformPointToContinuousGridIndex ipp)
            (T.m_RecursiveBSplineWeightFunction.Evaluate
              (T.TransformPointToContinuousGridIndex ipp)).2)
          D (l.val + 1) m)
        _ hsup i.val _ _ hm' _ hn delta
      rw [h2]
      exact h1.trans h3
    refine (Finset.sum_congr rfl (fun l _ =>
      congrArg (fun x => x * T.m_PointToIndexMatrix2 l col) (hJ l))).trans ?_
    simp only [add_mul, Finset.sum_add_distrib]
    congr 1
    by_cases hi : i.val = c / (order + 1) ^ D
    · simp only [hi, if_true]
      rw [Finset.mul_sum]
      apply Finset.sum_congr rfl
      intro l _
      ring
    · simp [hi]

/-- The sensitivity theorem applied to the concrete transform at an inside point: position `3`
of the lists and the perturbation `5`. -/
theorem GetJacobianOfSpatialJacobian_sensitivity_witness :
    exampleTransform.m_InputParametersSet = true ∧
    exampleTransform.InsideValidRegion
      (exampleTransform.TransformPointToContinuousGridIndex examplePointInside) = true ∧
    3 < exampleTransform.GetNumberOfNonZeroJacobianIndices ∧
    (exampleTransform.addToParameter
        ((exampleTransform.GetJacobianOfSpatialJacobian
          (withRecursiveJacobianOfSpatialJacobian 1 exampleKernels) examplePointInside []
          []).out.2.getD 3 0) 5).GetSpatialJacobian examplePointInside 0
      = exampleTransform.GetSpatialJacobian examplePointInside 0
        + (5 : ℤ) • (exampleTransform.GetJacobianOfSpatialJacobian
            (withRecursiveJacobianOfSpatialJacobian 1 exampleKernels) examplePointInside []
            []).out.1.getD 3 0 :=
  ⟨rfl, by decide, by decide,
    (GetJacobianOfSpatialJacobian_sensitivity exampleTransform exampleKernels examplePointInside
      rfl (by decide) 0 [] []).2.2.2 3 (by decide) 5⟩

/-! ## Failure atomicity of the sensitivity queries -/

/-- C23 (failure atomicity). When the input parameters have not been set, a call of
`GetJacobianOfSpatialJacobian` or `GetJacobianOfSpatialHessian`, in each overload, raises the
exception and leaves every output argument (`jsj` or `jsh`, `sj` or `sh`, and
`nonZeroJacobianIndices`) exactly as it was handed in. -/
theorem sensitivity_queries_failure_atomic {R : Type} [CommRing R] {D order : Nat}
    (T : RecursiveBSplineTransform R D order) (K : RecursiveBSplineDerivativeKernels R D)
    (ipp : Fin D → R) (hnot : T.m_InputParametersSet = false)
    (sj : Matrix (Fin D) (Fin D) R) (jsj : List (Matrix (Fin D) (Fin D) R))
    (sh : SpatialHessianType R D) (jsh : List (SpatialHessianType R D))
    (nonZeroJacobianIndices : List Nat) :
    ((T.GetJacobianOfSpatialJacobian K ipp jsj nonZeroJacobianIndices).exception.isSome = true ∧
      (T.GetJacobianOfSpatialJacobian K ipp jsj nonZeroJacobianIndices).out
        = (jsj, nonZeroJacobianIndices)) ∧
    ((T.GetJacobianOfSpatialJacobianWithSJ K ipp sj jsj nonZeroJacobianIndices).exception.isSome
        = true ∧
      (T.GetJacobianOfSpatialJacobianWithSJ K ipp sj jsj nonZeroJacobianIndices).out
        = (sj, jsj, nonZeroJacobianIndices)) ∧
    ((T.GetJacobianOfSpatialHessian K ipp jsh nonZeroJacobianIndices).exception.isSome = true ∧
      (T.GetJacobianOfSpatialHessian K ipp jsh nonZeroJacobianIndices).out
        = (jsh, nonZeroJacobianIndices)) ∧
    ((T.GetJacobianOfSpatialHessianWithSH K ipp sh jsh nonZeroJacobianIndices).exception.isSome
        = true ∧
      (T.GetJacobianOfSpatialHessianWithSH K ipp sh jsh nonZeroJacobianIndices).out
        = (sh, jsh, nonZeroJacobianIndices)) := by
  have h1 : T.GetJacobianOfSpatialJacobian K ipp jsj nonZeroJacobianIndices
      = ⟨some "Cannot compute Jacobian: parameters not set", (jsj, nonZeroJacobianIndices)⟩ := by
    simp [RecursiveBSplineTransform.GetJacobianOfSpatialJacobian, hnot]
  have h2 : T.GetJacobianOfSpatialHessian K ipp jsh nonZeroJacobianIndices
      = ⟨some "Cannot compute Jacobian: parameters not set", (jsh, nonZeroJacobianIndices)⟩ := by
    simp [RecursiveBSplineTransform.GetJacobianOfSpatialHessian, hnot]
  refine ⟨⟨by rw [h1]; rfl, by rw [h1]⟩, ⟨?_, ?_⟩, ⟨by rw [h2]; rfl, by rw [h2]⟩, ⟨?_, ?_⟩⟩
  · simp [RecursiveBSplineTransform.GetJacobianOfSpatialJacobianWithSJ, h1]
  · simp [RecursiveBSplineTransform.GetJacobianOfSpatialJacobianWithSJ, h1]
  · simp [RecursiveBSplineTransform.GetJacobianOfSpatialHessianWithSH, h2]
  · simp [RecursiveBSplineTransform.GetJacobianOfSpatialHessianWithSH, h2]

/-- The failure-atomicity theorem applied to the concrete transform before its parameters are
set: the overload that also returns `sj` hands back the three arguments it was given. -/
theorem sensitivity_queries_failure_atomic_witness :
    exampleTransformNotSet.m_InputParametersSet = false ∧
    (exampleTransformNotSet.GetJacobianOfSpatialJacobianWithSJ exampleKernels examplePointInside
        (Matrix.of ![![1, 2], ![3, 4]]) [Matrix.of ![![5, 6], ![7, 8]]] [9]).out
      = (Matrix.of ![![1, 2], ![3, 4]], [Matrix.of ![![5, 6], ![7, 8]]], [9]) :=
  ⟨rfl,
    (sensitivity_queries_failure_atomic exampleTransformNotSet exampleKernels examplePointInside
      rfl (Matrix.of ![![1, 2], ![3, 4]]) [Matrix.of ![![5, 6], ![7, 8]]] (fun _ => 0) []
      [9]).2.1.2⟩

/-! ## Order of the non-zero Jacobian indices -/

theorem GetOffsetTable_eq_prod (G : Nat → Nat) (D : Nat) :
    GetOffsetTable G D = ∏ j in range D, G j := by
  induction D with
  | zero => simp [GetOffsetTable]
  | succ D ih => rw [GetOffsetTable, ih, Finset.prod_range_succ]

/-- Inside the grid the raster offset of the support points grows with their number. -/
theorem raster_offset_strictMono (G : Nat → Nat) (s : Nat → Int) (order : Nat) :
    ∀ D : Nat, (∀ j, j < D → 0 ≤ s j ∧ s j + (order : Int) ≤ (G j : Int) - 1) →
      ∀ m m' : Nat, m < m' → m' < (order + 1) ^ D →
        ∑ j in range D, (s j + (supportOffset order m j : Int)) * (GetOffsetTable G j : Int)
          < ∑ j in range D,
              (s j + (supportOffset order m' j : Int)) * (GetOffsetTable G j : Int) := by
  intro D
  induction D with
  | zero =>
    intro _ m m' h h'
    simp at h'
    omega
  | succ D ih =>
    intro hs m m' hlt hm'
    have hsD : ∀ j, j < D → 0 ≤ s j ∧ s j + (order : Int) ≤ (G j : Int) - 1 :=
      fun j hj => hs j (by omega)
    have hdig : ∀ x j, j < D →
        0 ≤ s j + (supportOffset order x j : Int) ∧
        s j + (supportOffset order x j : Int) ≤ (G j : Int) - 1 := by
      intro x j hj
      have h1 := supportOffset_lt order x j
      have h2 := hsD j hj
      constructor <;> omega
    have hm : m < (order + 1) ^ (D + 1) := lt_trans hlt hm'
    have hpos : 0 < (order + 1) ^ D := Nat.pos_pow_of_pos _ (Nat.succ_pos _)
    have hlow : ∀ x,
        ∑ j in range D, (s j + (supportOffset order x j : Int)) * (GetOffsetTable G j : Int)
          = ∑ j in range D, (s j + (supportOffset order (x % (order + 1) ^ D) j : Int))
              * (GetOffsetTable G j : Int) := by
      intro x
      apply Finset.sum_congr rfl
      intro j hj
      rw [supportOffset_mod order D x j (Finset.mem_range.mp hj)]
    rw [Finset.sum_range_succ, Finset.sum_range_succ, supportOffset_top order D m hm,
      supportOffset_top order D m' hm']
    have hq : m / (order + 1) ^ D ≤ m' / (order + 1) ^ D := Nat.div_le_div_right hlt.le
    have ht : (0 : Int) ≤ (GetOffsetTable G D : Int) := Int.natCast_nonneg _
    rcases Nat.lt_or_eq_of_le hq with hq | hq
    · have hA := (raster_offset_bounds G (fun j => s j + (supportOffset order m j : Int)) D
        (hdig m)).2
      have hB := (raster_offset_bounds G (fun j => s j + (supportOffset order m' j : Int)) D
        (hdig m')).1
      have hq' : s D + ((m / (order + 1) ^ D : Nat) : Int) + 1
          ≤ s D + ((m' / (order + 1) ^ D : Nat) : Int) := by
        have : ((m / (order + 1) ^ D : Nat) : Int) + 1 ≤ ((m' / (order + 1) ^ D : Nat) : Int) := by
          exact_mod_cast hq
        linarith
      have hmul := mul_le_mul_of_nonneg_right hq' ht
      simp only at hA hB
      nlinarith
    · have h1 := Nat.div_add_mod m ((order + 1) ^ D)
      have h2 := Nat.div_add_mod m' ((order + 1) ^ D)
      rw [← hq] at h2
      have hmod : m % (order + 1) ^ D < m' % (order + 1) ^ D := by
        generalize (order + 1) ^ D * (m / (order + 1) ^ D) = z at h1 h2
        omega
      have := ih hsD _ _ hmod (Nat.mod_lt _ hpos)
      rw [hlow m, hlow m', hq]
      linarith

/-- C22 (order of the non-zero Jacobian indices). On a transform whose coefficient images are
set (the function reads their offset table), for a support region lying entirely inside the
grid (strides the raster strides of the grid, `parametersPerDimension` the product of the grid
sizes) the list produced by `ComputeNonZeroJacobianIndices` is strictly increasing, hence free
of duplicates, every entry is smaller than `D * parametersPerDimension`, and the entries of
dimension block `d` lie in `[d * parametersPerDimension, (d + 1) * parametersPerDimension)`. -/
theorem ComputeNonZeroJacobianIndices_strictly_increasing {R : Type} [CommRing R]
    {D order : Nat} (T : RecursiveBSplineTransform R D order)
    (_hset : T.m_CoefficientImagesSet = true) (nz : List Nat) (s : Nat → Int)
    (hs : ∀ j, j < D → 0 ≤ s j ∧ s j + (order : Int) ≤ (T.m_GridSize j : Int) - 1) :
    T.GetNumberOfParametersPerDimension = ∏ j in range D, T.m_GridSize j ∧
    (∀ c c', c < c' → c' < D * (order + 1) ^ D →
      (T.ComputeNonZeroJacobianIndices nz s).getD c 0
        < (T.ComputeNonZeroJacobianIndices nz s).getD c' 0) ∧
    (T.ComputeNonZeroJacobianIndices nz s).Pairwise (fun a b => a < b) ∧
    (T.ComputeNonZeroJacobianIndices nz s).Nodup ∧
    (∀ c, c < D * (order + 1) ^ D →
      (T.ComputeNonZeroJacobianIndices nz s).getD c 0
        < D * T.GetNumberOfParametersPerDimension) ∧
    (∀ d m, d < D → m < (order + 1) ^ D →
      d * T.GetNumberOfParametersPerDimension
          ≤ (T.ComputeNonZeroJacobianIndices nz s).getD (d * (order + 1) ^ D + m) 0 ∧
      (T.ComputeNonZeroJacobianIndices nz s).getD (d * (order + 1) ^ D + m) 0
          < (d + 1) * T.GetNumberOfParametersPerDimension) := by
  have hpos : 0 < (order + 1) ^ D := Nat.pos_pow_of_pos _ (Nat.succ_pos _)
  have hdig : ∀ x j, j < D →
      0 ≤ s j + (supportOffset order x j : Int) ∧
      s j + (supportOffset order x j : Int) ≤ (T.m_GridSize j : Int) - 1 := by
    intro x j hj
    have h1 := supportOffset_lt order x j
    have h2 := hs j hj
    constructor <;> omega
  -- the entries of block `d`
  have hblock : ∀ d m, d < D → m < (order + 1) ^ D →
      d * T.GetNumberOfParametersPerDimension
          ≤ (T.ComputeNonZeroJacobianIndices nz s).getD (d * (order + 1) ^ D + m) 0 ∧
      (T.ComputeNonZeroJacobianIndices nz s).getD (d * (order + 1) ^ D + m) 0
          < (d + 1) * T.GetNumberOfParametersPerDimension := by
    intro d m hd hm
    have he := ComputeNonZeroJacobianIndices_entry T nz s (fun j hj => (hs j hj).1) d m hd hm
    have hb := raster_offset_bounds T.m_GridSize
      (fun j => s j + (supportOffset order m j : Int)) D (hdig m)
    simp only at hb
    have hP : (T.GetNumberOfParametersPerDimension : Int)
        = (GetOffsetTable T.m_GridSize D : Int) := rfl
    constructor
    · have : ((d * T.GetNumberOfParametersPerDimension : Nat) : Int)
          ≤ (((T.ComputeNonZeroJacobianIndices nz s).getD (d * (order + 1) ^ D + m) 0 : Nat)
              : Int) := by
        rw [he]; push_cast; linarith [hb.1]
      exact_mod_cast this
    · have : (((T.ComputeNonZeroJacobianIndices nz s).getD (d * (order + 1) ^ D + m) 0 : Nat)
              : Int)
          < (((d + 1) * T.GetNumberOfParametersPerDimension : Nat) : Int) := by
        rw [he]; push_cast; rw [hP]; linarith [hb.2]
      exact_mod_cast this
  -- every position is `d * B + m`
  have hsplit : ∀ c, c < D * (order + 1) ^ D →
      c / (order + 1) ^ D < D ∧ c % (order + 1) ^ D < (order + 1) ^ D ∧
      c / (order + 1) ^ D * (order + 1) ^ D + c % (order + 1) ^ D = c := by
    intro c hc
    refine ⟨by rw [Nat.div_lt_iff_lt_mul hpos]; exact hc, Nat.mod_lt _ hpos, ?_⟩
    rw [Nat.mul_comm]; exact Nat.div_add_mod c _
  have hinc : ∀ c c', c < c' → c' < D * (order + 1) ^ D →
      (T.ComputeNonZeroJacobianIndices nz s).getD c 0
        < (T.ComputeNonZeroJacobianIndices nz s).getD c' 0 := by
    intro c c' hlt hc'
    obtain ⟨hd, hm, hc⟩ := hsplit c (lt_trans hlt hc')
    obtain ⟨hd', hm', hcc'⟩ := hsplit c' hc'
    have hq : c / (order + 1) ^ D ≤ c' / (order + 1) ^ D := Nat.div_le_div_right hlt.le
    rw [← hc, ← hcc']
    rcases Nat.lt_or_eq_of_le hq with hq | hq
    · have h1 := (hblock _ _ hd hm).2
      have h2 := (hblock _ _ hd' hm').1
      have h3 : (c / (order + 1) ^ D + 1) * T.GetNumberOfParametersPerDimension
          ≤ c' / (order + 1) ^ D * T.GetNumberOfParametersPerDimension :=
        Nat.mul_le_mul_right _ hq
      omega
    · have hmod : c % (order + 1) ^ D < c' % (order + 1) ^ D := by
        rw [← hq] at hcc'
        generalize c / (order + 1) ^ D * (order + 1) ^ D = z at hc hcc'
        omega
      have he := ComputeNonZeroJacobianIndices_entry T nz s (fun j hj => (hs j hj).1) _ _ hd hm
      have he' := ComputeNonZeroJacobianIndices_entry T nz s (fun j hj => (hs j hj).1) _ _ hd'
        hm'
      have hmono := raster_offset_strictMono T.m_GridSize s order D hs _ _ hmod hm'
      have : (((T.ComputeNonZeroJacobianIndices nz s).getD
            (c / (order + 1) ^ D * (order + 1) ^ D + c % (order + 1) ^ D) 0 : Nat) : Int)
          < (((T.ComputeNonZeroJacobianIndices nz s).getD
            (c' / (order + 1) ^ D * (order + 1) ^ D + c' % (order + 1) ^ D) 0 : Nat) : Int) := by
        rw [he, he', hq]; linarith
      exact_mod_cast this
  have hpair : (T.ComputeNonZeroJacobianIndices nz s).Pairwise (fun a b => a < b) := by
    rw [List.pairwise_iff_getElem]
    intro i j hi hj hij
    have hj' : j < D * (order + 1) ^ D := by
      rw [ComputeNonZeroJacobianIndices_length] at hj; exact hj
    have := hinc i j hij hj'
    rw [List.getD_eq_getElem _ _ hi, List.getD_eq_getElem _ _ hj] at this
    exact this
  refine ⟨GetOffsetTable_eq_prod _ _, hinc, hpair, ?_, ?_, hblock⟩
  · exact hpair.imp (fun h => Nat.ne_of_lt h)
  · intro c hc
    obtain ⟨hd, hm, hcc⟩ := hsplit c hc
    have h1 := (hblock _ _ hd hm).2
    rw [hcc] at h1
    have h3 : (c / (order + 1) ^ D + 1) * T.GetNumberOfParametersPerDimension
        ≤ D * T.GetNumberOfParametersPerDimension := Nat.mul_le_mul_right _ hd
    omega

/-- The ordering theorem applied to the concrete transform with the support region anchored at
`(1, 1)`, the list handed in holding other values. -/
theorem ComputeNonZeroJacobianIndices_strictly_increasing_witness :
    exampleTransform.m_CoefficientImagesSet = true ∧
    (∀ j, j < 2 → 0 ≤ (fun _ : Nat => (1 : Int)) j ∧
      (fun _ : Nat => (1 : Int)) j + ((1 : Nat) : Int)
        ≤ (exampleTransform.m_GridSize j : Int) - 1) ∧
    (exampleTransform.ComputeNonZeroJacobianIndices [7, 7] (fun _ => 1)).Pairwise
      (fun a b => a < b) :=
  ⟨rfl, by decide,
    (ComputeNonZeroJacobianIndices_strictly_increasing exampleTransform rfl [7, 7]
      (fun _ => 1) (by decide)).2.2.1⟩

/-! ## The copy loop of the spatial Hessian -/

theorem forLoop_append_eq_map {α : Type} (K : Nat) (g : Nat → α) (l : List α) :
    forLoop K (fun j acc => acc ++ [g j]) l = l ++ (List.range K).map g := by
  induction K with
  | zero => simp [forLoop_zero]
  | succ K ih => rw [forLoop_succ, ih, List.range_succ, List.map_append, List.append_assoc]; rfl

theorem triangle_offset_even (i : Nat) : i * (i + 3) = 2 * (i * (i + 3) / 2) := by
  have h : Even (i * (i + 3)) := by
    rcases Nat.even_or_odd i with h | h
    · exact h.mul_right _
    · have h3 : Even (i + 3) := by
        have : Odd 3 := by decide
        exact h.add_odd this
      exact h3.mul_left _
  obtain ⟨t, ht⟩ := h
  omega

theorem triangle_offset_succ (i : Nat) : (i + 1) * (i + 1 + 3) / 2 = i * (i + 3) / 2 + (i + 2) := by
  have h : (i + 1) * (i + 1 + 3) = i * (i + 3) + 2 * (i + 2) := by ring
  rw [h, Nat.add_mul_div_left _ _ (by decide : 0 < 2)]

theorem triangle_offset_mono {i n : Nat} (h : i ≤ n) : i * (i + 3) / 2 ≤ n * (n + 3) / 2 :=
  Nat.div_le_div_right (Nat.mul_le_mul h (by omega))

theorem triangle_offset_claim (D i : Nat) : D * i * (i + 3) / 2 = D * (i * (i + 3) / 2) := by
  have h := triangle_offset_even i
  generalize i * (i + 3) / 2 = t at h ⊢
  have h2 : D * i * (i + 3) = 2 * (D * t) := by
    rw [Nat.mul_assoc, h]; ring
  rw [h2, Nat.mul_div_cancel_left _ (by decide : 0 < 2)]

/-- The state of the recording copy loop after `n` rounds of the outer loop: the read offset,
and the accesses of one more round. -/
theorem copySpatialHessianAccesses_round (D n : Nat) :
    (forLoop n
        (fun i (st : List (Nat × Nat × Nat × Nat) × Nat) =>
          (forLoop ((i + 1) * D)
            (fun j accesses => accesses ++ [(st.2 + j, j % D, i, j / D)]) st.1,
           st.2 + (i + 2) * D))
        ([], 2 * D)).2 = 2 * D + D * (n * (n + 3) / 2) ∧
    (forLoop (n + 1)
        (fun i (st : List (Nat × Nat × Nat × Nat) × Nat) =>
          (forLoop ((i + 1) * D)
            (fun j accesses => accesses ++ [(st.2 + j, j % D, i, j / D)]) st.1,
           st.2 + (i + 2) * D))
        ([], 2 * D)).1
      = (forLoop n
          (fun i (st : List (Nat × Nat × Nat × Nat) × Nat) =>
            (forLoop ((i + 1) * D)
              (fun j accesses => accesses ++ [(st.2 + j, j % D, i, j / D)]) st.1,
             st.2 + (i + 2) * D))
          ([], 2 * D)).1
        ++ (List.range ((n + 1) * D)).map
            (fun j => (2 * D + D * (n * (n + 3) / 2) + j, j % D, n, j / D)) := by
  have hk : (forLoop n
        (fun i (st : List (Nat × Nat × Nat × Nat) × Nat) =>
          (forLoop ((i + 1) * D)
            (fun j accesses => accesses ++ [(st.2 + j, j % D, i, j / D)]) st.1,
           st.2 + (i + 2) * D))
        ([], 2 * D)).2 = 2 * D + D * (n * (n + 3) / 2) := by
    induction n with
    | zero => simp [forLoop_zero]
    | succ n ih =>
      rw [forLoop_succ]
      simp only
      rw [ih, triangle_offset_succ]
      ring
  refine ⟨hk, ?_⟩
  rw [forLoop_succ]
  simp only
  rw [forLoop_append_eq_map, hk]

/-- The copy loop of `GetSpatialHessian` is the replay of its recorded accesses. -/
theorem copySpatialHessian_eq_replay {R : Type} [CommRing R] (D : Nat) (spatialHessian : Nat → R)
    (sh : SpatialHessianType R D) :
    (RecursiveBSplineTransform.copySpatialHessian D spatialHessian sh).1
      = replayAccesses spatialHessian (copySpatialHessianAccesses D).1 sh := by
  have inner : ∀ (K k i : Nat) (tr : List (Nat × Nat × Nat × Nat)),
      forLoop K (fun j sh => setHessianEntry sh (j % D) i (j / D) (spatialHessian (k + j)))
          (replayAccesses spatialHessian tr sh)
        = replayAccesses spatialHessian
            (forLoop K (fun j accesses => accesses ++ [(k + j, j % D, i, j / D)]) tr) sh := by
    intro K k i tr
    induction K with
    | zero => simp [forLoop_zero]
    | succ K ih =>
      rw [forLoop_succ, forLoop_succ, ih]
      simp [replayAccesses, List.foldl_append]
  have outer : ∀ n : Nat,
      forLoop n
          (fun i (st : SpatialHessianType R D × Nat) =>
            (forLoop ((i + 1) * D)
              (fun j sh => setHessianEntry sh (j % D) i (j / D) (spatialHessian (st.2 + j)))
              st.1,
             st.2 + (i + 2) * D))
          (sh, 2 * D)
        = (replayAccesses spatialHessian
            (forLoop n
              (fun i (st : List (Nat × Nat × Nat × Nat) × Nat) =>
                (forLoop ((i + 1) * D)
                  (fun j accesses => accesses ++ [(st.2 + j, j % D, i, j / D)]) st.1,
                 st.2 + (i + 2) * D))
              ([], 2 * D)).1 sh,
           (forLoop n
              (fun i (st : List (Nat × Nat × Nat × Nat) × Nat) =>
                (forLoop ((i + 1) * D)
                  (fun j accesses => accesses ++ [(st.2 + j, j % D, i, j / D)]) st.1,
                 st.2 + (i + 2) * D))
              ([], 2 * D)).2) := by
    intro n
    induction n with
    | zero => simp [forLoop_zero, replayAccesses]
    | succ n ih =>
      rw [forLoop_succ, ih, forLoop_succ]
      simp only
      rw [inner]
  have h := outer D
  unfold RecursiveBSplineTransform.copySpatialHessian copySpatialHessianAccesses
  rw [h]

theorem copySpatialHessianAccessesAfter_offset (D n : Nat) :
    (copySpatialHessianAccessesAfter D n).2 = 2 * D + D * (n * (n + 3) / 2) :=
  (copySpatialHessianAccesses_round D n).1

theorem copySpatialHessianAccessesAfter_succ (D n : Nat) :
    (copySpatialHessianAccessesAfter D (n + 1)).1
      = (copySpatialHessianAccessesAfter D n).1
        ++ (List.range ((n + 1) * D)).map
            (fun j => (2 * D + D * (n * (n + 3) / 2) + j, j % D, n, j / D)) :=
  (copySpatialHessianAccesses_round D n).2

theorem mem_copySpatialHessianAccessesAfter (D n : Nat) (e : Nat × Nat × Nat × Nat) :
    e ∈ (copySpatialHessianAccessesAfter D n).1 ↔
      ∃ i j, i < n ∧ j < (i + 1) * D ∧
        e = (2 * D + D * (i * (i + 3) / 2) + j, j % D, i, j / D) := by
  induction n with
  | zero => simp [copySpatialHessianAccessesAfter, forLoop_zero]
  | succ n ih =>
    rw [copySpatialHessianAccessesAfter_succ, List.mem_append, ih, List.mem_map]
    constructor
    · rintro (⟨i, j, hi, hj, he⟩ | ⟨j, hj, he⟩)
      · exact ⟨i, j, by omega, hj, he⟩
      · exact ⟨n, j, by omega, List.mem_range.mp hj, he.symm⟩
    · rintro ⟨i, j, hi, hj, he⟩
      rcases Nat.lt_succ_iff_lt_or_eq.mp hi with hi | hi
      · exact Or.inl ⟨i, j, hi, hj, he⟩
      · subst hi
        exact Or.inr ⟨j, List.mem_range.mpr hj, he.symm⟩

theorem pairwise_copySpatialHessianAccessesAfter (D n : Nat) :
    (copySpatialHessianAccessesAfter D n).1.Pairwise (fun a b => a.1 < b.1) := by
  induction n with
  | zero => simp [copySpatialHessianAccessesAfter, forLoop_zero]
  | succ n ih =>
    rw [copySpatialHessianAccessesAfter_succ, List.pairwise_append]
    refine ⟨ih, ?_, ?_⟩
    · rw [List.pairwise_map]
      exact (List.pairwise_lt_range _).imp (fun h => by simpa using h)
    · intro a ha b hb
      obtain ⟨i, j, hi, hj, rfl⟩ := (mem_copySpatialHessianAccessesAfter D n a).mp ha
      obtain ⟨j', _, rfl⟩ := List.mem_map.mp hb
      have h1 : (i + 1) * (i + 1 + 3) / 2 ≤ n * (n + 3) / 2 := triangle_offset_mono hi
      rw [triangle_offset_succ] at h1
      have h2 : D * (i * (i + 3) / 2 + (i + 2)) ≤ D * (n * (n + 3) / 2) :=
        Nat.mul_le_mul_left _ h1
      have h3 : D * (i * (i + 3) / 2 + (i + 2)) = D * (i * (i + 3) / 2) + (i + 1) * D + D := by
        ring
      show 2 * D + D * (i * (i + 3) / 2) + j < 2 * D + D * (n * (n + 3) / 2) + j'
      omega

theorem getLast_copySpatialHessianAccessesAfter (D n : Nat) (hD : 0 < D) :
    (copySpatialHessianAccessesAfter D (n + 1)).1.getLast?
      = some (2 * D + D * (n * (n + 3) / 2) + ((n + 1) * D - 1), D - 1, n, n) := by
  obtain ⟨K, hK⟩ : ∃ K, (n + 1) * D = K + 1 :=
    ⟨(n + 1) * D - 1, by have : 0 < (n + 1) * D := Nat.mul_pos (Nat.succ_pos _) hD; omega⟩
  have hKe : K = n * D + (D - 1) := by
    have : (n + 1) * D = n * D + D := by ring
    omega
  have hmod : K % D = D - 1 := by
    rw [hKe, Nat.add_comm, Nat.add_mul_mod_self_right, Nat.mod_eq_of_lt (by omega)]
  have hdiv : K / D = n := by
    rw [hKe, Nat.add_comm, Nat.add_mul_div_right _ _ hD, Nat.div_eq_of_lt (by omega)]
    simp
  rw [copySpatialHessianAccessesAfter_succ, hK, List.range_succ, List.map_append,
    ← List.append_assoc, List.map_singleton, List.getLast?_append_of_ne_nil _ (by simp),
    List.getLast?_singleton, hmod, hdiv]
  simp

theorem countP_eq_one_of_unique {α : Type} (p : α → Bool) (x : α) :
    ∀ l : List α, l.Nodup → x ∈ l → (∀ e ∈ l, p e = true ↔ e = x) → l.countP p = 1 := by
  intro l
  induction l with
  | nil => intro _ hx _; simp at hx
  | cons a l ih =>
    intro hnd hx hp
    rw [List.nodup_cons] at hnd
    by_cases hax : a = x
    · have hpa : p a = true := (hp a (List.mem_cons_self _ _)).mpr hax
      rw [List.countP_cons_of_pos _ _ hpa]
      have : l.countP p = 0 := by
        rw [List.countP_eq_zero]
        intro e he hpe
        have := (hp e (List.mem_cons_of_mem _ he)).mp hpe
        rw [this, ← hax] at he
        exact hnd.1 he
      omega
    · have hpa : ¬ p a = true := fun h => hax ((hp a (List.mem_cons_self _ _)).mp h)
      rw [List.countP_cons_of_neg _ _ hpa]
      have hxl : x ∈ l := by
        rcases List.mem_cons.mp hx with h | h
        · exact absurd h.symm hax
        · exact h
      exact ih hnd.2 hxl (fun e he => hp e (List.mem_cons_of_mem _ he))

theorem spatialHessian_buffer_length (d : Nat) :
    2 * (d + 1) + (d + 1) * (d * (d + 3) / 2) + (d + 1) * (d + 1)
      = (d + 1) * (d + 1 + 1) * (d + 1 + 2) / 2 := by
  have h := triangle_offset_even d
  generalize d * (d + 3) / 2 = t at h ⊢
  have h2 : (d + 1) * (d + 1 + 1) * (d + 1 + 2)
      = 2 * (2 * (d + 1) + (d + 1) * t + (d + 1) * (d + 1)) := by
    have h3 : (d + 1) * (d + 1 + 1) * (d + 1 + 2) = (d + 1) * (d * (d + 3) + 2 * d + 6) := by
      ring
    rw [h3, h]; ring
  rw [h2, Nat.mul_div_cancel_left _ (by decide : 0 < 2)]

/-- C21 (the copy loop of `GetSpatialHessian` is in bounds and complete). The loop is the replay
of its recorded accesses `(p, m, r, c)` (read of buffer position `p`, assignment of entry
`(r, c)` of matrix `m`); every access has `2 * D ≤ p < D * (D + 1) * (D + 2) / 2` (the length of
the buffer), a lower-triangle target `c ≤ r < D`, `m < D`, and
`p = 2 * D + D * r * (r + 3) / 2 + c * D + m`; the positions read increase strictly, so none is
read twice; for `D ≥ 1` the last position read is `D * (D + 1) * (D + 2) / 2 - 1`; and every
lower-triangle entry of each of the `D` matrices is assigned exactly once. -/
theorem copySpatialHessian_accesses {R : Type} [CommRing R] (D : Nat) :
    (∀ (spatialHessian : Nat → R) (sh : SpatialHessianType R D),
      (RecursiveBSplineTransform.copySpatialHessian D spatialHessian sh).1
        = replayAccesses spatialHessian (copySpatialHessianAccesses D).1 sh) ∧
    (∀ e ∈ (copySpatialHessianAccesses D).1,
      2 * D ≤ e.1 ∧ e.1 < D * (D + 1) * (D + 2) / 2 ∧ e.2.1 < D ∧ e.2.2.1 < D ∧
      e.2.2.2 ≤ e.2.2.1 ∧
      e.1 = 2 * D + D * e.2.2.1 * (e.2.2.1 + 3) / 2 + e.2.2.2 * D + e.2.1) ∧
    (copySpatialHessianAccesses D).1.Pairwise (fun a b => a.1 < b.1) ∧
    ((copySpatialHessianAccesses D).1.map Prod.fst).Nodup ∧
    (1 ≤ D →
      ((copySpatialHessianAccesses D).1.map Prod.fst).getLast?
        = some (D * (D + 1) * (D + 2) / 2 - 1)) ∧
    (∀ m r c, m < D → r < D → c ≤ r →
      (copySpatialHessianAccesses D).1.countP (fun e => decide (e.2 = (m, r, c))) = 1 ∧
      (2 * D + D * r * (r + 3) / 2 + c * D + m, m, r, c) ∈ (copySpatialHessianAccesses D).1) := by
  have hdef : copySpatialHessianAccesses D = copySpatialHessianAccessesAfter D D := rfl
  have hpair := pairwise_copySpatialHessianAccessesAfter D D
  have hall : ∀ e ∈ (copySpatialHessianAccessesAfter D D).1,
      2 * D ≤ e.1 ∧ e.1 < D * (D + 1) * (D + 2) / 2 ∧ e.2.1 < D ∧ e.2.2.1 < D ∧
      e.2.2.2 ≤ e.2.2.1 ∧
      e.1 = 2 * D + D * e.2.2.1 * (e.2.2.1 + 3) / 2 + e.2.2.2 * D + e.2.1 := by
    intro e he
    obtain ⟨i, j, hi, hj, rfl⟩ := (mem_copySpatialHessianAccessesAfter D D e).mp he
    have hD : 0 < D := by omega
    obtain ⟨d, rfl⟩ : ∃ d, D = d + 1 := ⟨D - 1, by omega⟩
    have hlen := spatialHessian_buffer_length d
    have h1 : i * (i + 3) / 2 ≤ d * (d + 3) / 2 := triangle_offset_mono (by omega)
    have h2 : (d + 1) * (i * (i + 3) / 2) ≤ (d + 1) * (d * (d + 3) / 2) :=
      Nat.mul_le_mul_left _ h1
    have h3 : (i + 1) * (d + 1) ≤ (d + 1) * (d + 1) := Nat.mul_le_mul_right _ (by omega)
    have hdm := Nat.div_add_mod j (d + 1)
    have hq : j / (d + 1) < i + 1 := by rw [Nat.div_lt_iff_lt_mul hD]; exact hj
    refine ⟨by simp only; omega, by simp only; omega, Nat.mod_lt _ hD, hi, by simp only; omega,
      ?_⟩
    simp only
    rw [triangle_offset_claim, Nat.mul_comm (j / (d + 1))]
    omega
  have hmem : ∀ m r c, m < D → r < D → c ≤ r →
      (2 * D + D * r * (r + 3) / 2 + c * D + m, m, r, c)
        ∈ (copySpatialHessianAccessesAfter D D).1 := by
    intro m r c hm hr hc
    rw [mem_copySpatialHessianAccessesAfter]
    have hD : 0 < D := by omega
    refine ⟨r, c * D + m, hr, ?_, ?_⟩
    · have : (c + 1) * D ≤ (r + 1) * D := Nat.mul_le_mul_right _ (by omega)
      have h2 : (c + 1) * D = c * D + D := by ring
      omega
    · have hmod : (c * D + m) % D = m := by
        rw [Nat.add_comm, Nat.add_mul_mod_self_right, Nat.mod_eq_of_lt hm]
      have hdiv : (c * D + m) / D = c := by
        rw [Nat.add_comm, Nat.add_mul_div_right _ _ hD, Nat.div_eq_of_lt hm]; simp
      rw [hmod, hdiv, triangle_offset_claim, Nat.add_assoc]
  have hnodup : (copySpatialHessianAccessesAfter D D).1.Nodup :=
    hpair.imp (fun h heq => by rw [heq] at h; exact Nat.lt_irrefl _ h)
  rw [hdef]
  refine ⟨fun buf sh => copySpatialHessian_eq_replay D buf sh, hall, hpair, ?_, ?_, ?_⟩
  · rw [List.Nodup, List.pairwise_map]
    exact hpair.imp (fun h => Nat.ne_of_lt h)
  · intro hD
    obtain ⟨d, rfl⟩ : ∃ d, D = d + 1 := ⟨D - 1, by omega⟩
    rw [List.getLast?_map, getLast_copySpatialHessianAccessesAfter (d + 1) d (by omega)]
    have hlen := spatialHessian_buffer_length d
    simp only [Option.map_some', Option.some.injEq]
    have : (d + 1) * (d + 1) = (d + 1) * (d + 1) - 1 + 1 := by
      have : 0 < (d + 1) * (d + 1) := Nat.mul_pos (by omega) (by omega)
      omega
    omega
  · intro m r c hm hr hc
    refine ⟨?_, hmem m r c hm hr hc⟩
    apply countP_eq_one_of_unique _ _ _ hnodup (hmem m r c hm hr hc)
    intro e he
    have hpos := (hall e he).2.2.2.2.2
    simp only [decide_eq_true_eq]
    constructor
    · intro h
      have h1 : e.2.1 = m := by rw [h]
      have h2 : e.2.2.1 = r := by rw [h]
      have h3 : e.2.2.2 = c := by rw [h]
      rw [h1, h2, h3] at hpos
      exact Prod.ext hpos h
    · intro h
      rw [h]

/-- The copy-loop theorem applied in dimension 2: the last position read is `11`, the buffer
having `12` elements, and entry `(1, 0)` of matrix `1` is assigned exactly once. -/
theorem copySpatialHessian_accesses_witness :
    1 ≤ 2 ∧ (1 < 2 ∧ 1 < 2 ∧ 0 ≤ 1) ∧
    ((copySpatialHessianAccesses 2).1.map Prod.fst).getLast? = some (2 * (2 + 1) * (2 + 2) / 2 - 1) ∧
    (copySpatialHessianAccesses 2).1.countP (fun e => decide (e.2 = (1, 1, 0))) = 1 :=
  ⟨by decide, by decide, (@copySpatialHessian_accesses ℤ _ 2).2.2.2.2.1 (by decide),
    ((@copySpatialHessian_accesses ℤ _ 2).2.2.2.2.2 1 1 0 (by decide) (by decide)
      (by decide)).1⟩

/-! ## The time and the gain of `StandardStochasticGradientOptimizer` -/

/-- The state after `StartOptimization` and `n` calls of `AdvanceOneStep`: the time is
`m_InitialTime + n`, and the initial time and the gain parameters are those of the start. -/
theorem StandardStochasticGradientOptimizer_after_steps {R β : Type} [Field R]
    (pow : R → R → R) (superclass : StochasticGradientDescentOptimizerMethods R β)
    (s : StandardStochasticGradientOptimizer R β) (n : Nat) :
    ((StandardStochasticGradientOptimizer.AdvanceOneStep pow superclass)^[n]
        (s.StartOptimization superclass)).m_CurrentTime = s.m_InitialTime + (n : R) ∧
    ((StandardStochasticGradientOptimizer.AdvanceOneStep pow superclass)^[n]
        (s.StartOptimization superclass)).m_InitialTime = s.m_InitialTime ∧
    ((StandardStochasticGradientOptimizer.AdvanceOneStep pow superclass)^[n]
        (s.StartOptimization superclass)).m_Param_a = s.m_Param_a ∧
    ((StandardStochasticGradientOptimizer.AdvanceOneStep pow superclass)^[n]
        (s.StartOptimization superclass)).m_Param_A = s.m_Param_A ∧
    ((StandardStochasticGradientOptimizer.AdvanceOneStep pow superclass)^[n]
        (s.StartOptimization superclass)).m_Param_alpha = s.m_Param_alpha := by
  induction n with
  | zero =>
    simp [StandardStochasticGradientOptimizer.StartOptimization]
  | succ n ih =>
    rw [Function.iterate_succ_apply']
    obtain ⟨h1, h2, h3, h4, h5⟩ := ih
    refine ⟨?_, ?_, ?_, ?_, ?_⟩
    · have hstep : ∀ t : StandardStochasticGradientOptimizer R β,
          (t.AdvanceOneStep pow superclass).m_CurrentTime = t.m_CurrentTime + 1 := fun _ => rfl
      rw [hstep, h1]; push_cast; ring
    · exact h2
    · exact h3
    · exact h4
    · exact h5

/-- C25 (the gain sequence). The `i`-th `AdvanceOneStep` after `StartOptimization` runs the
superclass step with the learning rate `Compute_a(InitialTime + i)
= a / (A + InitialTime + i + 1) ^ alpha`, computed from the time before it is advanced; over
the reals, for `a > 0`, `alpha > 0` and `A + InitialTime + 1 > 0` these rates are positive and
strictly decreasing in `i`, and for `alpha = 0` they all equal `a`. -/
theorem learningRate_schedule {β : Type}
    (superclass : StochasticGradientDescentOptimizerMethods ℝ β)
    (s : StandardStochasticGradientOptimizer ℝ β) :
    (∀ i : Nat,
      StandardStochasticGradientOptimizer.stateAfterSteps (fun x y => x ^ y) superclass s (i + 1)
        = StandardStochasticGradientOptimizer.UpdateCurrentTime
            { StandardStochasticGradientOptimizer.stateAfterSteps (fun x y => x ^ y) superclass s i
              with Superclass := superclass.AdvanceOneStep
                    { (StandardStochasticGradientOptimizer.stateAfterSteps (fun x y => x ^ y)
                        superclass s i).Superclass
                      with m_LearningRate :=
                            StandardStochasticGradientOptimizer.learningRateOfStep
                              (fun x y => x ^ y) superclass s i } }) ∧
    (∀ i : Nat,
      StandardStochasticGradientOptimizer.learningRateOfStep (fun x y => x ^ y) superclass s i
          = s.Compute_a (fun x y => x ^ y) (s.m_InitialTime + (i : ℝ)) ∧
      StandardStochasticGradientOptimizer.learningRateOfStep (fun x y => x ^ y) superclass s i
          = s.m_Param_a / (s.m_Param_A + s.m_InitialTime + (i : ℝ) + 1) ^ s.m_Param_alpha) ∧
    (0 < s.m_Param_a → 0 < s.m_Param_alpha → 0 < s.m_Param_A + s.m_InitialTime + 1 →
      (∀ i : Nat,
        0 < StandardStochasticGradientOptimizer.learningRateOfStep (fun x y => x ^ y)
              superclass s i) ∧
      ∀ i j : Nat, i < j →
        StandardStochasticGradientOptimizer.learningRateOfStep (fun x y => x ^ y) superclass s j
          < StandardStochasticGradientOptimizer.learningRateOfStep (fun x y => x ^ y)
              superclass s i) ∧
    (s.m_Param_alpha = 0 → ∀ i : Nat,
      StandardStochasticGradientOptimizer.learningRateOfStep (fun x y => x ^ y) superclass s i
        = s.m_Param_a) := by
  have hrate : ∀ i : Nat,
      StandardStochasticGradientOptimizer.learningRateOfStep (fun x y => x ^ y) superclass s i
        = s.m_Param_a / (s.m_Param_A + s.m_InitialTime + (i : ℝ) + 1) ^ s.m_Param_alpha := by
    intro i
    obtain ⟨h1, _, h3, h4, h5⟩ :=
      StandardStochasticGradientOptimizer_after_steps (fun x y : ℝ => x ^ y) superclass s i
    unfold StandardStochasticGradientOptimizer.learningRateOfStep
      StandardStochasticGradientOptimizer.stateAfterSteps
      StandardStochasticGradientOptimizer.Compute_a
    rw [h1, h3, h4, h5, ← add_assoc]
  refine ⟨?_, ?_, ?_, ?_⟩
  · intro i
    unfold StandardStochasticGradientOptimizer.stateAfterSteps
    rw [Function.iterate_succ_apply']
    rfl
  · intro i
    refine ⟨?_, hrate i⟩
    rw [hrate i]
    unfold StandardStochasticGradientOptimizer.Compute_a
    rw [← add_assoc]
  · intro ha halpha hbase
    have hb : ∀ i : Nat, 0 < s.m_Param_A + s.m_InitialTime + (i : ℝ) + 1 := by
      intro i
      have : (0 : ℝ) ≤ (i : ℝ) := Nat.cast_nonneg i
      linarith
    constructor
    · intro i
      rw [hrate i]
      exact div_pos ha (Real.rpow_pos_of_pos (hb i) _)
    · intro i j hij
      rw [hrate i, hrate j]
      have hlt : s.m_Param_A + s.m_InitialTime + (i : ℝ) + 1
          < s.m_Param_A + s.m_InitialTime + (j : ℝ) + 1 := by
        have : (i : ℝ) < (j : ℝ) := by exact_mod_cast hij
        linarith
      have hpow := Real.rpow_lt_rpow (hb i).le hlt halpha
      exact div_lt_div_of_pos_left ha (Real.rpow_pos_of_pos (hb i) _) hpow
  · intro halpha i
    rw [hrate i, halpha, Real.rpow_zero, div_one]

/-- The gain theorem applied to `a = 1`, `A = 0`, `alpha = 1`, initial time `0` and a superclass
that does nothing: the rate of the second step is below the rate of the first. -/
theorem learningRate_schedule_witness :
    (0 : ℝ) < 1 ∧ (0 : ℝ) < 0 + 0 + 1 ∧
    StandardStochasticGradientOptimizer.learningRateOfStep (fun x y : ℝ => x ^ y)
        (⟨id, id⟩ : StochasticGradientDescentOptimizerMethods ℝ Unit)
        ⟨⟨0, ()⟩, 1, 0, 1, 0, 0, 0⟩ 1
      < StandardStochasticGradientOptimizer.learningRateOfStep (fun x y : ℝ => x ^ y)
          (⟨id, id⟩ : StochasticGradientDescentOptimizerMethods ℝ Unit)
          ⟨⟨0, ()⟩, 1, 0, 1, 0, 0, 0⟩ 0 :=
  ⟨one_pos, by simp,
    ((learningRate_schedule (⟨id, id⟩ : StochasticGradientDescentOptimizerMethods ℝ Unit)
      ⟨⟨0, ()⟩, 1, 0, 1, 0, 0, 0⟩).2.2.1 one_pos one_pos (by simp)).2 0 1 (by decide)⟩

/-! ## `DeformationFieldRegulizer` -/

/-- What `InitializeDeformationFields` installs: a new intermediary transform holding the
all-zero field, and the flag set. -/
theorem InitializeDeformationFields_eq {R : Type} [Ring R] {D : Nat} {τ : Type}
    (dfTransform : IntermediaryDFTransformType R D τ) (allocated : Nat → Fin D → R)
    (s : DeformationFieldRegulizer R D τ) :
    s.InitializeDeformationFields dfTransform allocated
      = { s with
          m_IntermediaryDeformationFieldTransform :=
            some (dfTransform.SetCoefficientImage dfTransform.New s.zeroDeformationField)
          m_Initialized := true } := by
  unfold DeformationFieldRegulizer.InitializeDeformationFields
    DeformationFieldRegulizer.zeroDeformationField
  simp only
  rw [forLoop_set_const]
  simp

/-- C27 (the flag `m_Initialized`). In every state reachable from construction through
`InitializeDeformationFields` and `UpdateIntermediaryDeformationFieldTransform` (the latter
called only when the intermediary transform exists) the flag is true exactly when the
intermediary transform exists, and `TransformPoint` has a result exactly when the flag is true;
the flag is false after construction and true after `InitializeDeformationFields`. -/
theorem m_Initialized_iff_transform_exists {R : Type} [Ring R] {D : Nat} {τ : Type}
    (dfTransform : IntermediaryDFTransformType R D τ) (s : DeformationFieldRegulizer R D τ)
    (hs : DeformationFieldRegulizer.Reachable dfTransform s) :
    (s.m_Initialized = true ↔ s.m_IntermediaryDeformationFieldTransform.isSome = true) ∧
    (∀ (T : (Fin D → R) → (Fin D → R)) (p : Fin D → R),
      (s.TransformPoint dfTransform T p).isSome = true ↔ s.m_Initialized = true) ∧
    (∀ (region : ImageRegion D) (spacing origin : Fin D → R),
      (DeformationFieldRegulizer.Constructor region spacing origin :
        DeformationFieldRegulizer R D τ).m_Initialized = false) ∧
    (∀ (allocated : Nat → Fin D → R) (s0 : DeformationFieldRegulizer R D τ),
      (s0.InitializeDeformationFields dfTransform allocated).m_Initialized = true) := by
  have hinv : s.m_Initialized = true ↔ s.m_IntermediaryDeformationFieldTransform.isSome = true := by
    induction hs with
    | constructed region spacing origin => simp [DeformationFieldRegulizer.Constructor]
    | initialized allocated s _ _ => simp [DeformationFieldRegulizer.InitializeDeformationFields]
    | updated s s' vecImage _ hupd ih =>
      unfold DeformationFieldRegulizer.UpdateIntermediaryDeformationFieldTransform at hupd
      cases hptr : s.m_IntermediaryDeformationFieldTransform with
      | none => rw [hptr] at hupd; simp at hupd
      | some t =>
        rw [hptr] at hupd
        simp only [Option.some.injEq] at hupd
        rw [hptr] at ih
        rw [← hupd]
        simpa using ih
  refine ⟨hinv, ?_, fun _ _ _ => rfl, fun _ _ => rfl⟩
  intro T p
  rw [hinv]
  unfold DeformationFieldRegulizer.TransformPoint
  cases s.m_IntermediaryDeformationFieldTransform <;> simp

/-- The flag theorem applied to the concrete regulizer (constructed, then initialised). -/
theorem m_Initialized_iff_transform_exists_witness :
    DeformationFieldRegulizer.Reachable exampleDFTransform exampleRegulizer ∧
    (exampleRegulizer.m_Initialized = true
      ↔ exampleRegulizer.m_IntermediaryDeformationFieldTransform.isSome = true) :=
  ⟨DeformationFieldRegulizer.Reachable.initialized _ _
      (DeformationFieldRegulizer.Reachable.constructed _ _ _),
    (m_Initialized_iff_transform_exists exampleDFTransform exampleRegulizer
      (DeformationFieldRegulizer.Reachable.initialized _ _
        (DeformationFieldRegulizer.Reachable.constructed _ _ _))).1⟩

/-! ## `VectorMeanDiffusionImageFilter` -/

theorem forLoop_set_update_getElem_opt {α : Type} (g : α → α) (d : α) (l : List α) (k : Nat) :
    (forLoop k (fun i l => l.set i (g (l.getD i d))) l).length = l.length ∧
    ∀ i, (forLoop k (fun i l => l.set i (g (l.getD i d))) l)[i]?
      = if i < k then l[i]?.map g else l[i]? := by
  induction k with
  | zero => simp [forLoop_zero]
  | succ k ih =>
    rw [forLoop_succ]
    refine ⟨by rw [List.length_set]; exact ih.1, ?_⟩
    intro i
    rw [List.getElem?_set, ih.1, ih.2, List.getD_eq_getElem?_getD, ih.2]
    by_cases hki : k = i
    · subst hki
      by_cases hk : k < l.length
      · simp [hk, List.getElem?_eq_getElem hk]
      · have h1 : l[k]? = none := List.getElem?_eq_none (by omega)
        simp [hk, h1]
    · have h1 : (i < k + 1) = (i < k) := by
        apply propext; constructor <;> intro h <;> omega
      simp [hki, h1]

/-- One round of the loop of `FilterGrayValueImage` replaces the value under the iterator by
its clamped value. -/
theorem clampStiffness_body {R : Type} [LinearOrderedField R] (cx : List R) (i : Nat) :
    (if (if cx.getD i 0 < 1 / 100000 then cx.set i (1 / 100000) else cx).getD i 0
          > 99999 / 100000
      then (if cx.getD i 0 < 1 / 100000 then cx.set i (1 / 100000) else cx).set i
        (99999 / 100000)
      else (if cx.getD i 0 < 1 / 100000 then cx.set i (1 / 100000) else cx))
      = cx.set i (VectorMeanDiffusionImageFilter.clampedValue (cx.getD i 0)) := by
  have hlohi : ¬ ((1 : R) / 100000 > 99999 / 100000) := by norm_num
  unfold VectorMeanDiffusionImageFilter.clampedValue
  by_cases hi : i < cx.length
  · by_cases h1 : cx.getD i 0 < 1 / 100000
    · have hget : (cx.set i (1 / 100000)).getD i 0 = 1 / 100000 := by
        rw [List.getD_eq_getElem?_getD, List.getElem?_set]
        simp [hi]
      simp only [h1, if_true, hget, hlohi, if_false]
    · simp only [h1, if_false]
      by_cases h2 : cx.getD i 0 > 99999 / 100000
      · simp only [h2, if_true]
      · simp only [h2, if_false]
        apply List.ext_getElem?
        intro j
        rw [List.getElem?_set]
        by_cases hij : i = j
        · subst hij
          simp [hi, List.getD_eq_getElem?_getD, List.getElem?_eq_getElem hi]
        · simp [hij]
  · have hset : ∀ v : R, cx.set i v = cx := fun v => List.set_eq_of_length_le (by omega)
    simp only [hset, ite_self]

theorem clampStiffness_eq_map {R : Type} [LinearOrderedField R] (cx : List R) :
    VectorMeanDiffusionImageFilter.clampStiffness cx
      = cx.map VectorMeanDiffusionImageFilter.clampedValue := by
  unfold VectorMeanDiffusionImageFilter.clampStiffness
  rw [forLoop_congr cx.length _
    (fun i l => l.set i (VectorMeanDiffusionImageFilter.clampedValue (l.getD i 0))) cx
    (fun i _ l => clampStiffness_body l i)]
  apply List.ext_getElem?
  intro i
  rw [(forLoop_set_update_getElem_opt _ _ cx cx.length).2 i, List.getElem?_map]
  by_cases h : i < cx.length
  · simp [h]
  · have h1 : cx[i]? = none := List.getElem?_eq_none (by omega)
    simp [h, h1]

theorem clampedValue_spec {R : Type} [LinearOrderedField R] (v : R) :
    1 / 100000 ≤ VectorMeanDiffusionImageFilter.clampedValue v ∧
    VectorMeanDiffusionImageFilter.clampedValue v ≤ 99999 / 100000 ∧
    (v < 1 / 100000 → VectorMeanDiffusionImageFilter.clampedValue v = 1 / 100000) ∧
    (99999 / 100000 < v → VectorMeanDiffusionImageFilter.clampedValue v = 99999 / 100000) ∧
    (1 / 100000 ≤ v → v ≤ 99999 / 100000 →
      VectorMeanDiffusionImageFilter.clampedValue v = v) := by
  have hlohi : (1 : R) / 100000 < 99999 / 100000 := by norm_num
  unfold VectorMeanDiffusionImageFilter.clampedValue
  refine ⟨?_, ?_, ?_, ?_, ?_⟩
  · split_ifs with h1 h2
    · exact le_refl _
    · exact hlohi.le
    · exact not_lt.mp h1
  · split_ifs with h1 h2
    · exact hlohi.le
    · exact le_refl _
    · exact not_lt.mp h2
  · intro h
    rw [if_pos h]
  · intro h
    rw [if_neg (not_lt.mpr (hlohi.le.trans h.le)), if_pos h]
  · intro h1 h2
    rw [if_neg (not_lt.mpr h1), if_neg (not_lt.mpr h2)]

/-- C29 (range of the stiffness coefficients). `FilterGrayValueImage` returns, for every output
of the rescale filter, an image of the same size all of whose values lie in
`[0.00001, 0.99999]`: a rescaled value below `0.00001` becomes `0.00001`, a value above
`0.99999` becomes `0.99999`, and a value in the interval is left unchanged. -/
theorem FilterGrayValueImage_values {R : Type} [LinearOrderedField R] (rescaled : List R) :
    VectorMeanDiffusionImageFilter.FilterGrayValueImage (some rescaled)
      = some (VectorMeanDiffusionImageFilter.clampStiffness rescaled) ∧
    (VectorMeanDiffusionImageFilter.clampStiffness rescaled).length = rescaled.length ∧
    (∀ v ∈ VectorMeanDiffusionImageFilter.clampStiffness rescaled,
      1 / 100000 ≤ v ∧ v ≤ 99999 / 100000) ∧
    ∀ i, i < rescaled.length →
      (rescaled.getD i 0 < 1 / 100000 →
        (VectorMeanDiffusionImageFilter.clampStiffness rescaled).getD i 0 = 1 / 100000) ∧
      (99999 / 100000 < rescaled.getD i 0 →
        (VectorMeanDiffusionImageFilter.clampStiffness rescaled).getD i 0 = 99999 / 100000) ∧
      (1 / 100000 ≤ rescaled.getD i 0 → rescaled.getD i 0 ≤ 99999 / 100000 →
        (VectorMeanDiffusionImageFilter.clampStiffness rescaled).getD i 0
          = rescaled.getD i 0) := by
  refine ⟨rfl, by rw [clampStiffness_eq_map, List.length_map], ?_, ?_⟩
  · intro v hv
    rw [clampStiffness_eq_map, List.mem_map] at hv
    obtain ⟨a, _, rfl⟩ := hv
    exact ⟨(clampedValue_spec a).1, (clampedValue_spec a).2.1⟩
  · intro i hi
    have hget : (VectorMeanDiffusionImageFilter.clampStiffness rescaled).getD i 0
        = VectorMeanDiffusionImageFilter.clampedValue (rescaled.getD i 0) := by
      rw [clampStiffness_eq_map, List.getD_eq_getElem?_getD, List.getD_eq_getElem?_getD,
        List.getElem?_map, List.getElem?_eq_getElem hi]
      rfl
    rw [hget]
    exact (clampedValue_spec _).2.2

/-- The range theorem applied to the rescaled image `[0, 1/2, 1]`: the first value, below
`0.00001`, becomes `0.00001`. -/
theorem FilterGrayValueImage_values_witness :
    0 < ([0, 1 / 2, 1] : List ℚ).length ∧
    ([0, 1 / 2, 1] : List ℚ).getD 0 0 < 1 / 100000 ∧
    (VectorMeanDiffusionImageFilter.clampStiffness ([0, 1 / 2, 1] : List ℚ)).getD 0 0
      = 1 / 100000 :=
  ⟨by decide, by simp,
    ((FilterGrayValueImage_values ([0, 1 / 2, 1] : List ℚ)).2.2.2 0 (by decide)).1 (by simp)⟩

/-- The loop over the neighbourhood computes the two sums. -/
theorem neighbourhoodSums_eq {R : Type} [LinearOrderedField R] {D : Nat}
    (neighborhoodSize : Nat) (neighbour : Nat → Nat → Nat) (output : List (Fin D → R))
    (cx : List R) (p : Nat) :
    VectorMeanDiffusionImageFilter.neighbourhoodSums neighborhoodSize neighbour output cx p
      = (fun j => ∑ i in range neighborhoodSize,
            cx.getD (neighbour p i) 0 * output.getD (neighbour p i) 0 j,
         ∑ i in range neighborhoodSize, cx.getD (neighbour p i) 0) := by
  unfold VectorMeanDiffusionImageFilter.neighbourhoodSums
  induction neighborhoodSize with
  | zero => simp [forLoop_zero]
  | succ n ih =>
    rw [forLoop_succ, ih]
    simp only [Finset.sum_range_succ]

/-- The value the loop over the pixels computes for pixel `p`. -/
theorem newPixelValue_eq {R : Type} [LinearOrderedField R] {D : Nat}
    (neighborhoodSize : Nat) (neighbour : Nat → Nat → Nat) (output : List (Fin D → R))
    (cx : List R) (p : Nat) (j : Fin D) :
    VectorMeanDiffusionImageFilter.newPixelValue neighborhoodSize neighbour output cx p j
      = (1 - cx.getD p 0) * output.getD p 0 j
        + cx.getD p 0
          * (if ∑ i in range neighborhoodSize, cx.getD (neighbour p i) 0 < 1 / 1000 then 0
             else (∑ i in range neighborhoodSize,
                    cx.getD (neighbour p i) 0 * output.getD (neighbour p i) 0 j)
                  / ∑ i in range neighborhoodSize, cx.getD (neighbour p i) 0) := by
  unfold VectorMeanDiffusionImageFilter.newPixelValue
  simp only [neighbourhoodSums_eq]
  ring

/-- One round of the loop over the iterations: the sizes stay, and every pixel of the new
`output` is the value computed from the old `output`. -/
theorem iteration_spec {R : Type} [LinearOrderedField R] {D : Nat}
    (neighborhoodSize : Nat) (neighbour : Nat → Nat → Nat) (cx : List R)
    (output outputtmp : List (Fin D → R)) :
    (VectorMeanDiffusionImageFilter.iteration neighborhoodSize neighbour cx
        (output, outputtmp)).1.length = output.length ∧
    (VectorMeanDiffusionImageFilter.iteration neighborhoodSize neighbour cx
        (output, outputtmp)).2.length = outputtmp.length ∧
    (outputtmp.length = output.length → ∀ p, p < output.length →
      (VectorMeanDiffusionImageFilter.iteration neighborhoodSize neighbour cx
          (output, outputtmp)).1.getD p 0
        = VectorMeanDiffusionImageFilter.newPixelValue neighborhoodSize neighbour output cx
            p) := by
  unfold VectorMeanDiffusionImageFilter.iteration
  simp only
  have htmp := forLoop_set_getElem_opt
    (fun p => VectorMeanDiffusionImageFilter.newPixelValue neighborhoodSize neighbour output cx p)
    outputtmp output.length
  generalize forLoop output.length
    (fun p outputtmp => outputtmp.set p
      (VectorMeanDiffusionImageFilter.newPixelValue neighborhoodSize neighbour output cx p))
    outputtmp = tmp at htmp
  have hout := forLoop_set_getElem_opt (fun p => tmp.getD p 0) output output.length
  refine ⟨hout.1, htmp.1, ?_⟩
  intro hlen p hp
  rw [List.getD_eq_getElem?_getD, hout.2 p, if_pos hp, if_pos hp, Option.getD_some,
    List.getD_eq_getElem?_getD, htmp.2 p, if_pos hp, if_pos (by omega), Option.getD_some]

/-- The images of `GenerateData`: sizes, the start, and the step from one round to the next. -/
theorem imagesAfter_spec {R : Type} [LinearOrderedField R] {D : Nat}
    (neighborhoodSize : Nat) (neighbour : Nat → Nat → Nat) (cx : List R)
    (input : List (Fin D → R)) (allocatedOutput allocatedTmp : Nat → Fin D → R) (k : Nat) :
    (VectorMeanDiffusionImageFilter.imagesAfter neighborhoodSize neighbour cx input
        allocatedOutput allocatedTmp k).1.length = input.length ∧
    (VectorMeanDiffusionImageFilter.imagesAfter neighborhoodSize neighbour cx input
        allocatedOutput allocatedTmp k).2.length = input.length ∧
    (VectorMeanDiffusionImageFilter.imagesAfter neighborhoodSize neighbour cx input
        allocatedOutput allocatedTmp 0).1 = input ∧
    VectorMeanDiffusionImageFilter.imagesAfter neighborhoodSize neighbour cx input
        allocatedOutput allocatedTmp (k + 1)
      = VectorMeanDiffusionImageFilter.iteration neighborhoodSize neighbour cx
          (VectorMeanDiffusionImageFilter.imagesAfter neighborhoodSize neighbour cx input
            allocatedOutput allocatedTmp k) := by
  have hstep : ∀ k, VectorMeanDiffusionImageFilter.imagesAfter neighborhoodSize neighbour cx
        input allocatedOutput allocatedTmp (k + 1)
      = VectorMeanDiffusionImageFilter.iteration neighborhoodSize neighbour cx
          (VectorMeanDiffusionImageFilter.imagesAfter neighborhoodSize neighbour cx input
            allocatedOutput allocatedTmp k) := by
    intro k
    unfold VectorMeanDiffusionImageFilter.imagesAfter
    simp only
    rw [forLoop_succ]
  have hcopy := forLoop_set_getElem_opt (fun p => input.getD p 0)
    ((List.range input.length).map allocatedOutput) input.length
  have hzero : (VectorMeanDiffusionImageFilter.imagesAfter neighborhoodSize neighbour cx input
      allocatedOutput allocatedTmp 0).1 = input := by
    unfold VectorMeanDiffusionImageFilter.imagesAfter
    simp only [forLoop_zero]
    apply List.ext_getElem?
    intro i
    rw [hcopy.2 i]
    by_cases h : i < input.length
    · simp [h, List.getD_eq_getElem?_getD, List.getElem?_eq_getElem h]
    · have h1 : input[i]? = none := List.getElem?_eq_none (by omega)
      simp [h, h1]
      omega
  have hlen : ∀ k,
      (VectorMeanDiffusionImageFilter.imagesAfter neighborhoodSize neighbour cx input
        allocatedOutput allocatedTmp k).1.length = input.length ∧
      (VectorMeanDiffusionImageFilter.imagesAfter neighborhoodSize neighbour cx input
        allocatedOutput allocatedTmp k).2.length = input.length := by
    intro k
    induction k with
    | zero =>
      refine ⟨by rw [hzero], ?_⟩
      unfold VectorMeanDiffusionImageFilter.imagesAfter
      simp [forLoop_zero]
    | succ k ih =>
      rw [hstep k]
      have h := iteration_spec neighborhoodSize neighbour cx
        (VectorMeanDiffusionImageFilter.imagesAfter neighborhoodSize neighbour cx input
          allocatedOutput allocatedTmp k).1
        (VectorMeanDiffusionImageFilter.imagesAfter neighborhoodSize neighbour cx input
          allocatedOutput allocatedTmp k).2
      exact ⟨h.1.trans ih.1, h.2.1.trans ih.2⟩
  exact ⟨(hlen k).1, (hlen k).2, hzero, hstep k⟩

/-- Every round of the loop over the iterations of `GenerateData` sets every pixel to
`(1 - c) * x + c * mean`, where `mean` is zero if the sum of the neighbourhood's
coefficients is below `0.001` and the weighted mean otherwise; `x` and the neighbourhood are
those of the round before. -/
theorem imagesAfter_pixel {R : Type} [LinearOrderedField R] {D : Nat}
    (neighborhoodSize : Nat) (neighbour : Nat → Nat → Nat) (cx : List R)
    (input : List (Fin D → R)) (allocatedOutput allocatedTmp : Nat → Fin D → R) (k p : Nat)
    (hp : p < input.length) (j : Fin D) :
    (VectorMeanDiffusionImageFilter.imagesAfter neighborhoodSize neighbour cx input
        allocatedOutput allocatedTmp (k + 1)).1.getD p 0 j
      = (1 - cx.getD p 0)
          * (VectorMeanDiffusionImageFilter.imagesAfter neighborhoodSize neighbour cx input
              allocatedOutput allocatedTmp k).1.getD p 0 j
        + cx.getD p 0
          * (if ∑ i in range neighborhoodSize, cx.getD (neighbour p i) 0 < 1 / 1000 then 0
             else (∑ i in range neighborhoodSize,
                    cx.getD (neighbour p i) 0
                      * (VectorMeanDiffusionImageFilter.imagesAfter neighborhoodSize neighbour
                          cx input allocatedOutput allocatedTmp k).1.getD (neighbour p i) 0 j)
                  / ∑ i in range neighborhoodSize, cx.getD (neighbour p i) 0) := by
  obtain ⟨h1, h2, _, h4⟩ := imagesAfter_spec neighborhoodSize neighbour cx input
    allocatedOutput allocatedTmp k
  rw [h4]
  have h := (iteration_spec neighborhoodSize neighbour cx
    (VectorMeanDiffusionImageFilter.imagesAfter neighborhoodSize neighbour cx input
      allocatedOutput allocatedTmp k).1
    (VectorMeanDiffusionImageFilter.imagesAfter neighborhoodSize neighbour cx input
      allocatedOutput allocatedTmp k).2).2.2 (h2.trans h1.symm) p (by omega)
  rw [h, newPixelValue_eq]

/-- C28 as stated fails on the code. On a line of three pixels with radius one, the rescaled
stiffness image `[0, 0, 1]` and the constant input `1`, `FilterGrayValueImage` yields
`[0.00001, 0.00001, 0.99999]`; the coefficients around pixel `0` sum to `0.00003 < 0.001`, so
the code takes the mean to be zero and one iteration of `GenerateData` sets pixel `0` to
`0.99999`, whereas `(1 - c) * x + c * SUM_i{ c_i * x_i } / SUM_i{ c_i }` is `1`. -/
theorem GenerateData_mean_below_threshold :
    VectorMeanDiffusionImageFilter.FilterGrayValueImage (some ([0, 0, 1] : List ℚ))
      = some [1 / 100000, 1 / 100000, 99999 / 100000] ∧
    (VectorMeanDiffusionImageFilter.GenerateData 1 3 exampleNeighbour (some ([0, 0, 1] : List ℚ))
        ([![1], ![1], ![1]] : List (Fin 1 → ℚ)) (fun _ _ => 0) (fun _ _ => 0)).map
      (fun output => output.getD 0 0 0) = some (99999 / 100000) ∧
    VectorMeanDiffusionImageFilter.weightedMeanUpdate 3 exampleNeighbour
      ([![1], ![1], ![1]] : List (Fin 1 → ℚ)) [1 / 100000, 1 / 100000, 99999 / 100000] 0 0
      = 1 := by
  have hcx : VectorMeanDiffusionImageFilter.clampStiffness ([0, 0, 1] : List ℚ)
      = [1 / 100000, 1 / 100000, 99999 / 100000] := by
    rw [clampStiffness_eq_map]
    norm_num [VectorMeanDiffusionImageFilter.clampedValue]
  have e0 : exampleNeighbour 0 0 = 0 := rfl
  have e1 : exampleNeighbour 0 1 = 0 := rfl
  have e2 : exampleNeighbour 0 2 = 1 := rfl
  refine ⟨?_, ?_, ?_⟩
  · show some (VectorMeanDiffusionImageFilter.clampStiffness ([0, 0, 1] : List ℚ)) = _
    rw [hcx]
  · unfold VectorMeanDiffusionImageFilter.GenerateData
      VectorMeanDiffusionImageFilter.FilterGrayValueImage
    simp only [hcx, Option.map_some', Option.some.injEq]
    rw [imagesAfter_pixel 3 exampleNeighbour _ _ _ _ 0 0 (by decide) 0,
      (imagesAfter_spec 3 exampleNeighbour _ _ _ _ 0).2.2.1]
    norm_num [Finset.sum_range_succ, e0, e1, e2]
  · unfold VectorMeanDiffusionImageFilter.weightedMeanUpdate
    norm_num [Finset.sum_range_succ, e0, e1, e2]

/-- C28 amended (the update of one iteration of `GenerateData`). `GenerateData` returns the
image after `m_NumberOfIterations` rounds, the first round starting from the input; in every
round, for every stiffness image produced by `FilterGrayValueImage`, every pixel `p` is updated
from the values `x` of the round before: if the coefficients of its neighbourhood sum to at
least `0.001` the new vector is `(1 - c) * x + c * mean` with
`mean = SUM_i{ c_i * x_i } / SUM_i{ c_i }`, which is always the case when the neighbourhood
holds at least `100` pixels; if they sum to less than `0.001` the mean is taken to be zero and
the new vector is `(1 - c) * x`. -/
theorem GenerateData_weighted_mean_update {R : Type} [LinearOrderedField R] {D : Nat}
    (m_NumberOfIterations neighborhoodSize : Nat) (neighbour : Nat → Nat → Nat)
    (rescaled : List R) (input : List (Fin D → R))
    (allocatedOutput allocatedTmp : Nat → Fin D → R) (k p : Nat) (hp : p < input.length) :
    VectorMeanDiffusionImageFilter.GenerateData m_NumberOfIterations neighborhoodSize neighbour
        (some rescaled) input allocatedOutput allocatedTmp
      = some (VectorMeanDiffusionImageFilter.imagesAfter neighborhoodSize neighbour
          (VectorMeanDiffusionImageFilter.clampStiffness rescaled) input allocatedOutput
          allocatedTmp m_NumberOfIterations).1 ∧
    (VectorMeanDiffusionImageFilter.imagesAfter neighborhoodSize neighbour
        (VectorMeanDiffusionImageFilter.clampStiffness rescaled) input allocatedOutput
        allocatedTmp 0).1 = input ∧
    (1 / 1000 ≤ ∑ i in range neighborhoodSize,
        (VectorMeanDiffusionImageFilter.clampStiffness rescaled).getD (neighbour p i) 0 →
      (VectorMeanDiffusionImageFilter.imagesAfter neighborhoodSize neighbour
          (VectorMeanDiffusionImageFilter.clampStiffness rescaled) input allocatedOutput
          allocatedTmp (k + 1)).1.getD p 0
        = VectorMeanDiffusionImageFilter.weightedMeanUpdate neighborhoodSize neighbour
            (VectorMeanDiffusionImageFilter.imagesAfter neighborhoodSize neighbour
              (VectorMeanDiffusionImageFilter.clampStiffness rescaled) input allocatedOutput
              allocatedTmp k).1
            (VectorMeanDiffusionImageFilter.clampStiffness rescaled) p) ∧
    (100 ≤ neighborhoodSize → (∀ i, i < neighborhoodSize → neighbour p i < rescaled.length) →
      1 / 1000 ≤ ∑ i in range neighborhoodSize,
        (VectorMeanDiffusionImageFilter.clampStiffness rescaled).getD (neighbour p i) 0) ∧
    (∑ i in range neighborhoodSize,
        (VectorMeanDiffusionImageFilter.clampStiffness rescaled).getD (neighbour p i) 0
        < 1 / 1000 →
      ∀ j, (VectorMeanDiffusionImageFilter.imagesAfter neighborhoodSize neighbour
          (VectorMeanDiffusionImageFilter.clampStiffness rescaled) input allocatedOutput
          allocatedTmp (k + 1)).1.getD p 0 j
        = (1 - (VectorMeanDiffusionImageFilter.clampStiffness rescaled).getD p 0)
          * (VectorMeanDiffusionImageFilter.imagesAfter neighborhoodSize neighbour
              (VectorMeanDiffusionImageFilter.clampStiffness rescaled) input allocatedOutput
              allocatedTmp k).1.getD p 0 j) := by
  refine ⟨rfl, (imagesAfter_spec _ _ _ _ _ _ 0).2.2.1, ?_, ?_, ?_⟩
  · intro hsum
    funext j
    rw [imagesAfter_pixel _ _ _ _ _ _ k p hp j, if_neg (not_lt.mpr hsum)]
    rfl
  · intro hsize hnb
    have hlow : ∀ i ∈ range neighborhoodSize,
        (1 : R) / 100000
          ≤ (VectorMeanDiffusionImageFilter.clampStiffness rescaled).getD (neighbour p i) 0 := by
      intro i hi
      have hlt := hnb i (Finset.mem_range.mp hi)
      rw [clampStiffness_eq_map, List.getD_eq_getElem?_getD, List.getElem?_map,
        List.getElem?_eq_getElem hlt]
      exact (clampedValue_spec _).1
    have h := Finset.card_nsmul_le_sum (range neighborhoodSize) _ _ hlow
    rw [Finset.card_range, nsmul_eq_mul] at h
    have hn : (100 : R) ≤ (neighborhoodSize : R) := by exact_mod_cast hsize
    have h2 : (1 : R) / 1000 ≤ (neighborhoodSize : R) * (1 / 100000) := by linarith
    exact h2.trans h
  · intro hsum j
    rw [imagesAfter_pixel _ _ _ _ _ _ k p hp j, if_pos hsum, mul_zero, add_zero]

/-- The amended update applied to the rescaled stiffness image `[1/2, 1/2, 1/2]` on a line of
three pixels: the coefficients around pixel `1` sum to `3/2`, and the first round sets the pixel
to the weighted-mean update of the input. -/
theorem GenerateData_weighted_mean_update_witness :
    1 < ([![1], ![2], ![4]] : List (Fin 1 → ℚ)).length ∧
    (1 / 1000 ≤ ∑ i in range 3,
      (VectorMeanDiffusionImageFilter.clampStiffness ([1 / 2, 1 / 2, 1 / 2] : List ℚ)).getD
        (exampleNeighbour 1 i) 0) ∧
    (VectorMeanDiffusionImageFilter.imagesAfter 3 exampleNeighbour
        (VectorMeanDiffusionImageFilter.clampStiffness ([1 / 2, 1 / 2, 1 / 2] : List ℚ))
        ([![1], ![2], ![4]] : List (Fin 1 → ℚ)) (fun _ _ => 0) (fun _ _ => 0) (0 + 1)).1.getD 1 0
      = VectorMeanDiffusionImageFilter.weightedMeanUpdate 3 exampleNeighbour
          (VectorMeanDiffusionImageFilter.imagesAfter 3 exampleNeighbour
            (VectorMeanDiffusionImageFilter.clampStiffness ([1 / 2, 1 / 2, 1 / 2] : List ℚ))
            ([![1], ![2], ![4]] : List (Fin 1 → ℚ)) (fun _ _ => 0) (fun _ _ => 0) 0).1
          (VectorMeanDiffusionImageFilter.clampStiffness ([1 / 2, 1 / 2, 1 / 2] : List ℚ)) 1 :=
  ⟨by decide,
    by rw [clampStiffness_eq_map]
       norm_num [Finset.sum_range_succ, exampleNeighbour,
         VectorMeanDiffusionImageFilter.clampedValue],
    (GenerateData_weighted_mean_update 0 3 exampleNeighbour ([1 / 2, 1 / 2, 1 / 2] : List ℚ)
      ([![1], ![2], ![4]] : List (Fin 1 → ℚ)) (fun _ _ => 0) (fun _ _ => 0) 0 1
      (by decide)).2.2.1
      (by rw [clampStiffness_eq_map]
          norm_num [Finset.sum_range_succ, exampleNeighbour,
            VectorMeanDiffusionImageFilter.clampedValue])⟩

/-! ## Rounding to `double` -/

theorem roundHalfEven_intCast (K : Int) : roundHalfEven (K : ℚ) = K := by
  unfold roundHalfEven
  simp

/-- A number that is an integer multiple of the unit of its own binade is a `double`. -/
theorem roundToDouble_of_multiple (x : ℚ) (K : Int) (h : x / 2 ^ doubleExponent x = K) :
    roundToDouble x = x := by
  unfold roundToDouble
  rw [h, roundHalfEven_intCast, ← h]
  have h2 : (2 : ℚ) ^ doubleExponent x ≠ 0 := zpow_ne_zero _ (by norm_num)
  field_simp

theorem doubleExponent_eq (x : ℚ) (n : Int) (hx : 0 < |x|) (h1 : (2 : ℚ) ^ n ≤ |x|)
    (h2 : |x| < (2 : ℚ) ^ (n + 1)) (hn : -1022 ≤ n) : doubleExponent x = n - 52 := by
  unfold doubleExponent
  have hl : Int.log 2 |x| = n := by
    apply le_antisymm
    · have := (Int.lt_zpow_iff_log_lt (by norm_num : 1 < 2) hx).mp (by exact_mod_cast h2)
      omega
    · exact (Int.zpow_le_iff_le_log (by norm_num : 1 < 2) hx).mp (by exact_mod_cast h1)
  rw [hl]
  omega

/-- The sum `2^53 + 1` lies halfway between the doubles `2^53` and `2^53 + 2` and is rounded to
the one with the even significand, `2^53`. -/
theorem roundToDouble_two_pow_53_add_one : roundToDouble (2 ^ 53 + 1) = 2 ^ 53 := by
  have he : doubleExponent (2 ^ 53 + 1) = 53 - 52 :=
    doubleExponent_eq _ 53 (by norm_num [abs_of_pos]) (by norm_num [abs_of_pos])
      (by norm_num [abs_of_pos]) (by norm_num)
  unfold roundToDouble
  rw [he]
  have hf : Int.floor (((2 : ℚ) ^ 53 + 1) / 2 ^ ((53 : Int) - 52)) = 2 ^ 52 := by
    rw [Int.floor_eq_iff]
    norm_num
  unfold roundHalfEven
  rw [hf]
  norm_num

/-- Every integer of magnitude at most `2^53` is a `double`. -/
theorem roundToDouble_intCast (z : Int) (hz : |z| ≤ 2 ^ 53) : roundToDouble (z : ℚ) = z := by
  by_cases h0 : z = 0
  · subst h0
    exact roundToDouble_of_multiple _ 0 (by simp)
  have hpos : (0 : ℚ) < |(z : ℚ)| := abs_pos.mpr (by exact_mod_cast h0)
  have hone : (1 : ℚ) ≤ |(z : ℚ)| := by
    have : (1 : Int) ≤ |z| := Int.one_le_abs h0
    exact_mod_cast this
  have hle : |(z : ℚ)| ≤ 2 ^ 53 := by exact_mod_cast hz
  have hL0 : 0 ≤ Int.log 2 |(z : ℚ)| :=
    (Int.zpow_le_iff_le_log (by norm_num : 1 < 2) hpos).mp (by simpa using hone)
  have hL1 : Int.log 2 |(z : ℚ)| < 54 :=
    (Int.lt_zpow_iff_log_lt (by norm_num : 1 < 2) hpos).mp (by
      have : (2 : ℚ) ^ 53 < 2 ^ (54 : Int) := by norm_num
      have h3 : |(z : ℚ)| < 2 ^ (54 : Int) := lt_of_le_of_lt hle this
      exact_mod_cast h3)
  have he : doubleExponent (z : ℚ) = Int.log 2 |(z : ℚ)| - 52 := by
    unfold doubleExponent
    omega
  by_cases hcase : Int.log 2 |(z : ℚ)| ≤ 52
  · obtain ⟨n, hn⟩ : ∃ n : Nat, Int.log 2 |(z : ℚ)| - 52 = -(n : Int) :=
      ⟨(52 - Int.log 2 |(z : ℚ)|).toNat, by omega⟩
    apply roundToDouble_of_multiple _ (z * 2 ^ n)
    rw [he, hn, zpow_neg, zpow_natCast, div_inv_eq_mul]
    push_cast
    ring
  · have hL : Int.log 2 |(z : ℚ)| = 53 := by omega
    have hge : (2 : ℚ) ^ (53 : Int) ≤ |(z : ℚ)| := by
      have := Int.zpow_log_le_self (by norm_num : 1 < 2) hpos
      rw [hL] at this
      exact_mod_cast this
    have habs : |z| = 2 ^ 53 := by
      apply le_antisymm hz
      have h3 : ((2 : Int) ^ 53 : ℚ) ≤ ((|z| : Int) : ℚ) := by
        push_cast
        exact_mod_cast hge
      exact_mod_cast h3
    have hz2 : z = 2 ^ 53 ∨ z = -2 ^ 53 := by
      rcases abs_cases z with ⟨h, _⟩ | ⟨h, _⟩
      · left; omega
      · right; omega
    rcases hz2 with h | h
    · apply roundToDouble_of_multiple _ (2 ^ 52)
      rw [he, hL, h]
      norm_num
    · apply roundToDouble_of_multiple _ (-2 ^ 52)
      rw [he, hL, h]
      norm_num

/-! ## The time of `StandardStochasticGradientOptimizer` in `double` -/

/-- After `StartOptimization` and `n` calls of `AdvanceOneStep` the time is `InitialTime + n`
when the `n` additions are exact. -/
theorem AdvanceOneStep_rounded_after_steps {R β : Type} [Field R] (fl : R → R)
    (pow : R → R → R) (superclass : StochasticGradientDescentOptimizerMethods R β)
    (s : StandardStochasticGradientOptimizer R β) (n : Nat)
    (hexact : ∀ k : Nat, k < n →
      fl (s.m_InitialTime + (k : R) + 1) = s.m_InitialTime + (k : R) + 1) :
    ((StandardStochasticGradientOptimizer.AdvanceOneStep_rounded fl pow superclass)^[n]
        (s.StartOptimization superclass)).m_CurrentTime = s.m_InitialTime + (n : R) := by
  induction n with
  | zero => simp [StandardStochasticGradientOptimizer.StartOptimization]
  | succ n ih =>
    rw [Function.iterate_succ_apply']
    have hstep : ∀ t : StandardStochasticGradientOptimizer R β,
        (t.AdvanceOneStep_rounded fl pow superclass).m_CurrentTime
          = fl (t.m_CurrentTime + 1) := fun _ => rfl
    rw [hstep, ih (fun k hk => hexact k (by omega)), hexact n (by omega)]
    push_cast
    ring

/-- C24 as stated fails on the code. The time is a `double` and `m_CurrentTime += 1.0` rounds:
with the initial time `2^53`, after `StartOptimization` and three calls of `AdvanceOneStep` the
current time is still `2^53` (the sum `2^53 + 1` is rounded back to `2^53` each time), not
`InitialTime + 3`. -/
theorem currentTime_stays_at_two_pow_53 :
    ((StandardStochasticGradientOptimizer.AdvanceOneStep_rounded roundToDouble (fun x _ => x)
        exampleSuperclass)^[3]
        ((exampleOptimizer (2 ^ 53)).StartOptimization exampleSuperclass)).m_CurrentTime
      = 2 ^ 53 ∧
    ((StandardStochasticGradientOptimizer.AdvanceOneStep_rounded roundToDouble (fun x _ => x)
        exampleSuperclass)^[3]
        ((exampleOptimizer (2 ^ 53)).StartOptimization exampleSuperclass)).m_CurrentTime
      ≠ (exampleOptimizer (2 ^ 53)).m_InitialTime + 3 := by
  have hstep : ∀ t : StandardStochasticGradientOptimizer ℚ Unit,
      (t.AdvanceOneStep_rounded roundToDouble (fun x _ => x) exampleSuperclass).m_CurrentTime
        = roundToDouble (t.m_CurrentTime + 1) := fun _ => rfl
  have h0 : ((exampleOptimizer (2 ^ 53)).StartOptimization exampleSuperclass).m_CurrentTime
      = 2 ^ 53 := rfl
  have h3 : ((StandardStochasticGradientOptimizer.AdvanceOneStep_rounded roundToDouble
        (fun x _ => x) exampleSuperclass)^[3]
        ((exampleOptimizer (2 ^ 53)).StartOptimization exampleSuperclass)).m_CurrentTime
      = 2 ^ 53 := by
    rw [Function.iterate_succ_apply', Function.iterate_succ_apply',
      Function.iterate_succ_apply', Function.iterate_zero, id, hstep, hstep, hstep, h0,
      roundToDouble_two_pow_53_add_one, roundToDouble_two_pow_53_add_one,
      roundToDouble_two_pow_53_add_one]
  refine ⟨h3, ?_⟩
  rw [h3]
  show (2 : ℚ) ^ 53 ≠ 2 ^ 53 + 3
  norm_num

/-- C24 amended (the time of the optimizer). `StartOptimization` sets the current time to the
initial time and every `AdvanceOneStep` replaces it by its sum with `1` rounded to `double`
(whatever the rounding `fl`); after `StartOptimization` followed by `n` calls of
`AdvanceOneStep` the current time is `InitialTime + n` provided the `n` sums
`InitialTime + k + 1`, `k < n`, are not changed by the rounding, which in `double` is the case
when the initial time is an integer `z` with `|z| + n ≤ 2^53`. -/
theorem currentTime_eq_initialTime_add_iterations {β : Type} (fl : ℚ → ℚ) (pow : ℚ → ℚ → ℚ)
    (superclass : StochasticGradientDescentOptimizerMethods ℚ β)
    (s : StandardStochasticGradientOptimizer ℚ β) (n : Nat) :
    (s.StartOptimization superclass).m_CurrentTime = s.m_InitialTime ∧
    (s.AdvanceOneStep_rounded fl pow superclass).m_CurrentTime = fl (s.m_CurrentTime + 1) ∧
    ((∀ k : Nat, k < n →
        fl (s.m_InitialTime + (k : ℚ) + 1) = s.m_InitialTime + (k : ℚ) + 1) →
      ((StandardStochasticGradientOptimizer.AdvanceOneStep_rounded fl pow superclass)^[n]
          (s.StartOptimization superclass)).m_CurrentTime = s.m_InitialTime + (n : ℚ)) ∧
    (∀ z : Int, s.m_InitialTime = (z : ℚ) → |z| + (n : Int) ≤ 2 ^ 53 →
      ((StandardStochasticGradientOptimizer.AdvanceOneStep_rounded roundToDouble pow
          superclass)^[n]
          (s.StartOptimization superclass)).m_CurrentTime = (z : ℚ) + (n : ℚ)) := by
  refine ⟨rfl, rfl, AdvanceOneStep_rounded_after_steps fl pow superclass s n, ?_⟩
  intro z hz hbound
  rw [AdvanceOneStep_rounded_after_steps roundToDouble pow superclass s n, hz]
  intro k hk
  rw [hz]
  have hcast : (z : ℚ) + (k : ℚ) + 1 = ((z + (k : Int) + 1 : Int) : ℚ) := by push_cast; ring
  rw [hcast]
  apply roundToDouble_intCast
  have h1 : |z + (k : Int) + 1| ≤ |z| + ((k : Int) + 1) := by
    have := abs_add z ((k : Int) + 1)
    have h2 : |(k : Int) + 1| = (k : Int) + 1 := abs_of_nonneg (by omega)
    rw [h2, ← add_assoc] at this
    exact this
  omega

/-- The amended time theorem applied to the initial time `0` and five steps in `double`. -/
theorem currentTime_eq_initialTime_add_iterations_witness :
    (exampleOptimizer 0).m_InitialTime = ((0 : Int) : ℚ) ∧
    |(0 : Int)| + ((5 : Nat) : Int) ≤ 2 ^ 53 ∧
    ((StandardStochasticGradientOptimizer.AdvanceOneStep_rounded roundToDouble (fun x _ => x)
        exampleSuperclass)^[5]
        ((exampleOptimizer 0).StartOptimization exampleSuperclass)).m_CurrentTime
      = ((0 : Int) : ℚ) + ((5 : Nat) : ℚ) :=
  ⟨by simp [exampleOptimizer], by decide,
    (currentTime_eq_initialTime_add_iterations roundToDouble (fun x _ => x) exampleSuperclass
      (exampleOptimizer 0) 5).2.2.2 0 (by simp [exampleOptimizer]) (by decide)⟩

/-! ## `DeformationFieldRegulizer::TransformPoint` in `double` -/

/-- C26 as stated fails on the code. The concrete regulizer holds the all-zero field installed
by `InitializeDeformationFields`, so its intermediary transform maps every point to itself;
with a wrapped transform that maps `p = 2^53` to `1`, `TransformPoint` computes in `double`
`(1 + 2^53) - 2^53`, where the sum is rounded to `2^53`, and returns `0`, not `T(p) = 1`. -/
theorem TransformPoint_rounded_loses_displacement :
    exampleRegulizerRat.m_IntermediaryDeformationFieldTransform
      = some [fun _ => 0, fun _ => 0, fun _ => 0] ∧
    exampleDFTransformRat.TransformPoint [fun _ => 0, fun _ => 0, fun _ => 0] ![2 ^ 53]
      = ![2 ^ 53] ∧
    exampleRegulizerRat.TransformPoint_rounded roundToDouble exampleDFTransformRat
        (fun _ => ![1]) ![2 ^ 53] = some ![0] ∧
    exampleRegulizerRat.TransformPoint_rounded roundToDouble exampleDFTransformRat
        (fun _ => ![1]) ![2 ^ 53] ≠ some ((fun _ => ![1]) ![2 ^ 53]) := by
  have hptr : exampleRegulizerRat.m_IntermediaryDeformationFieldTransform
      = some [fun _ => 0, fun _ => 0, fun _ => 0] := by
    unfold exampleRegulizerRat
    rw [InitializeDeformationFields_eq]
    simp [exampleDFTransformRat, DeformationFieldRegulizer.zeroDeformationField,
      DeformationFieldRegulizer.Constructor, ImageRegion.GetNumberOfPixels, List.replicate]
  have hDF : exampleDFTransformRat.TransformPoint [fun _ => 0, fun _ => 0, fun _ => 0]
      ![2 ^ 53] = ![2 ^ 53] := by
    funext i
    simp [exampleDFTransformRat]
  have hsum : roundToDouble (1 + 2 ^ 53) = 2 ^ 53 := by
    rw [add_comm]; exact roundToDouble_two_pow_53_add_one
  have hzero : roundToDouble 0 = 0 := by
    have := roundToDouble_intCast 0 (by norm_num)
    simpa using this
  have hres : exampleRegulizerRat.TransformPoint_rounded roundToDouble exampleDFTransformRat
      (fun _ => ![1]) ![2 ^ 53] = some ![0] := by
    unfold DeformationFieldRegulizer.TransformPoint_rounded
    rw [hptr]
    simp only [hDF]
    congr 1
    funext i
    fin_cases i
    simp [hsum, hzero]
  refine ⟨hptr, hDF, hres, ?_⟩
  rw [hres]
  intro h
  have h2 := congrFun (Option.some.inj h) 0
  simp at h2

/-- C26 amended (`DeformationFieldRegulizer::TransformPoint` adds displacements). With the
intermediary transform `DF` in place, component `i` of the result is
`T(p)[i] + DF(p)[i] - p[i]` computed with a rounding after the addition and after the
subtraction, `T` being the wrapped transform. When `DF` maps `p` to itself the result is `T(p)`
provided the sums `T(p)[i] + p[i]` and the components `T(p)[i]` are not changed by the rounding
(always so in exact arithmetic, `fl` the identity). After `InitializeDeformationFields` the
intermediary transform holds the all-zero field, and the same holds if the intermediary
transform maps `p` to itself on that field. -/
theorem TransformPoint_adds_displacements {R : Type} [Ring R] {D : Nat} {τ : Type}
    (fl : R → R) (dfTransform : IntermediaryDFTransformType R D τ)
    (T : (Fin D → R) → (Fin D → R)) (s : DeformationFieldRegulizer R D τ) (DF : τ)
    (hDF : s.m_IntermediaryDeformationFieldTransform = some DF) (p : Fin D → R) :
    s.TransformPoint_rounded fl dfTransform T p
      = some (fun i => fl (fl (T p i + dfTransform.TransformPoint DF p i) - p i)) ∧
    (dfTransform.TransformPoint DF p = p →
      (∀ i, fl (T p i + p i) = T p i + p i) → (∀ i, fl (T p i) = T p i) →
      s.TransformPoint_rounded fl dfTransform T p = some (T p)) ∧
    s.TransformPoint_rounded (fun x => x) dfTransform T p = s.TransformPoint dfTransform T p ∧
    ∀ (allocated : Nat → Fin D → R) (s0 : DeformationFieldRegulizer R D τ),
      (s0.InitializeDeformationFields dfTransform allocated).m_IntermediaryDeformationFieldTransform
        = some (dfTransform.SetCoefficientImage dfTransform.New s0.zeroDeformationField) ∧
      (dfTransform.TransformPoint
          (dfTransform.SetCoefficientImage dfTransform.New s0.zeroDeformationField) p = p →
        (∀ i, fl (T p i + p i) = T p i + p i) → (∀ i, fl (T p i) = T p i) →
        (s0.InitializeDeformationFields dfTransform allocated).TransformPoint_rounded fl
            dfTransform T p
          = some (T p)) := by
  have h1 : s.TransformPoint_rounded fl dfTransform T p
      = some (fun i => fl (fl (T p i + dfTransform.TransformPoint DF p i) - p i)) := by
    simp [DeformationFieldRegulizer.TransformPoint_rounded, hDF]
  refine ⟨h1, ?_, rfl, ?_⟩
  · intro hid hsum hT
    rw [h1, hid]
    congr 1
    funext i
    rw [hsum i, add_sub_cancel_right, hT i]
  · intro allocated s0
    rw [InitializeDeformationFields_eq]
    refine ⟨rfl, ?_⟩
    intro hid hsum hT
    simp only [DeformationFieldRegulizer.TransformPoint_rounded, hid]
    congr 1
    funext i
    rw [hsum i, add_sub_cancel_right, hT i]

/-- The amended displacement theorem applied in `double` to the concrete regulizer holding the
all-zero field, the wrapped transform mapping `p = 2` to `1`: the sum `1 + 2` and the component
`1` are doubles, and the result is `T(p)`. -/
theorem TransformPoint_adds_displacements_witness :
    exampleRegulizerRat.m_IntermediaryDeformationFieldTransform
      = some [fun _ => 0, fun _ => 0, fun _ => 0] ∧
    exampleDFTransformRat.TransformPoint [fun _ => 0, fun _ => 0, fun _ => 0] ![2] = ![2] ∧
    (∀ i, roundToDouble ((fun _ : Fin 1 → ℚ => (![1] : Fin 1 → ℚ)) ![2] i + (![2] : Fin 1 → ℚ) i)
        = (fun _ : Fin 1 → ℚ => (![1] : Fin 1 → ℚ)) ![2] i + (![2] : Fin 1 → ℚ) i) ∧
    (∀ i, roundToDouble ((fun _ : Fin 1 → ℚ => (![1] : Fin 1 → ℚ)) ![2] i)
        = (fun _ : Fin 1 → ℚ => (![1] : Fin 1 → ℚ)) ![2] i) ∧
    exampleRegulizerRat.TransformPoint_rounded roundToDouble exampleDFTransformRat
        (fun _ => ![1]) ![2] = some ((fun _ : Fin 1 → ℚ => (![1] : Fin 1 → ℚ)) ![2]) :=
  have hptr : exampleRegulizerRat.m_IntermediaryDeformationFieldTransform
      = some [fun _ => 0, fun _ => 0, fun _ => 0] := by
    unfold exampleRegulizerRat
    rw [InitializeDeformationFields_eq]
    simp [exampleDFTransformRat, DeformationFieldRegulizer.zeroDeformationField,
      DeformationFieldRegulizer.Constructor, ImageRegion.GetNumberOfPixels, List.replicate]
  have hDF : exampleDFTransformRat.TransformPoint [fun _ => 0, fun _ => 0, fun _ => 0] ![2]
      = ![2] := by
    funext i
    simp [exampleDFTransformRat]
  have hsum : ∀ i, roundToDouble ((fun _ : Fin 1 → ℚ => (![1] : Fin 1 → ℚ)) ![2] i
        + (![2] : Fin 1 → ℚ) i)
      = (fun _ : Fin 1 → ℚ => (![1] : Fin 1 → ℚ)) ![2] i + (![2] : Fin 1 → ℚ) i := by
    intro i
    fin_cases i
    have := roundToDouble_intCast 3 (by norm_num)
    norm_num at this ⊢
    exact this
  have hT : ∀ i, roundToDouble ((fun _ : Fin 1 → ℚ => (![1] : Fin 1 → ℚ)) ![2] i)
      = (fun _ : Fin 1 → ℚ => (![1] : Fin 1 → ℚ)) ![2] i := by
    intro i
    fin_cases i
    have := roundToDouble_intCast 1 (by norm_num)
    norm_num at this ⊢
    exact this
  ⟨hptr, hDF, hsum, hT,
    (TransformPoint_adds_displacements roundToDouble exampleDFTransformRat (fun _ => ![1])
      exampleRegulizerRat [fun _ => 0, fun _ => 0, fun _ => 0] hptr ![2]).2.1 hDF hsum hT⟩

end itk
